import Mathlib

/-! Streaming chunked-AEAD container of `pkg/cryptolib`

A shallow embedding of `cryptolib.go` (`incrementNonce`, `EncryptStream`,
`DecryptStream`) and theorems about it.

Modelling conventions.
* A byte is a natural number; byte arithmetic of the source is written with an
  explicit `% 256`, `uint32` conversion with `% 2 ^ 32`, `int64` arithmetic with
  an explicit two's complement wrap.
* The external primitives (`pbkdf2.Key`, `cipher.AEAD.Seal`, `cipher.AEAD.Open`)
  are the fields of `Primitives`; what a theorem assumes about them is a
  hypothesis of that theorem.
* `io.Reader` / `io.Writer` values are explicit states: a byte stream read with
  `io.ReadFull`, a script of `Read` results, a sink that appends.
* Effects that the source performs on its environment and that a claim speaks
  about (progress callbacks, nonces handed to `Seal`, number of `Read` calls)
  are recorded in the state as logs.
-/

namespace Cryptolib

/-- A byte slice; every element stands for one byte. -/
abbrev Bytes := List Nat

/-! ## Constants (`cryptolib.go`, lines 16-22) -/

/-- Size of the plaintext read buffer: 64KB input block. -/
def ChunkSize : Nat := 64 * 1024

/-- Length of the derived key. -/
def KeySize : Nat := 32

/-- Length of the nonce. -/
def NonceSize : Nat := 12

/-- Length of the salt. -/
def SaltSize : Nat := 16

/-- Iteration count handed to PBKDF2. -/
def Iterations : Nat := 100000

/-- Modelled from the spec: the value of `aesGCM.Overhead()`, which the spec
fixes as "AEAD tag size 16 bytes"; the AEAD implementation is a library and not
part of the repository. -/
def Overhead : Nat := 16

/-! ## Machine integers -/

/-- Conversion to `uint32`. -/
def uint32 (n : Nat) : Nat := n % 2 ^ 32

/-- Result of an `int64` operation whose mathematical value is `x`. -/
def int64 (x : Int) : Int := (x + 2 ^ 63) % 2 ^ 64 - 2 ^ 63

/-- The call `binary.BigEndian.PutUint32(lenBuf, v)`: the four bytes stored. -/
def PutUint32 (v : Nat) : Bytes :=
  [v / 2 ^ 24 % 256, v / 2 ^ 16 % 256, v / 2 ^ 8 % 256, v % 256]

/-- The call `binary.BigEndian.Uint32(lenBuf)` on a four byte buffer. -/
def Uint32 (b : Bytes) : Nat :=
  b.getD 0 0 * 2 ^ 24 + b.getD 1 0 * 2 ^ 16 + b.getD 2 0 * 2 ^ 8 + b.getD 3 0

/-- Value of a buffer read as a big-endian unsigned integer. -/
def beValue (b : Bytes) : Nat := b.foldl (fun acc x => acc * 256 + x) 0

/-- Every element of the buffer is a byte value. -/
def IsBytes (b : Bytes) : Prop := ∀ x ∈ b, x < 256

instance (b : Bytes) : Decidable (IsBytes b) := by
  unfold IsBytes; infer_instance

/-! ## `incrementNonce` (lines 29-37) -/

/-- The loop of `incrementNonce`; `incrementLoop nonce (i + 1)` is the loop
about to run its body at index `i`, `incrementLoop nonce 0` is the loop left
because `i >= 0` fails. -/
def incrementLoop (nonce : Bytes) : Nat → Bytes
  | 0 => nonce
  | i + 1 =>
    let v := (nonce.getD i 0 + 1) % 256
    let nonce1 := nonce.set i v
    if v ≠ 0 then nonce1 else incrementLoop nonce1 i

/-- The buffer left by `incrementNonce(nonce)`. -/
def incrementNonce (nonce : Bytes) : Bytes := incrementLoop nonce nonce.length

/-! ## Errors and external primitives -/

/-- The error values that the two stream functions can return. -/
inductive Error where
  /-- The value `io.EOF`. -/
  | EOF
  /-- The value `io.ErrUnexpectedEOF`, made by `io.ReadFull`. -/
  | ErrUnexpectedEOF
  /-- Any other error of a `Read` call on the source. -/
  | readFailed (code : Nat)
  /-- The error of a `Write` call on the sink. -/
  | ErrShortWrite
  /-- The error of `aes.NewCipher` for a key of the wrong length. -/
  | KeySizeError (keyLen : Nat)
  /-- The error "chunk too large: %d > %d (corrupted file or attack)". -/
  | chunkTooLarge (chunkLen maxChunkLen : Nat)
  /-- The error "unexpected EOF while reading chunk". -/
  | unexpectedEOFChunk
  /-- The error returned by `aesGCM.Open`. -/
  | openFailed
  deriving DecidableEq, Repr

/-- The library functions the package calls: `pbkdf2.Key` (with SHA-256),
`Seal` and `Open` of the AES-GCM AEAD, both with `dst = nil` and no additional
data. Arguments of `Seal` and `Open`: key, nonce, text. -/
structure Primitives where
  /-- The call `pbkdf2.Key(password, salt, iter, keyLen, sha256.New)`. -/
  pbkdf2Key : Bytes → Bytes → Nat → Nat → Bytes
  /-- The call `aesGCM.Seal(nil, nonce, plaintext, nil)` under a key. -/
  Seal : Bytes → Bytes → Bytes → Bytes
  /-- The call `aesGCM.Open(nil, nonce, ciphertext, nil)` under a key. -/
  Open : Bytes → Bytes → Bytes → Option Bytes

/-- The function `deriveKey` (lines 25-27). -/
def deriveKey (C : Primitives) (password salt : Bytes) : Bytes :=
  C.pbkdf2Key password salt Iterations KeySize

/-- The error result of `aes.NewCipher(key)`: the key must have 16, 24 or 32
bytes. `cipher.NewGCM` does not fail on an AES block. -/
def NewCipher (key : Bytes) : Option Error :=
  if key.length = 16 ∨ key.length = 24 ∨ key.length = 32 then none
  else some (Error.KeySizeError key.length)

/-! ## Readers and writers -/

/-- The call `io.ReadFull(r, buf)` with `len(buf) = n` on a reader that holds
the finite byte stream `src` and then reports end of file: the error, the bytes
read when there is none, and the stream left. -/
def ReadFull (src : Bytes) (n : Nat) : Option Error × Bytes × Bytes :=
  if n = 0 then (none, [], src)
  else if src.length = 0 then (some Error.EOF, [], src)
  else if src.length < n then (some Error.ErrUnexpectedEOF, [], [])
  else (none, src.take n, src.drop n)

/-- One result `(n, err)` of a call `input.Read(buf)`: `data` is `buf[:n]`. -/
structure ReadResult where
  /-- The bytes `buf[:n]`. -/
  data : Bytes
  /-- The error, `none` for `nil`. -/
  err : Option Error
  deriving DecidableEq, Repr

/-- A plaintext source: the results of its successive `Read` calls. A source
whose script is used up answers `(0, io.EOF)`. -/
abbrev Source := List ReadResult

/-- A sink: the bytes it holds and the number of bytes it still accepts
(`none`: no bound). -/
structure Writer where
  /-- The bytes written so far. -/
  buf : Bytes
  /-- The space left, `none` when unbounded. -/
  room : Option Nat
  deriving DecidableEq, Repr

/-- The call `output.Write(p)`: the sink afterwards and the error. A write that
does not fit stores what fits and fails. -/
def Writer.Write (w : Writer) (p : Bytes) : Writer × Option Error :=
  match w.room with
  | none => (⟨w.buf ++ p, none⟩, none)
  | some m =>
    if p.length ≤ m then (⟨w.buf ++ p, some (m - p.length)⟩, none)
    else (⟨w.buf ++ p.take m, some 0⟩, some Error.ErrShortWrite)

/-- A returned error (`none` for `nil`) with the state at return. -/
structure Result (σ : Type) where
  /-- The returned error. -/
  err : Option Error
  /-- The state at return. -/
  state : σ
  deriving DecidableEq, Repr

/-! ## `EncryptStream` (lines 44-111) -/

/-- The variables of the loop of `EncryptStream` with the effects so far. -/
structure EncState where
  /-- The sink. -/
  output : Writer
  /-- The variable `currNonce`. -/
  currNonce : Bytes
  /-- The variable `processedBytes`. -/
  processedBytes : Int
  /-- The calls `onProgress(bytesProcessed, totalBytes)` made, in order. -/
  progress : List (Int × Int)
  /-- The nonces handed to `Seal`, in order. -/
  sealNonces : List Bytes
  /-- The number of calls `input.Read(buf)` made. -/
  reads : Nat
  deriving DecidableEq, Repr

/-- The block `if n > 0 { ... }` of the loop (lines 85-102) for a read that
returned `data`; the error is that of an early `return err`. -/
def encChunk (C : Primitives) (key : Bytes) (totalBytes : Int) (onProgress : Bool)
    (data : Bytes) (st : EncState) : Option Error × EncState :=
  if data.length > 0 then
    let ciphertext := C.Seal key st.currNonce data
    let st1 := { st with sealNonces := st.sealNonces ++ [st.currNonce] }
    match st1.output.Write (PutUint32 (uint32 ciphertext.length)) with
    | (w, some e) => (some e, { st1 with output := w })
    | (w, none) =>
      match w.Write ciphertext with
      | (w2, some e) => (some e, { st1 with output := w2 })
      | (w2, none) =>
        let p := int64 (st1.processedBytes + data.length)
        (none, { st1 with
          output := w2
          currNonce := incrementNonce st1.currNonce
          processedBytes := p
          progress := if onProgress then st1.progress ++ [(p, totalBytes)] else st1.progress })
  else (none, st)

/-- The loop `for { ... }` of `EncryptStream` (lines 83-109). -/
def encLoop (C : Primitives) (key : Bytes) (totalBytes : Int) (onProgress : Bool) :
    Source → EncState → Result EncState
  | [], st => ⟨none, { st with reads := st.reads + 1 }⟩
  | r :: rest, st =>
    match encChunk C key totalBytes onProgress r.data { st with reads := st.reads + 1 } with
    | (some e, st1) => ⟨some e, st1⟩
    | (none, st1) =>
      match r.err with
      | some Error.EOF => ⟨none, st1⟩
      | some e => ⟨some e, st1⟩
      | none => encLoop C key totalBytes onProgress rest st1

/-- The function `EncryptStream`; `rand` is the byte stream of `rand.Reader`,
`onProgress` tells whether the callback is non-nil. -/
def EncryptStream (C : Primitives) (rand : Bytes) (input : Source) (output : Writer)
    (password : Bytes) (totalBytes : Int) (onProgress : Bool) : Result EncState :=
  let st0 : EncState := ⟨output, [], 0, [], [], 0⟩
  match ReadFull rand SaltSize with
  | (some e, _, _) => ⟨some e, st0⟩
  | (none, salt, rand1) =>
    match output.Write salt with
    | (w1, some e) => ⟨some e, { st0 with output := w1 }⟩
    | (w1, none) =>
      let key := deriveKey C password salt
      match NewCipher key with
      | some e => ⟨some e, { st0 with output := w1 }⟩
      | none =>
        match ReadFull rand1 NonceSize with
        | (some e, _, _) => ⟨some e, { st0 with output := w1 }⟩
        | (none, nonce, _) =>
          match w1.Write nonce with
          | (w2, some e) => ⟨some e, { st0 with output := w2 }⟩
          | (w2, none) =>
            encLoop C key totalBytes onProgress input
              { st0 with output := w2, currNonce := nonce }

/-! ## `DecryptStream` (lines 115-180) -/

/-- The variables of the loop of `DecryptStream` with the effects so far. -/
structure DecState where
  /-- The bytes of the source not read yet. -/
  input : Bytes
  /-- The sink. -/
  output : Writer
  /-- The variable `currNonce`. -/
  currNonce : Bytes
  /-- The variable `processedBytes`. -/
  processedBytes : Int
  /-- The calls `onProgress(bytesProcessed, totalBytes)` made, in order. -/
  progress : List (Int × Int)
  deriving DecidableEq, Repr

/-- What one pass through the loop body does: go round again, or leave the
function with an error or with `nil`. -/
inductive Step where
  /-- The body ran to its end. -/
  | next (st : DecState)
  /-- The `break` (`err = none`) or a `return err`. -/
  | stop (err : Option Error) (st : DecState)
  deriving DecidableEq, Repr

/-- The body of the loop of `DecryptStream` (lines 148-177). -/
def decStep (C : Primitives) (key : Bytes) (maxChunkLen : Nat) (totalBytes : Int)
    (onProgress : Bool) (st : DecState) : Step :=
  match ReadFull st.input 4 with
  | (some e, _, rest) =>
    if e = Error.EOF then Step.stop none { st with input := rest }
    else Step.stop (some e) { st with input := rest }
  | (none, lenBuf, rest) =>
    let st1 := { st with input := rest, processedBytes := int64 (st.processedBytes + 4) }
    let chunkLen := Uint32 lenBuf
    if chunkLen > maxChunkLen then
      Step.stop (some (Error.chunkTooLarge chunkLen maxChunkLen)) st1
    else
      match ReadFull st1.input chunkLen with
      | (some _, _, rest2) => Step.stop (some Error.unexpectedEOFChunk) { st1 with input := rest2 }
      | (none, ciphertext, rest2) =>
        let st2 := { st1 with
          input := rest2, processedBytes := int64 (st1.processedBytes + chunkLen) }
        match C.Open key st2.currNonce ciphertext with
        | none => Step.stop (some Error.openFailed) st2
        | some plaintext =>
          match st2.output.Write plaintext with
          | (w, some e) => Step.stop (some e) { st2 with output := w }
          | (w, none) =>
            Step.next { st2 with
              output := w
              currNonce := incrementNonce st2.currNonce
              progress :=
                if onProgress then st2.progress ++ [(st2.processedBytes, totalBytes)]
                else st2.progress }

/-- The loop `for { ... }` of `DecryptStream` (lines 147-178). -/
def decLoop (C : Primitives) (key : Bytes) (maxChunkLen : Nat) (totalBytes : Int)
    (onProgress : Bool) (st : DecState) : Result DecState :=
  match h : decStep C key maxChunkLen totalBytes onProgress st with
  | Step.next st1 => decLoop C key maxChunkLen totalBytes onProgress st1
  | Step.stop err st1 => ⟨err, st1⟩
termination_by st.input.length
decreasing_by
  have hrf : ∀ (src : Bytes) (n : Nat) (d r : Bytes),
      ReadFull src n = (none, d, r) → r.length + n = src.length := by
    intro src n d r hr
    unfold ReadFull at hr
    split_ifs at hr with h1 h2 h3
    · simp only [Prod.mk.injEq, true_and] at hr
      rw [← hr.2, h1]; rfl
    · simp at hr
    · simp at hr
    · simp only [Prod.mk.injEq, true_and] at hr
      rw [← hr.2, List.length_drop]; omega
  unfold decStep at h
  split at h
  · split at h <;> cases h
  · rename_i lenBuf rest heq
    have h4 := hrf _ _ _ _ heq
    simp only at h
    split at h
    · cases h
    · split at h
      · cases h
      · rename_i ct rest2 heq2
        have h5 := hrf _ _ _ _ heq2
        simp only at h5
        split at h
        · cases h
        · split at h
          · cases h
          · cases h
            show rest2.length < st.input.length
            omega

/-- The function `DecryptStream`; `input` is the byte stream of the source,
`onProgress` tells whether the callback is non-nil. -/
def DecryptStream (C : Primitives) (input : Bytes) (output : Writer) (password : Bytes)
    (totalBytes : Int) (onProgress : Bool) : Result DecState :=
  let st0 : DecState := ⟨input, output, [], 0, []⟩
  match ReadFull input SaltSize with
  | (some e, _, rest) => ⟨some e, { st0 with input := rest }⟩
  | (none, salt, rest) =>
    let key := deriveKey C password salt
    match NewCipher key with
    | some e => ⟨some e, { st0 with input := rest }⟩
    | none =>
      match ReadFull rest NonceSize with
      | (some e, _, rest2) => ⟨some e, { st0 with input := rest2 }⟩
      | (none, nonce, rest2) =>
        decLoop C key (uint32 (ChunkSize + Overhead)) totalBytes onProgress
          { st0 with
            input := rest2
            currNonce := nonce
            processedBytes := int64 ((SaltSize : Int) + NonceSize) }

/-! ## A small instance of the primitives

Used to evaluate the stream functions on concrete inputs. Its `Seal` appends a
16 byte tag to the plaintext, its `Open` recomputes the tag. -/

/-- Exclusive or of all bytes of a buffer. -/
def xorFold (p : Bytes) : Nat := p.foldr (fun x acc => x ^^^ acc) 0

/-- The 16 byte tag of the small instance. -/
def toyTag (key nonce p : Bytes) : Bytes :=
  xorFold p :: key.sum % 256 :: nonce.sum % 256 :: List.replicate 13 0

/-- The small instance of the primitives. -/
def toy : Primitives where
  pbkdf2Key := fun password salt _ keyLen => (password ++ salt ++ List.replicate keyLen 0).take keyLen
  Seal := fun key nonce p => p ++ toyTag key nonce p
  Open := fun key nonce c =>
    if 16 ≤ c.length ∧ c.drop (c.length - 16) = toyTag key nonce (c.take (c.length - 16)) then
      some (c.take (c.length - 16))
    else none

/-! ## Containers -/

/-- The source whose successive reads return the slices `rs` without error and
which then reports end of file. -/
def Source.ofReads (rs : List Bytes) : Source := rs.map (fun r => ⟨r, none⟩)

/-- The source whose successive reads return the slices `rs` and whose last
read returns its bytes together with `io.EOF`. -/
def Source.ofReadsEOF : List Bytes → Source
  | [] => []
  | [r] => [⟨r, some Error.EOF⟩]
  | r :: r2 :: rs => ⟨r, none⟩ :: Source.ofReadsEOF (r2 :: rs)

/-- The source delivers the reads `rs` and then ends, in one of the two ways an
`io.Reader` may do so: the end of file is reported by a further read that
returns no bytes, or together with the last bytes. -/
def Delivers (src : Source) (rs : List Bytes) : Prop :=
  src = Source.ofReads rs ∨ src = Source.ofReadsEOF rs

/-- The empty sink that accepts every write. -/
def Writer.empty : Writer := ⟨[], none⟩

/-- The frames made of the chunks `rs` under a key, the first one sealed with
`nonce`: length field, sealed chunk, then the frames of the other chunks with
the incremented nonce. -/
def frames (C : Primitives) (key nonce : Bytes) : List Bytes → Bytes
  | [] => []
  | r :: rs =>
    PutUint32 (uint32 (C.Seal key nonce r).length) ++ C.Seal key nonce r ++
      frames C key (incrementNonce nonce) rs

/-- The frame of the chunk `r` that is number `i` (from 0) of a stream with base
nonce `b`, as the container layout describes it: the four byte big-endian
encoding of `len r + 16`, then `Seal(key, b incremented i times, r)`. -/
def layoutFrame (C : Primitives) (key b : Bytes) (i : Nat) (r : Bytes) : Bytes :=
  PutUint32 (r.length + 16) ++ C.Seal key (incrementNonce^[i] b) r

/-- The container layout for salt `s`, base nonce `b` and chunks `rs`. -/
def layout (C : Primitives) (key s b : Bytes) (rs : List Bytes) : Bytes :=
  s ++ b ++ (rs.enum.map (fun ir => layoutFrame C key b ir.1 ir.2)).flatten

/-! ## Assumptions on the primitives -/

/-- The contract of `pbkdf2.Key`: the derived key has the requested length. -/
def KeyLength (C : Primitives) : Prop :=
  ∀ password salt iter keyLen, (C.pbkdf2Key password salt iter keyLen).length = keyLen

/-- The sealed chunk is the plaintext length plus the tag size. -/
def SealLength (C : Primitives) : Prop :=
  ∀ key nonce p, (C.Seal key nonce p).length = p.length + Overhead

/-- The call `Open` inverts `Seal` under the same key and nonce. -/
def OpenInvertsSeal (C : Primitives) : Prop :=
  ∀ key nonce p, C.Open key nonce (C.Seal key nonce p) = some p

/-- A frame as the decryption loop meets it: the four bytes of the length
field, the sealed chunk, and the plaintext that `Open` returns for it. -/
structure Frame where
  /-- The length field. -/
  lenBuf : Bytes
  /-- The sealed chunk. -/
  ciphertext : Bytes
  /-- The opened chunk. -/
  plaintext : Bytes
  deriving DecidableEq, Repr

/-- The bytes of a sequence of frames in a container. -/
def encodeFrames (fs : List Frame) : Bytes :=
  (fs.map (fun f => f.lenBuf ++ f.ciphertext)).flatten

/-- Every frame of the sequence is read and opened successfully, the first one
under `nonce`: its length field has four bytes and declares at most 65552, the
sealed chunk has the declared length, and `Open` under the nonce of the frame
returns its plaintext. -/
def FramesOpen (C : Primitives) (key : Bytes) : Bytes → List Frame → Prop
  | _, [] => True
  | nonce, f :: fs =>
    f.lenBuf.length = 4 ∧ Uint32 f.lenBuf ≤ 65552 ∧ f.ciphertext.length = Uint32 f.lenBuf ∧
      C.Open key nonce f.ciphertext = some f.plaintext ∧
      FramesOpen C key (incrementNonce nonce) fs

/-- Whether frames open can be computed. -/
def FramesOpen.decide (C : Primitives) (key : Bytes) :
    (nonce : Bytes) → (fs : List Frame) → Decidable (FramesOpen C key nonce fs)
  | _, [] => isTrue trivial
  | nonce, f :: fs =>
    have := FramesOpen.decide C key (incrementNonce nonce) fs
    inferInstanceAs (Decidable
      (f.lenBuf.length = 4 ∧ Uint32 f.lenBuf ≤ 65552 ∧ f.ciphertext.length = Uint32 f.lenBuf ∧
        C.Open key nonce f.ciphertext = some f.plaintext ∧
        FramesOpen C key (incrementNonce nonce) fs))

instance (C : Primitives) (key nonce : Bytes) (fs : List Frame) :
    Decidable (FramesOpen C key nonce fs) :=
  FramesOpen.decide C key nonce fs

/-- The frames that `EncryptStream` makes of the chunks `rs`, the first one
sealed with `nonce`. -/
def sealedFrames (C : Primitives) (key nonce : Bytes) : List Bytes → List Frame
  | [] => []
  | r :: rs =>
    ⟨PutUint32 (uint32 (C.Seal key nonce r).length), C.Seal key nonce r, r⟩ ::
      sealedFrames C key (incrementNonce nonce) rs

/-- The loop state of `DecryptStream` after it has read, opened and written the
frames `fs`, leaving aside the source position. -/
def decAdvance (totalBytes : Int) (onProgress : Bool) : List Frame → DecState → DecState
  | [], st => st
  | f :: fs, st =>
    let p := int64 (int64 (st.processedBytes + 4) + (Uint32 f.lenBuf : Nat))
    decAdvance totalBytes onProgress fs
      { st with
        output := ⟨st.output.buf ++ f.plaintext, st.output.room⟩
        currNonce := incrementNonce st.currNonce
        processedBytes := p
        progress := if onProgress then st.progress ++ [(p, totalBytes)] else st.progress }

/-- Offset in the container of the frame of chunk number `j` (from 0): the 28
header bytes and, for each earlier chunk, its length field and sealed bytes. -/
def frameStart (rs : List Bytes) (j : Nat) : Nat :=
  28 + ((rs.take j).map (fun r => r.length + 20)).sum

/-- The buffer with bit `b` of the byte at offset `t` flipped. -/
def flipBit (bs : Bytes) (t b : Nat) : Bytes := bs.set t (bs.getD t 0 ^^^ 2 ^ b)

/-- The call `Open` rejects a sealed chunk in which one bit was flipped. -/
def TamperEvident (C : Primitives) : Prop :=
  ∀ key nonce p i b, i < (C.Seal key nonce p).length → b < 8 →
    C.Open key nonce (flipBit (C.Seal key nonce p) i b) = none

/-- The call `Open` under `key2` rejects every chunk sealed under `key`. -/
def WrongKeyRejected (C : Primitives) (key key2 : Bytes) : Prop :=
  ∀ nonce p, C.Open key2 nonce (C.Seal key nonce p) = none

/-- A salt for the examples. -/
def exSalt : Bytes := List.range 16

/-- A base nonce for the examples; its last byte carries at the first increment. -/
def exNonce : Bytes := List.replicate 11 0 ++ [255]

/-- Two reads for the examples. -/
def exReads : List Bytes := [[1, 2, 3], [4]]

/-! ## Files, filling sources and expected progress calls -/

/-- The function `DecryptFile` (lines 204-224). `inFile` holds the bytes of the
file at `inputPath`, `none` when `os.Open` or `Stat` fails; `outFile` is the
sink that `os.Create` makes, `none` when it fails. The result is `none` when
the function returns the error of one of these calls before it reaches
`DecryptStream`; `fileInfo.Size()` is the number of bytes of the input file. -/
def DecryptFile (C : Primitives) (inFile : Option Bytes) (outFile : Option Writer)
    (password : Bytes) (onProgress : Bool) : Option (Result DecState) :=
  match inFile with
  | none => none
  | some data =>
    let totalSize : Int := (data.length : Int)
    match outFile with
    | none => none
    | some w => some (DecryptStream C data w password totalSize onProgress)

/-- The reads of a source that holds the plaintext `P` and fills the buffer of
`ChunkSize` bytes at every read until the data is used up. -/
def fillReads (P : Bytes) : List Bytes :=
  if h : P = [] then [] else P.take ChunkSize :: fillReads (P.drop ChunkSize)
termination_by P.length
decreasing_by
  have hpos : 0 < P.length := List.length_pos.2 h
  simp only [List.length_drop, ChunkSize]
  omega

/-- The result of read number `i` (from 0) on a source: its script entry, and
`(0, io.EOF)` behind the script. -/
def Source.result (src : Source) (i : Nat) : ReadResult := src.getD i ⟨[], some Error.EOF⟩

/-- The progress calls expected of `EncryptStream` on the chunks `rs` when
`start` bytes were counted before: one call per chunk, with the plaintext bytes
counted so far and the total of the caller. -/
def encProgress (totalBytes : Int) : Int → List Bytes → List (Int × Int)
  | _, [] => []
  | start, r :: rs =>
    (start + (r.length : Int), totalBytes) :: encProgress totalBytes (start + (r.length : Int)) rs

/-- The progress calls expected of `DecryptStream` on the frames `fs` when
`start` bytes were counted before: one call per frame, with the container bytes
counted so far (four bytes of length field and the declared length per frame)
and the total of the caller. -/
def decProgress (totalBytes : Int) : Int → List Frame → List (Int × Int)
  | _, [] => []
  | start, f :: fs =>
    (start + 4 + (Uint32 f.lenBuf : Int), totalBytes) ::
      decProgress totalBytes (start + 4 + (Uint32 f.lenBuf : Int)) fs

/-- The running sums of the increments `ds` from `start`, each paired with
`totalBytes`. -/
def runningSums (totalBytes : Int) : Int → List Nat → List (Int × Int)
  | _, [] => []
  | start, d :: ds => (start + (d : Int), totalBytes) :: runningSums totalBytes (start + (d : Int)) ds

/-- The frame that the decryption loop meets first in `tail` fails in one of
the three ways of the loop body: its length field declares more than 65552,
the source ends before the declared number of bytes, or `Open` under `nonce`
rejects the sealed chunk. -/
def FrameFails (C : Primitives) (key nonce tail : Bytes) : Prop :=
  ∃ lenBuf rest, tail = lenBuf ++ rest ∧ lenBuf.length = 4 ∧
    (65552 < Uint32 lenBuf ∨ rest.length < Uint32 lenBuf ∨
      ∃ c rest2, rest = c ++ rest2 ∧ c.length = Uint32 lenBuf ∧ C.Open key nonce c = none)

/-! ## Byte arithmetic -/

theorem beValue_append_singleton (q : Bytes) (x : Nat) :
    beValue (q ++ [x]) = beValue q * 256 + x := by
  simp [beValue, List.foldl_append]

theorem beValue_lt (b : Bytes) (hb : IsBytes b) : beValue b < 256 ^ b.length := by
  induction b using List.reverseRecOn with
  | nil => simp [beValue]
  | append_singleton q x ih =>
    have hq : IsBytes q := fun y hy => hb y (by simp [hy])
    have hx : x < 256 := hb x (by simp)
    have := ih hq
    rw [beValue_append_singleton, List.length_append, List.length_singleton, pow_succ]
    nlinarith

theorem incrementLoop_snoc (q : Bytes) (x : Nat) (suf : Bytes) :
    incrementLoop (q ++ x :: suf) (q.length + 1) =
      if (x + 1) % 256 ≠ 0 then q ++ ((x + 1) % 256) :: suf
      else incrementLoop (q ++ 0 :: suf) q.length := by
  simp only [incrementLoop]
  have hget : (q ++ x :: suf).getD q.length 0 = x := by
    rw [List.getD_eq_getElem?_getD, List.getElem?_append_right (le_refl _)]
    simp
  have hset : ∀ v, (q ++ x :: suf).set q.length v = q ++ v :: suf := by
    intro v; simp
  rw [hget, hset]
  split_ifs with h
  · rfl
  · simp only [ne_eq, not_not] at h
    rw [h]

/-- What the loop of `incrementNonce` does to the first `q.length` bytes of a
buffer: it adds one to their big-endian value, dropping the carry out. -/
theorem incrementLoop_value (q : Bytes) :
    ∀ suf : Bytes, IsBytes q →
      ∃ q1 : Bytes, incrementLoop (q ++ suf) q.length = q1 ++ suf ∧ q1.length = q.length ∧
        IsBytes q1 ∧ beValue q1 = (beValue q + 1) % 256 ^ q.length := by
  induction q using List.reverseRecOn with
  | nil =>
    intro suf _
    exact ⟨[], by simp [incrementLoop], rfl, by simp [IsBytes], by simp [beValue]⟩
  | append_singleton q x ih =>
    intro suf hb
    have hq : IsBytes q := fun y hy => hb y (by simp [hy])
    have hx : x < 256 := hb x (by simp)
    have hlt := beValue_lt q hq
    rw [List.append_assoc, List.singleton_append, List.length_append, List.length_singleton,
      incrementLoop_snoc]
    split_ifs with h
    · refine ⟨q ++ [(x + 1) % 256], by simp, by simp, ?_, ?_⟩
      · intro y hy
        rcases List.mem_append.1 hy with hy | hy
        · exact hq y hy
        · simp only [List.mem_singleton] at hy
          rw [hy]; exact Nat.mod_lt _ (by norm_num)
      · have hx1 : x + 1 < 256 := by
          rcases Nat.lt_or_ge (x + 1) 256 with h1 | h1
          · exact h1
          · exfalso; apply h
            have : x + 1 = 256 := by omega
            rw [this]
        rw [beValue_append_singleton, beValue_append_singleton, Nat.mod_eq_of_lt hx1,
          Nat.mod_eq_of_lt]
        · ring
        · rw [pow_succ]; nlinarith
    · simp only [ne_eq, not_not] at h
      have hx255 : x = 255 := by omega
      obtain ⟨q1, h1, h2, h3, h4⟩ := ih (0 :: suf) hq
      refine ⟨q1 ++ [0], by rw [h1]; simp, by simp [h2], ?_, ?_⟩
      · intro y hy
        rcases List.mem_append.1 hy with hy | hy
        · exact h3 y hy
        · simp only [List.mem_singleton] at hy
          rw [hy]; norm_num
      · rw [beValue_append_singleton, beValue_append_singleton, h4, hx255, pow_succ]
        have : beValue q * 256 + 255 + 1 = (beValue q + 1) * 256 := by ring
        rw [this, Nat.mul_mod_mul_right]
        ring

theorem incrementLoop_replicate (k : Nat) :
    ∀ suf : Bytes, incrementLoop (List.replicate k 255 ++ suf) k = List.replicate k 0 ++ suf := by
  induction k with
  | zero => intro suf; simp [incrementLoop]
  | succ k ih =>
    intro suf
    have h := incrementLoop_snoc (List.replicate k 255) 255 suf
    rw [List.length_replicate] at h
    rw [List.replicate_succ', List.append_assoc, List.singleton_append, h]
    simp only [Nat.reduceAdd, Nat.mod_self, ne_eq, not_true_eq_false, ↓reduceIte]
    rw [ih, List.replicate_succ', List.append_assoc, List.singleton_append]

theorem incrementNonce_facts (b : Bytes) (hb : IsBytes b) :
    (incrementNonce b).length = b.length ∧ IsBytes (incrementNonce b) ∧
      beValue (incrementNonce b) = (beValue b + 1) % 256 ^ b.length := by
  obtain ⟨q1, h1, h2, h3, h4⟩ := incrementLoop_value b [] hb
  simp only [List.append_nil] at h1
  unfold incrementNonce
  rw [h1]
  exact ⟨h2, h3, h4⟩

/-- C3. For a buffer `b` of bytes, `incrementNonce` leaves a buffer of the same
length whose big-endian value is `(value b + 1) mod 256 ^ length b`; the buffer
of `length b` bytes `0xFF` becomes all zero, and the empty buffer stays empty. -/
theorem incrementNonce_bigEndian_succ (b : Bytes) (hb : IsBytes b) :
    (incrementNonce b).length = b.length ∧
      IsBytes (incrementNonce b) ∧
      beValue (incrementNonce b) = (beValue b + 1) % 256 ^ b.length ∧
      incrementNonce (List.replicate b.length 255) = List.replicate b.length 0 ∧
      incrementNonce ([] : Bytes) = [] := by
  obtain ⟨h1, h2, h3⟩ := incrementNonce_facts b hb
  refine ⟨h1, h2, h3, ?_, rfl⟩
  have := incrementLoop_replicate b.length []
  simpa [incrementNonce] using this

theorem incrementNonce_bigEndian_succ_witness :
    IsBytes [7, 255, 255] ∧
      ((incrementNonce [7, 255, 255]).length = [7, 255, 255].length ∧
        IsBytes (incrementNonce [7, 255, 255]) ∧
        beValue (incrementNonce [7, 255, 255]) =
          (beValue [7, 255, 255] + 1) % 256 ^ [7, 255, 255].length ∧
        incrementNonce (List.replicate [7, 255, 255].length 255) =
          List.replicate [7, 255, 255].length 0 ∧
        incrementNonce ([] : Bytes) = []) :=
  ⟨by decide, incrementNonce_bigEndian_succ [7, 255, 255] (by decide)⟩

/-! ## The encryption loop -/

theorem Writer.Write_unbounded (w : Writer) (p : Bytes) (hw : w.room = none) :
    w.Write p = (⟨w.buf ++ p, none⟩, none) := by
  simp [Writer.Write, hw]

theorem Writer.Write_error (w w2 : Writer) (p : Bytes) (e : Error)
    (h : w.Write p = (w2, some e)) : e = Error.ErrShortWrite := by
  unfold Writer.Write at h
  split at h
  · simp at h
  · split at h
    · simp at h
    · simp only [Prod.mk.injEq, Option.some.injEq] at h
      exact h.2.symm

theorem encChunk_unbounded (C : Primitives) (key : Bytes) (totalBytes : Int) (onProgress : Bool)
    (data : Bytes) (st : EncState) (hd : data ≠ []) (hw : st.output.room = none) :
    encChunk C key totalBytes onProgress data st =
      (none, { st with
        output := ⟨st.output.buf ++ (PutUint32 (uint32 (C.Seal key st.currNonce data).length) ++
          C.Seal key st.currNonce data), none⟩
        currNonce := incrementNonce st.currNonce
        processedBytes := int64 (st.processedBytes + data.length)
        progress :=
          if onProgress then
            st.progress ++ [(int64 (st.processedBytes + data.length), totalBytes)]
          else st.progress
        sealNonces := st.sealNonces ++ [st.currNonce] }) := by
  have hpos : data.length > 0 := List.length_pos.2 hd
  simp [encChunk, hpos, Writer.Write, hw]

/-- The loop of `EncryptStream` on error-free non-empty reads and an unbounded
sink: no error, one frame per read, one nonce per read. -/
theorem encLoop_ofReads (C : Primitives) (key : Bytes) (totalBytes : Int) (onProgress : Bool)
    (rs : List Bytes) :
    ∀ st : EncState, (∀ r ∈ rs, r ≠ []) → st.output.room = none →
      (encLoop C key totalBytes onProgress (Source.ofReads rs) st).err = none ∧
      (encLoop C key totalBytes onProgress (Source.ofReads rs) st).state.output =
        ⟨st.output.buf ++ frames C key st.currNonce rs, none⟩ ∧
      (encLoop C key totalBytes onProgress (Source.ofReads rs) st).state.currNonce =
        incrementNonce^[rs.length] st.currNonce ∧
      (encLoop C key totalBytes onProgress (Source.ofReads rs) st).state.sealNonces =
        st.sealNonces ++ (List.range rs.length).map (fun i => incrementNonce^[i] st.currNonce) ∧
      (encLoop C key totalBytes onProgress (Source.ofReads rs) st).state.reads =
        st.reads + rs.length + 1 := by
  induction rs with
  | nil =>
    intro st _ hw
    obtain ⟨⟨buf, room⟩, n, p, pr, sn, rd⟩ := st
    simp only at hw
    subst hw
    simp [Source.ofReads, encLoop, frames]
  | cons r rs ih =>
    intro st hrs hw
    have hr : r ≠ [] := hrs r (by simp)
    have hrs1 : ∀ x ∈ rs, x ≠ [] := fun x hx => hrs x (by simp [hx])
    have hstep := encChunk_unbounded C key totalBytes onProgress r
      { st with reads := st.reads + 1 } hr hw
    have heq : encLoop C key totalBytes onProgress (Source.ofReads (r :: rs)) st =
        encLoop C key totalBytes onProgress (Source.ofReads rs)
          (encChunk C key totalBytes onProgress r { st with reads := st.reads + 1 }).2 := by
      simp only [Source.ofReads, List.map_cons, encLoop]
      rw [hstep]
    have hih := ih (encChunk C key totalBytes onProgress r { st with reads := st.reads + 1 }).2
      hrs1 (by rw [hstep])
    rw [heq]
    rw [hstep] at hih ⊢
    obtain ⟨h1, h2, h3, h4, h5⟩ := hih
    refine ⟨h1, ?_, ?_, ?_, ?_⟩
    · rw [h2]; simp [frames, List.append_assoc]
    · rw [h3]; simp [Function.iterate_succ_apply]
    · rw [h4]
      simp only [List.length_cons, List.range_succ_eq_map, List.map_cons, List.map_map,
        Function.iterate_zero, id_eq, List.append_assoc, List.singleton_append]
      congr 2
    · rw [h5]; simp only [List.length_cons]; omega

/-- Reporting the end of file together with the last bytes changes nothing but
the number of reads. -/
theorem encLoop_ofReadsEOF (C : Primitives) (key : Bytes) (totalBytes : Int) (onProgress : Bool)
    (rs : List Bytes) :
    ∀ st : EncState,
      (encLoop C key totalBytes onProgress (Source.ofReadsEOF rs) st).err =
        (encLoop C key totalBytes onProgress (Source.ofReads rs) st).err ∧
      (encLoop C key totalBytes onProgress (Source.ofReadsEOF rs) st).state.output =
        (encLoop C key totalBytes onProgress (Source.ofReads rs) st).state.output ∧
      (encLoop C key totalBytes onProgress (Source.ofReadsEOF rs) st).state.currNonce =
        (encLoop C key totalBytes onProgress (Source.ofReads rs) st).state.currNonce ∧
      (encLoop C key totalBytes onProgress (Source.ofReadsEOF rs) st).state.sealNonces =
        (encLoop C key totalBytes onProgress (Source.ofReads rs) st).state.sealNonces ∧
      (encLoop C key totalBytes onProgress (Source.ofReadsEOF rs) st).state.progress =
        (encLoop C key totalBytes onProgress (Source.ofReads rs) st).state.progress ∧
      (encLoop C key totalBytes onProgress (Source.ofReadsEOF rs) st).state.processedBytes =
        (encLoop C key totalBytes onProgress (Source.ofReads rs) st).state.processedBytes := by
  induction rs with
  | nil => intro st; exact ⟨rfl, rfl, rfl, rfl, rfl, rfl⟩
  | cons r rs ih =>
    intro st
    cases rs with
    | nil =>
      simp only [Source.ofReadsEOF, Source.ofReads, List.map_cons, List.map_nil, encLoop]
      rcases encChunk C key totalBytes onProgress r { st with reads := st.reads + 1 } with
        ⟨_ | e, st1⟩
      · exact ⟨rfl, rfl, rfl, rfl, rfl, rfl⟩
      · exact ⟨rfl, rfl, rfl, rfl, rfl, rfl⟩
    | cons r2 rs =>
      simp only [Source.ofReadsEOF, Source.ofReads, List.map_cons, encLoop]
      rcases encChunk C key totalBytes onProgress r { st with reads := st.reads + 1 } with
        ⟨_ | e, st1⟩
      · exact ih st1
      · exact ⟨rfl, rfl, rfl, rfl, rfl, rfl⟩

/-- The loop of `EncryptStream` on a source that delivers non-empty reads and an
unbounded sink: no error, one frame per read, one nonce per read. -/
theorem encLoop_delivers (C : Primitives) (key : Bytes) (totalBytes : Int) (onProgress : Bool)
    (rs : List Bytes) (src : Source) (hsrc : Delivers src rs) (st : EncState)
    (hrs : ∀ r ∈ rs, r ≠ []) (hw : st.output.room = none) :
    (encLoop C key totalBytes onProgress src st).err = none ∧
      (encLoop C key totalBytes onProgress src st).state.output =
        ⟨st.output.buf ++ frames C key st.currNonce rs, none⟩ ∧
      (encLoop C key totalBytes onProgress src st).state.currNonce =
        incrementNonce^[rs.length] st.currNonce ∧
      (encLoop C key totalBytes onProgress src st).state.sealNonces =
        st.sealNonces ++ (List.range rs.length).map (fun i => incrementNonce^[i] st.currNonce) := by
  obtain ⟨h1, h2, h3, h4, -⟩ := encLoop_ofReads C key totalBytes onProgress rs st hrs hw
  rcases hsrc with rfl | rfl
  · exact ⟨h1, h2, h3, h4⟩
  · obtain ⟨k1, k2, k3, k4, -, -⟩ := encLoop_ofReadsEOF C key totalBytes onProgress rs st
    exact ⟨k1.trans h1, k2.trans h2, k3.trans h3, k4.trans h4⟩

/-! ## `io.ReadFull` -/

theorem ReadFull_append (a b : Bytes) (n : Nat) (ha : a.length = n) :
    ReadFull (a ++ b) n = (none, a, b) := by
  subst ha
  by_cases hn : a.length = 0
  · have : a = [] := List.length_eq_zero.1 hn
    subst this
    simp [ReadFull]
  · have h0 : a.length + b.length ≠ 0 := by omega
    simp [ReadFull, hn, h0]

theorem ReadFull_nil (n : Nat) (hn : n ≠ 0) : ReadFull [] n = (some Error.EOF, [], []) := by
  simp [ReadFull, hn]

theorem ReadFull_short (src : Bytes) (n : Nat) (h0 : src ≠ []) (hlt : src.length < n) :
    ReadFull src n = (some Error.ErrUnexpectedEOF, [], []) := by
  have h1 : src.length ≠ 0 := fun h => h0 (List.length_eq_zero.1 h)
  have hn : n ≠ 0 := by omega
  simp [ReadFull, hn, hlt, h0]

theorem NewCipher_deriveKey (C : Primitives) (hKey : KeyLength C) (password salt : Bytes) :
    NewCipher (deriveKey C password salt) = none := by
  have h := hKey password salt Iterations KeySize
  unfold NewCipher deriveKey
  rw [h]
  decide

/-! ## `EncryptStream` as a whole -/

theorem EncryptStream_eq_encLoop (C : Primitives) (hKey : KeyLength C)
    (password salt nonce extra : Bytes) (input : Source) (output : Writer) (totalBytes : Int)
    (onProgress : Bool) (hs : salt.length = 16) (hn : nonce.length = 12)
    (hw : output.room = none) :
    EncryptStream C (salt ++ nonce ++ extra) input output password totalBytes onProgress =
      encLoop C (deriveKey C password salt) totalBytes onProgress input
        ⟨⟨output.buf ++ salt ++ nonce, none⟩, nonce, 0, [], [], 0⟩ := by
  have h1 : ReadFull (salt ++ nonce ++ extra) SaltSize = (none, salt, nonce ++ extra) := by
    rw [List.append_assoc]
    exact ReadFull_append salt (nonce ++ extra) SaltSize hs
  have h2 : ReadFull (nonce ++ extra) NonceSize = (none, nonce, extra) :=
    ReadFull_append nonce extra NonceSize hn
  simp only [EncryptStream, h1, h2, Writer.Write_unbounded output salt hw,
    NewCipher_deriveKey C hKey password salt]
  rw [Writer.Write_unbounded _ nonce rfl]

theorem PutUint32_uint32 (n : Nat) (h : n < 2 ^ 32) : PutUint32 (uint32 n) = PutUint32 n := by
  rw [uint32, Nat.mod_eq_of_lt h]

theorem frames_eq_layout (C : Primitives) (hLen : SealLength C) (key b : Bytes) (rs : List Bytes)
    (hrs : ∀ r ∈ rs, r.length ≤ 65536) :
    ∀ s : Nat, frames C key (incrementNonce^[s] b) rs =
      ((rs.enumFrom s).map (fun ir => layoutFrame C key b ir.1 ir.2)).flatten := by
  induction rs with
  | nil => intro s; simp [frames]
  | cons r rs ih =>
    intro s
    have hr : r.length ≤ 65536 := hrs r (by simp)
    have hrs1 : ∀ x ∈ rs, x.length ≤ 65536 := fun x hx => hrs x (by simp [hx])
    have hi := ih hrs1 (s + 1)
    rw [Function.iterate_succ_apply'] at hi
    simp only [frames, List.enumFrom_cons, List.map_cons, List.flatten_cons, layoutFrame, hi]
    rw [hLen, PutUint32_uint32 _ (by simp only [Overhead]; omega)]
    simp [Overhead, List.append_assoc]

theorem frames_length (C : Primitives) (hLen : SealLength C) (key : Bytes) (rs : List Bytes) :
    ∀ nonce : Bytes, (frames C key nonce rs).length = (rs.map (fun r => r.length + 20)).sum := by
  induction rs with
  | nil => intro nonce; simp [frames]
  | cons r rs ih =>
    intro nonce
    have h1 := hLen key nonce r
    simp only [frames, List.length_append, ih, List.map_cons, List.sum_cons, PutUint32,
      List.length_cons, List.length_nil, h1, Overhead]
    omega

/-- C10. Container layout: on a source that delivers the reads `rs`, each
non-empty and of at most 65536 bytes, and a sink that accepts every write,
`EncryptStream` returns no error and has written the salt, the base nonce and,
for each read in order, the big-endian encoding of its length plus 16 followed
by its sealed bytes under the nonce incremented once per earlier read; that is
`28 + sum (len r + 20)` bytes. -/
theorem EncryptStream_container_layout (C : Primitives) (hKey : KeyLength C)
    (hLen : SealLength C) (password salt nonce extra : Bytes) (rs : List Bytes) (src : Source) (hsrc : Delivers src rs)
    (output : Writer) (totalBytes : Int) (onProgress : Bool)
    (hs : salt.length = 16) (hn : nonce.length = 12) (hw : output.room = none)
    (hrs : ∀ r ∈ rs, r ≠ [] ∧ r.length ≤ 65536) :
    (EncryptStream C (salt ++ nonce ++ extra) src output password totalBytes
        onProgress).err = none ∧
      (EncryptStream C (salt ++ nonce ++ extra) src output password totalBytes
        onProgress).state.output.buf =
        output.buf ++ layout C (deriveKey C password salt) salt nonce rs ∧
      (layout C (deriveKey C password salt) salt nonce rs).length =
        28 + (rs.map (fun r => r.length + 20)).sum := by
  rw [EncryptStream_eq_encLoop C hKey password salt nonce extra _ output totalBytes onProgress
    hs hn hw]
  obtain ⟨h1, h2, -, -⟩ := encLoop_delivers C (deriveKey C password salt) totalBytes onProgress
    rs src hsrc ⟨⟨output.buf ++ salt ++ nonce, none⟩, nonce, 0, [], [], 0⟩ (fun r hr => (hrs r hr).1) rfl
  have hfl := frames_eq_layout C hLen (deriveKey C password salt) nonce rs
    (fun r hr => (hrs r hr).2) 0
  simp only [Function.iterate_zero, id_eq] at hfl
  refine ⟨h1, ?_, ?_⟩
  · rw [h2]
    simp only [layout, List.enum, ← hfl, List.append_assoc]
  · simp only [layout, List.enum, ← hfl, List.length_append, hs, hn,
      frames_length C hLen]

/-! ## The small instance satisfies the assumptions -/

theorem toy_KeyLength : KeyLength toy := by
  intro password salt iter keyLen
  simp only [toy, List.length_take, List.length_append, List.length_replicate]
  omega

theorem toy_SealLength : SealLength toy := by
  intro key nonce p
  simp [toy, toyTag, Overhead]

theorem toy_OpenInvertsSeal : OpenInvertsSeal toy := by
  intro key nonce p
  simp [toy, toyTag]

theorem EncryptStream_container_layout_witness :
    (KeyLength toy ∧ SealLength toy ∧ exSalt.length = 16 ∧ exNonce.length = 12 ∧
      Writer.empty.room = none ∧ ∀ r ∈ exReads, r ≠ [] ∧ r.length ≤ 65536) ∧
    ((EncryptStream toy (exSalt ++ exNonce ++ []) (Source.ofReads exReads) Writer.empty [97] 4
        true).err = none ∧
      (EncryptStream toy (exSalt ++ exNonce ++ []) (Source.ofReads exReads) Writer.empty [97] 4
        true).state.output.buf =
        Writer.empty.buf ++ layout toy (deriveKey toy [97] exSalt) exSalt exNonce exReads ∧
      (layout toy (deriveKey toy [97] exSalt) exSalt exNonce exReads).length =
        28 + (exReads.map (fun r => r.length + 20)).sum) :=
  ⟨⟨toy_KeyLength, toy_SealLength, by decide, by decide, rfl, by decide⟩,
    EncryptStream_container_layout toy toy_KeyLength toy_SealLength [97] exSalt exNonce []
      exReads (Source.ofReads exReads) (Or.inl rfl) Writer.empty 4 true (by decide) (by decide) rfl (by decide)⟩

/-! ## The nonce sequence -/

theorem iterate_incrementNonce_facts (b : Bytes) (hb : IsBytes b) (i : Nat) :
    (incrementNonce^[i] b).length = b.length ∧ IsBytes (incrementNonce^[i] b) ∧
      beValue (incrementNonce^[i] b) = (beValue b + i) % 256 ^ b.length := by
  induction i with
  | zero =>
    refine ⟨rfl, hb, ?_⟩
    simp only [Function.iterate_zero, id_eq, add_zero]
    exact (Nat.mod_eq_of_lt (beValue_lt b hb)).symm
  | succ i ih =>
    obtain ⟨h1, h2, h3⟩ := ih
    obtain ⟨k1, k2, k3⟩ := incrementNonce_facts _ h2
    rw [Function.iterate_succ_apply']
    refine ⟨by rw [k1, h1], k2, ?_⟩
    rw [k3, h1, h3, Nat.add_mod, Nat.mod_mod, ← Nat.add_mod, add_assoc]

theorem iterate_incrementNonce_injOn (b : Bytes) (hb : IsBytes b) (i j : Nat)
    (hi : i < 256 ^ b.length) (hj : j < 256 ^ b.length)
    (h : incrementNonce^[i] b = incrementNonce^[j] b) : i = j := by
  have h1 := (iterate_incrementNonce_facts b hb i).2.2
  have h2 := (iterate_incrementNonce_facts b hb j).2.2
  rw [h, h2] at h1
  have h3 : i % 256 ^ b.length = j % 256 ^ b.length :=
    (Nat.ModEq.add_left_cancel' (beValue b) h1).symm
  rwa [Nat.mod_eq_of_lt hi, Nat.mod_eq_of_lt hj] at h3

/-- C2. Nonce uniqueness: on a source that delivers `K <= 2^96` non-empty
reads, the nonce that `EncryptStream` hands to `Seal` for read number `i` (from
0) is `incrementNonce` applied `i` times to the base nonce it wrote into the
header (bytes 16 to 27 of the output), and the `K` nonces are pairwise
distinct. -/
theorem EncryptStream_nonce_sequence (C : Primitives) (hKey : KeyLength C)
    (password salt nonce extra : Bytes) (rs : List Bytes) (src : Source) (hsrc : Delivers src rs) (totalBytes : Int) (onProgress : Bool)
    (hs : salt.length = 16) (hn : nonce.length = 12) (hb : IsBytes nonce)
    (hrs : ∀ r ∈ rs, r ≠ [] ∧ r.length ≤ 65536) (hK : rs.length ≤ 2 ^ 96) :
    ((EncryptStream C (salt ++ nonce ++ extra) src Writer.empty password
        totalBytes onProgress).state.output.buf.drop 16).take 12 = nonce ∧
      (EncryptStream C (salt ++ nonce ++ extra) src Writer.empty password
        totalBytes onProgress).state.sealNonces =
        (List.range rs.length).map (fun i => incrementNonce^[i] nonce) ∧
      (EncryptStream C (salt ++ nonce ++ extra) src Writer.empty password
        totalBytes onProgress).state.sealNonces.Nodup := by
  rw [EncryptStream_eq_encLoop C hKey password salt nonce extra _ Writer.empty totalBytes
    onProgress hs hn rfl]
  obtain ⟨-, h2, -, h4⟩ := encLoop_delivers C (deriveKey C password salt) totalBytes onProgress
    rs src hsrc ⟨⟨Writer.empty.buf ++ salt ++ nonce, none⟩, nonce, 0, [], [], 0⟩
    (fun r hr => (hrs r hr).1) rfl
  simp only [List.nil_append] at h4
  refine ⟨?_, h4, ?_⟩
  · rw [h2]
    simp only [Writer.empty, List.nil_append, List.append_assoc]
    rw [List.drop_left' hs, List.take_left' hn]
  · rw [h4]
    apply List.Nodup.map_on _ (List.nodup_range _)
    intro i hi j hj hij
    rw [List.mem_range] at hi hj
    have hM : (256 : Nat) ^ nonce.length = 2 ^ 96 := by rw [hn]; norm_num
    exact iterate_incrementNonce_injOn nonce hb i j (by omega) (by omega) hij

theorem EncryptStream_nonce_sequence_witness :
    (KeyLength toy ∧ exSalt.length = 16 ∧ exNonce.length = 12 ∧ IsBytes exNonce ∧
      (∀ r ∈ exReads, r ≠ [] ∧ r.length ≤ 65536) ∧ exReads.length ≤ 2 ^ 96) ∧
    (((EncryptStream toy (exSalt ++ exNonce ++ []) (Source.ofReads exReads) Writer.empty [97] 4
        true).state.output.buf.drop 16).take 12 = exNonce ∧
      (EncryptStream toy (exSalt ++ exNonce ++ []) (Source.ofReads exReads) Writer.empty [97] 4
        true).state.sealNonces =
        (List.range exReads.length).map (fun i => incrementNonce^[i] exNonce) ∧
      (EncryptStream toy (exSalt ++ exNonce ++ []) (Source.ofReads exReads) Writer.empty [97] 4
        true).state.sealNonces.Nodup) :=
  ⟨⟨toy_KeyLength, by decide, by decide, by decide, by decide, by decide⟩,
    EncryptStream_nonce_sequence toy toy_KeyLength [97] exSalt exNonce [] exReads
      (Source.ofReads exReads) (Or.inl rfl) 4 true
      (by decide) (by decide) (by decide) (by decide) (by decide)⟩

/-! ## The decryption loop -/

theorem decLoop_next (C : Primitives) (key : Bytes) (maxChunkLen : Nat) (totalBytes : Int)
    (onProgress : Bool) (st st1 : DecState)
    (h : decStep C key maxChunkLen totalBytes onProgress st = Step.next st1) :
    decLoop C key maxChunkLen totalBytes onProgress st =
      decLoop C key maxChunkLen totalBytes onProgress st1 := by
  rw [decLoop]
  split
  · rename_i st2 h2
    rw [h] at h2
    cases h2
    rfl
  · rename_i e st2 h2
    rw [h] at h2
    cases h2

theorem decLoop_stop (C : Primitives) (key : Bytes) (maxChunkLen : Nat) (totalBytes : Int)
    (onProgress : Bool) (st st1 : DecState) (e : Option Error)
    (h : decStep C key maxChunkLen totalBytes onProgress st = Step.stop e st1) :
    decLoop C key maxChunkLen totalBytes onProgress st = ⟨e, st1⟩ := by
  rw [decLoop]
  split
  · rename_i st2 h2
    rw [h] at h2
    cases h2
  · rename_i e2 st2 h2
    rw [h] at h2
    cases h2
    rfl

theorem Uint32_PutUint32 (n : Nat) (h : n < 2 ^ 32) : Uint32 (PutUint32 n) = n := by
  simp only [Uint32, PutUint32, List.getD_cons_zero, List.getD_cons_succ]
  omega

theorem maxChunkLen_eq : uint32 (ChunkSize + Overhead) = 65552 := by
  decide

theorem decStep_eof (C : Primitives) (key : Bytes) (maxChunkLen : Nat) (totalBytes : Int)
    (onProgress : Bool) (st : DecState) (hin : st.input = []) :
    decStep C key maxChunkLen totalBytes onProgress st = Step.stop none st := by
  obtain ⟨inp, out, n, pb, pr⟩ := st
  simp only at hin
  subst hin
  simp [decStep, ReadFull]

theorem decStep_shortLen (C : Primitives) (key : Bytes) (maxChunkLen : Nat) (totalBytes : Int)
    (onProgress : Bool) (st : DecState) (h0 : st.input ≠ []) (h4 : st.input.length < 4) :
    decStep C key maxChunkLen totalBytes onProgress st =
      Step.stop (some Error.ErrUnexpectedEOF) { st with input := [] } := by
  simp [decStep, ReadFull_short st.input 4 h0 h4]

theorem decStep_tooLarge (C : Primitives) (key : Bytes) (maxChunkLen : Nat) (totalBytes : Int)
    (onProgress : Bool) (st : DecState) (lenBuf rest : Bytes) (hin : st.input = lenBuf ++ rest)
    (h4 : lenBuf.length = 4) (hbig : Uint32 lenBuf > maxChunkLen) :
    decStep C key maxChunkLen totalBytes onProgress st =
      Step.stop (some (Error.chunkTooLarge (Uint32 lenBuf) maxChunkLen))
        { st with input := rest, processedBytes := int64 (st.processedBytes + 4) } := by
  simp [decStep, hin, ReadFull_append lenBuf rest 4 h4, hbig]

theorem decStep_truncated (C : Primitives) (key : Bytes) (maxChunkLen : Nat) (totalBytes : Int)
    (onProgress : Bool) (st : DecState) (lenBuf rest : Bytes) (hin : st.input = lenBuf ++ rest)
    (h4 : lenBuf.length = 4) (hmax : Uint32 lenBuf ≤ maxChunkLen)
    (hshort : rest.length < Uint32 lenBuf) :
    decStep C key maxChunkLen totalBytes onProgress st =
      Step.stop (some Error.unexpectedEOFChunk)
        { st with input := [], processedBytes := int64 (st.processedBytes + 4) } := by
  have hnot : ¬ Uint32 lenBuf > maxChunkLen := by omega
  have hrf : (ReadFull rest (Uint32 lenBuf)).1 ≠ none ∧ (ReadFull rest (Uint32 lenBuf)).2.2 = [] := by
    by_cases hr : rest = []
    · subst hr
      rw [ReadFull_nil _ (by simp at hshort; omega)]
      simp
    · rw [ReadFull_short rest _ hr hshort]
      simp
  simp only [decStep, hin, ReadFull_append lenBuf rest 4 h4, hnot, if_false]
  rcases hrr : ReadFull rest (Uint32 lenBuf) with ⟨e, d, r2⟩
  rw [hrr] at hrf
  obtain ⟨h1, h2⟩ := hrf
  simp only at h1 h2
  subst h2
  cases e with
  | none => exact absurd rfl h1
  | some e => rfl

theorem decStep_openFailed (C : Primitives) (key : Bytes) (maxChunkLen : Nat) (totalBytes : Int)
    (onProgress : Bool) (st : DecState) (lenBuf c tail : Bytes)
    (hin : st.input = lenBuf ++ (c ++ tail)) (h4 : lenBuf.length = 4)
    (hc : c.length = Uint32 lenBuf) (hmax : Uint32 lenBuf ≤ maxChunkLen)
    (hopen : C.Open key st.currNonce c = none) :
    decStep C key maxChunkLen totalBytes onProgress st =
      Step.stop (some Error.openFailed)
        { st with
          input := tail
          processedBytes := int64 (int64 (st.processedBytes + 4) + (Uint32 lenBuf : Nat)) } := by
  have hnot : ¬ Uint32 lenBuf > maxChunkLen := by omega
  simp [decStep, hin, ReadFull_append lenBuf (c ++ tail) 4 h4, hnot,
    ReadFull_append c tail (Uint32 lenBuf) hc, hopen]

theorem decStep_frame (C : Primitives) (key : Bytes) (maxChunkLen : Nat) (totalBytes : Int)
    (onProgress : Bool) (st : DecState) (lenBuf c tail p : Bytes)
    (hin : st.input = lenBuf ++ (c ++ tail)) (h4 : lenBuf.length = 4)
    (hc : c.length = Uint32 lenBuf) (hmax : Uint32 lenBuf ≤ maxChunkLen)
    (hopen : C.Open key st.currNonce c = some p) (hw : st.output.room = none) :
    decStep C key maxChunkLen totalBytes onProgress st =
      Step.next
        { st with
          input := tail
          output := ⟨st.output.buf ++ p, st.output.room⟩
          currNonce := incrementNonce st.currNonce
          processedBytes := int64 (int64 (st.processedBytes + 4) + (Uint32 lenBuf : Nat))
          progress :=
            if onProgress then
              st.progress ++
                [(int64 (int64 (st.processedBytes + 4) + (Uint32 lenBuf : Nat)), totalBytes)]
            else st.progress } := by
  have hnot : ¬ Uint32 lenBuf > maxChunkLen := by omega
  simp [decStep, hin, ReadFull_append lenBuf (c ++ tail) 4 h4, hnot,
    ReadFull_append c tail (Uint32 lenBuf) hc, hopen, Writer.Write, hw]

theorem PutUint32_length (n : Nat) : (PutUint32 n).length = 4 := rfl

/-- The decryption loop on frames that open, followed by `tail`, writes every
plaintext and goes on with `tail`. -/
theorem decLoop_encodeFrames (C : Primitives) (key : Bytes) (totalBytes : Int)
    (onProgress : Bool) (tail : Bytes) (fs : List Frame) :
    ∀ st : DecState, FramesOpen C key st.currNonce fs → st.output.room = none →
      st.input = encodeFrames fs ++ tail →
      decLoop C key 65552 totalBytes onProgress st =
        decLoop C key 65552 totalBytes onProgress
          (decAdvance totalBytes onProgress fs { st with input := tail }) := by
  induction fs with
  | nil =>
    intro st _ _ hin
    simp only [encodeFrames, List.map_nil, List.flatten_nil, List.nil_append] at hin
    simp only [decAdvance, ← hin]
  | cons f fs ih =>
    intro st hfo hw hin
    obtain ⟨h4, hmax, hc, hopen, hrest⟩ := hfo
    have hstep := decStep_frame C key 65552 totalBytes onProgress st f.lenBuf f.ciphertext
      (encodeFrames fs ++ tail) f.plaintext
      (by rw [hin]; simp [encodeFrames, List.append_assoc]) h4 hc hmax hopen hw
    rw [decLoop_next _ _ _ _ _ _ _ hstep]
    refine (ih _ ?_ ?_ ?_).trans ?_
    · exact hrest
    · exact hw
    · rfl
    · simp [decAdvance]

theorem decAdvance_facts (totalBytes : Int) (onProgress : Bool) (fs : List Frame) :
    ∀ st : DecState,
      (decAdvance totalBytes onProgress fs st).input = st.input ∧
      (decAdvance totalBytes onProgress fs st).output =
        ⟨st.output.buf ++ (fs.map Frame.plaintext).flatten, st.output.room⟩ ∧
      (decAdvance totalBytes onProgress fs st).currNonce =
        incrementNonce^[fs.length] st.currNonce ∧
      (decAdvance totalBytes onProgress fs st).progress.length =
        st.progress.length + (if onProgress then fs.length else 0) := by
  induction fs with
  | nil => intro st; simp [decAdvance]
  | cons f fs ih =>
    intro st
    obtain ⟨h1, h2, h3, h4⟩ := ih
      { st with
        output := ⟨st.output.buf ++ f.plaintext, st.output.room⟩
        currNonce := incrementNonce st.currNonce
        processedBytes := int64 (int64 (st.processedBytes + 4) + (Uint32 f.lenBuf : Nat))
        progress :=
          if onProgress then
            st.progress ++
              [(int64 (int64 (st.processedBytes + 4) + (Uint32 f.lenBuf : Nat)), totalBytes)]
          else st.progress }
    simp only [decAdvance]
    refine ⟨h1, ?_, ?_, ?_⟩
    · rw [h2]; simp
    · rw [h3]; simp [Function.iterate_succ_apply]
    · rw [h4]; cases onProgress
      · simp
      · simp; omega

/-! ## The frames of `EncryptStream` -/

theorem encodeFrames_sealedFrames (C : Primitives) (key : Bytes) (rs : List Bytes) :
    ∀ nonce : Bytes, encodeFrames (sealedFrames C key nonce rs) = frames C key nonce rs := by
  induction rs with
  | nil => intro nonce; rfl
  | cons r rs ih =>
    intro nonce
    have h := ih (incrementNonce nonce)
    simp only [encodeFrames] at h
    simp [encodeFrames, sealedFrames, frames, h]

theorem sealedFrames_plaintext (C : Primitives) (key : Bytes) (rs : List Bytes) :
    ∀ nonce : Bytes, (sealedFrames C key nonce rs).map Frame.plaintext = rs := by
  induction rs with
  | nil => intro nonce; rfl
  | cons r rs ih => intro nonce; simp [sealedFrames, ih]

theorem sealedFrames_length (C : Primitives) (key : Bytes) (rs : List Bytes) :
    ∀ nonce : Bytes, (sealedFrames C key nonce rs).length = rs.length := by
  induction rs with
  | nil => intro nonce; rfl
  | cons r rs ih => intro nonce; simp [sealedFrames, ih]

theorem sealed_lenBuf (C : Primitives) (hLen : SealLength C) (key nonce r : Bytes)
    (hr : r.length ≤ 65536) :
    Uint32 (PutUint32 (uint32 (C.Seal key nonce r).length)) = r.length + 16 := by
  have hsl := hLen key nonce r
  simp only [Overhead] at hsl
  rw [hsl, PutUint32_uint32 _ (by omega), Uint32_PutUint32 _ (by omega)]

theorem FramesOpen_sealedFrames (C : Primitives) (hLen : SealLength C) (hInv : OpenInvertsSeal C)
    (key : Bytes) (rs : List Bytes) (hrs : ∀ r ∈ rs, r.length ≤ 65536) :
    ∀ nonce : Bytes, FramesOpen C key nonce (sealedFrames C key nonce rs) := by
  induction rs with
  | nil => intro nonce; trivial
  | cons r rs ih =>
    intro nonce
    have hr : r.length ≤ 65536 := hrs r (by simp)
    have hu := sealed_lenBuf C hLen key nonce r hr
    have hsl := hLen key nonce r
    simp only [Overhead] at hsl
    exact ⟨PutUint32_length _, by simp only [hu]; omega, hsl.trans hu.symm, hInv key nonce r,
      ih (fun x hx => hrs x (by simp [hx])) _⟩

/-! ## `DecryptStream` as a whole -/

theorem DecryptStream_eq_decLoop (C : Primitives) (hKey : KeyLength C)
    (password salt nonce body : Bytes) (output : Writer) (totalBytes : Int) (onProgress : Bool)
    (hs : salt.length = 16) (hn : nonce.length = 12) :
    DecryptStream C (salt ++ nonce ++ body) output password totalBytes onProgress =
      decLoop C (deriveKey C password salt) 65552 totalBytes onProgress
        ⟨body, output, nonce, 28, []⟩ := by
  have h1 : ReadFull (salt ++ nonce ++ body) SaltSize = (none, salt, nonce ++ body) := by
    rw [List.append_assoc]
    exact ReadFull_append salt (nonce ++ body) SaltSize hs
  have h2 : ReadFull (nonce ++ body) NonceSize = (none, nonce, body) :=
    ReadFull_append nonce body NonceSize hn
  have h3 : int64 ((SaltSize : Int) + NonceSize) = 28 := by decide
  simp only [DecryptStream, h1, h2, NewCipher_deriveKey C hKey password salt, maxChunkLen_eq, h3]

/-- The container that `EncryptStream` writes into the empty sink. -/
theorem EncryptStream_output (C : Primitives) (hKey : KeyLength C)
    (password salt nonce extra : Bytes) (rs : List Bytes) (src : Source) (hsrc : Delivers src rs) (totalBytes : Int) (onProgress : Bool)
    (hs : salt.length = 16) (hn : nonce.length = 12) (hrs : ∀ r ∈ rs, r ≠ []) :
    (EncryptStream C (salt ++ nonce ++ extra) src Writer.empty password totalBytes
        onProgress).err = none ∧
      (EncryptStream C (salt ++ nonce ++ extra) src Writer.empty password
        totalBytes onProgress).state.output.buf =
        salt ++ nonce ++ frames C (deriveKey C password salt) nonce rs := by
  rw [EncryptStream_eq_encLoop C hKey password salt nonce extra _ Writer.empty totalBytes
    onProgress hs hn rfl]
  obtain ⟨h1, h2, -, -⟩ := encLoop_delivers C (deriveKey C password salt) totalBytes onProgress
    rs src hsrc ⟨⟨Writer.empty.buf ++ salt ++ nonce, none⟩, nonce, 0, [], [], 0⟩ hrs rfl
  refine ⟨h1, ?_⟩
  rw [h2]
  simp [Writer.empty]

/-- C1. Round trip: for every password, 16 byte salt and 12 byte base nonce and
every source that delivers the plaintext `rs.flatten` as the non-empty reads
`rs` of at most 65536 bytes, `EncryptStream` returns no error, and
`DecryptStream` with the same password on the bytes it wrote returns no error,
reads them all and writes exactly the plaintext (`Open` is assumed to invert
`Seal`). -/
theorem DecryptStream_EncryptStream_roundtrip (C : Primitives) (hKey : KeyLength C)
    (hLen : SealLength C) (hInv : OpenInvertsSeal C) (password salt nonce extra : Bytes)
    (rs : List Bytes) (src : Source) (hsrc : Delivers src rs) (totalBytes totalBytes2 : Int) (onProgress onProgress2 : Bool)
    (hs : salt.length = 16) (hn : nonce.length = 12)
    (hrs : ∀ r ∈ rs, r ≠ [] ∧ r.length ≤ 65536) :
    (EncryptStream C (salt ++ nonce ++ extra) src Writer.empty password totalBytes
        onProgress).err = none ∧
      (DecryptStream C
        (EncryptStream C (salt ++ nonce ++ extra) src Writer.empty password
          totalBytes onProgress).state.output.buf
        Writer.empty password totalBytes2 onProgress2).err = none ∧
      (DecryptStream C
        (EncryptStream C (salt ++ nonce ++ extra) src Writer.empty password
          totalBytes onProgress).state.output.buf
        Writer.empty password totalBytes2 onProgress2).state.output.buf = rs.flatten ∧
      (DecryptStream C
        (EncryptStream C (salt ++ nonce ++ extra) src Writer.empty password
          totalBytes onProgress).state.output.buf
        Writer.empty password totalBytes2 onProgress2).state.input = [] := by
  obtain ⟨he, hb⟩ := EncryptStream_output C hKey password salt nonce extra rs src hsrc totalBytes
    onProgress hs hn (fun r hr => (hrs r hr).1)
  rw [hb, DecryptStream_eq_decLoop C hKey password salt nonce _ Writer.empty totalBytes2
    onProgress2 hs hn]
  rw [decLoop_encodeFrames C (deriveKey C password salt) totalBytes2 onProgress2 []
    (sealedFrames C (deriveKey C password salt) nonce rs)
    ⟨frames C (deriveKey C password salt) nonce rs, Writer.empty, nonce, 28, []⟩
    (FramesOpen_sealedFrames C hLen hInv _ rs (fun r hr => (hrs r hr).2) nonce) rfl
    (by simp [encodeFrames_sealedFrames])]
  obtain ⟨h1, h2, -, -⟩ := decAdvance_facts totalBytes2 onProgress2
    (sealedFrames C (deriveKey C password salt) nonce rs) ⟨[], Writer.empty, nonce, 28, []⟩
  rw [decLoop_stop _ _ _ _ _ _ _ _ (decStep_eof _ _ _ _ _ _ h1)]
  refine ⟨he, rfl, ?_, h1⟩
  show (decAdvance totalBytes2 onProgress2 (sealedFrames C (deriveKey C password salt) nonce rs)
    ⟨[], Writer.empty, nonce, 28, []⟩).output.buf = rs.flatten
  rw [h2, sealedFrames_plaintext]
  simp [Writer.empty]

theorem DecryptStream_EncryptStream_roundtrip_witness :
    (KeyLength toy ∧ SealLength toy ∧ OpenInvertsSeal toy ∧ exSalt.length = 16 ∧
      exNonce.length = 12 ∧ ∀ r ∈ exReads, r ≠ [] ∧ r.length ≤ 65536) ∧
    ((EncryptStream toy (exSalt ++ exNonce ++ []) (Source.ofReads exReads) Writer.empty [97] 4
        true).err = none ∧
      (DecryptStream toy
        (EncryptStream toy (exSalt ++ exNonce ++ []) (Source.ofReads exReads) Writer.empty [97] 4
          true).state.output.buf
        Writer.empty [97] 72 true).err = none ∧
      (DecryptStream toy
        (EncryptStream toy (exSalt ++ exNonce ++ []) (Source.ofReads exReads) Writer.empty [97] 4
          true).state.output.buf
        Writer.empty [97] 72 true).state.output.buf = exReads.flatten ∧
      (DecryptStream toy
        (EncryptStream toy (exSalt ++ exNonce ++ []) (Source.ofReads exReads) Writer.empty [97] 4
          true).state.output.buf
        Writer.empty [97] 72 true).state.input = []) :=
  ⟨⟨toy_KeyLength, toy_SealLength, toy_OpenInvertsSeal, by decide, by decide, by decide⟩,
    DecryptStream_EncryptStream_roundtrip toy toy_KeyLength toy_SealLength toy_OpenInvertsSeal
      [97] exSalt exNonce [] exReads (Source.ofReads exReads) (Or.inl rfl) 4 72 true true (by decide) (by decide) (by decide)⟩

/-! ## Malformed input -/

theorem ReadFull_lt (src : Bytes) (n : Nat) (h : src.length < n) :
    ∃ e, ReadFull src n = (some e, [], []) := by
  by_cases h0 : src = []
  · subst h0
    exact ⟨Error.EOF, ReadFull_nil n (by simp at h; omega)⟩
  · exact ⟨Error.ErrUnexpectedEOF, ReadFull_short src n h0 h⟩

theorem ReadFull_ge (src : Bytes) (n : Nat) (h : n ≤ src.length) :
    ReadFull src n = (none, src.take n, src.drop n) := by
  have h1 := ReadFull_append (src.take n) (src.drop n) n (by simp [h])
  rwa [List.take_append_drop] at h1

/-- C8. Header truncation: on a source that ends after fewer than 28 bytes
`DecryptStream` returns an error, leaves the sink as it was and never calls the
progress callback. -/
theorem DecryptStream_header_truncated (C : Primitives) (input : Bytes) (output : Writer)
    (password : Bytes) (totalBytes : Int) (onProgress : Bool) (h : input.length < 28) :
    (DecryptStream C input output password totalBytes onProgress).err ≠ none ∧
      (DecryptStream C input output password totalBytes onProgress).state.output = output ∧
      (DecryptStream C input output password totalBytes onProgress).state.progress = [] := by
  unfold DecryptStream
  by_cases h16 : input.length < 16
  · obtain ⟨e, he⟩ := ReadFull_lt input SaltSize h16
    simp [he]
  · have h1 := ReadFull_ge input SaltSize (by simp only [SaltSize]; omega)
    simp only [h1]
    cases hk : NewCipher (deriveKey C password (input.take SaltSize)) with
    | some e => simp
    | none =>
      obtain ⟨e, he⟩ := ReadFull_lt (input.drop SaltSize) NonceSize
        (by simp only [List.length_drop, SaltSize, NonceSize]; omega)
      simp [he]

theorem DecryptStream_header_truncated_witness :
    (exSalt ++ [1, 2, 3]).length < 28 ∧
    ((DecryptStream toy (exSalt ++ [1, 2, 3]) Writer.empty [97] 0 true).err ≠ none ∧
      (DecryptStream toy (exSalt ++ [1, 2, 3]) Writer.empty [97] 0 true).state.output =
        Writer.empty ∧
      (DecryptStream toy (exSalt ++ [1, 2, 3]) Writer.empty [97] 0 true).state.progress = []) :=
  ⟨by decide, DecryptStream_header_truncated toy (exSalt ++ [1, 2, 3]) Writer.empty [97] 0 true
    (by decide)⟩

theorem frames_append (C : Primitives) (key : Bytes) (a b : List Bytes) :
    ∀ nonce : Bytes, frames C key nonce (a ++ b) =
      frames C key nonce a ++ frames C key (incrementNonce^[a.length] nonce) b := by
  induction a with
  | nil => intro nonce; simp [frames]
  | cons r a ih => intro nonce; simp [frames, ih, List.append_assoc]

/-- The frames of `EncryptStream` split at the frame of chunk number `j`. -/
theorem frames_split (C : Primitives) (key nonce : Bytes) (rs : List Bytes) (j : Nat)
    (hj : j < rs.length) :
    frames C key nonce rs =
      encodeFrames (sealedFrames C key nonce (rs.take j)) ++
        (PutUint32 (uint32 (C.Seal key (incrementNonce^[j] nonce) (rs.getD j [])).length) ++
          (C.Seal key (incrementNonce^[j] nonce) (rs.getD j []) ++
            frames C key (incrementNonce^[j + 1] nonce) (rs.drop (j + 1)))) := by
  have h1 : rs = rs.take j ++ rs.getD j [] :: rs.drop (j + 1) := by
    rw [List.getD_eq_getElem _ _ hj, ← List.drop_eq_getElem_cons hj, List.take_append_drop]
  have hl : (rs.take j).length = j := by simp; omega
  conv_lhs => rw [h1]
  rw [frames_append, hl, encodeFrames_sealedFrames]
  simp [frames, Function.iterate_succ_apply', List.append_assoc]

theorem frames_take_length (C : Primitives) (hLen : SealLength C) (key nonce : Bytes)
    (rs : List Bytes) (j : Nat) :
    28 + (encodeFrames (sealedFrames C key nonce (rs.take j))).length = frameStart rs j := by
  rw [encodeFrames_sealedFrames, frames_length C hLen, frameStart]

/-- After the header and frames that open, `DecryptStream` stands at the bytes
that follow them. -/
theorem DecryptStream_after_frames (C : Primitives) (hKey : KeyLength C)
    (password salt nonce tail : Bytes) (fs : List Frame) (output : Writer) (totalBytes : Int)
    (onProgress : Bool) (hs : salt.length = 16) (hn : nonce.length = 12)
    (hw : output.room = none) (hfs : FramesOpen C (deriveKey C password salt) nonce fs) :
    DecryptStream C (salt ++ nonce ++ (encodeFrames fs ++ tail)) output password totalBytes
        onProgress =
      decLoop C (deriveKey C password salt) 65552 totalBytes onProgress
        (decAdvance totalBytes onProgress fs ⟨tail, output, nonce, 28, []⟩) := by
  rw [DecryptStream_eq_decLoop C hKey password salt nonce _ output totalBytes onProgress hs hn]
  exact decLoop_encodeFrames C (deriveKey C password salt) totalBytes onProgress tail fs
    ⟨encodeFrames fs ++ tail, output, nonce, 28, []⟩ hfs hw rfl

/-- C6. Oversized length field: when the loop of `DecryptStream` stands at a
frame start and the next four bytes `lenBuf` decode to more than 65552, the
function returns the error "chunk too large" having read these four bytes and
nothing more, with the sink and the progress calls as they were; when they
decode to 65552 or less, this pass of the loop does not return that error. -/
theorem DecryptStream_oversized_length (C : Primitives) (key : Bytes) (totalBytes : Int)
    (onProgress : Bool) (st : DecState) (lenBuf rest : Bytes)
    (hin : st.input = lenBuf ++ rest) (h4 : lenBuf.length = 4) :
    (65552 < Uint32 lenBuf →
      decLoop C key (uint32 (ChunkSize + Overhead)) totalBytes onProgress st =
        ⟨some (Error.chunkTooLarge (Uint32 lenBuf) 65552),
          { st with input := rest, processedBytes := int64 (st.processedBytes + 4) }⟩) ∧
    (Uint32 lenBuf ≤ 65552 →
      ∀ n m st1, decStep C key (uint32 (ChunkSize + Overhead)) totalBytes onProgress st ≠
        Step.stop (some (Error.chunkTooLarge n m)) st1) := by
  rw [maxChunkLen_eq]
  constructor
  · intro hbig
    exact decLoop_stop _ _ _ _ _ _ _ _
      (decStep_tooLarge C key 65552 totalBytes onProgress st lenBuf rest hin h4 hbig)
  · intro hle n m st1
    have hnot : ¬ Uint32 lenBuf > 65552 := by omega
    simp only [decStep, hin, ReadFull_append lenBuf rest 4 h4, hnot, if_false]
    split
    · simp
    · split
      · simp
      · split
        · rename_i w2 e hwr
          have he : e = Error.ErrShortWrite := Writer.Write_error _ _ _ _ hwr
          subst he
          simp
        · simp

theorem DecryptStream_oversized_length_witness :
    decLoop toy [1] (uint32 (ChunkSize + Overhead)) 0 true
        ⟨[0, 1, 0, 17, 9], Writer.empty, exNonce, 28, []⟩ =
      ⟨some (Error.chunkTooLarge (Uint32 [0, 1, 0, 17]) 65552),
        ⟨[9], Writer.empty, exNonce, int64 (28 + 4), []⟩⟩ :=
  (DecryptStream_oversized_length toy [1] 0 true
    ⟨[0, 1, 0, 17, 9], Writer.empty, exNonce, 28, []⟩ [0, 1, 0, 17] [9] rfl rfl).1 (by decide)

/-! ## Truncation inside a frame -/

/-- The container of `EncryptStream` cut at `t` bytes, where `t` lies behind the
length field of the frame of chunk `j` and before the end of that frame. -/
theorem container_take (C : Primitives) (hLen : SealLength C) (key salt nonce : Bytes)
    (rs : List Bytes) (j t : Nat) (hs : salt.length = 16) (hn : nonce.length = 12)
    (hj : j < rs.length) (h1 : frameStart rs j + 4 ≤ t)
    (h2 : t < frameStart rs j + 4 + ((rs.getD j []).length + 16)) :
    (salt ++ nonce ++ frames C key nonce rs).take t =
      salt ++ nonce ++ (encodeFrames (sealedFrames C key nonce (rs.take j)) ++
        (PutUint32 (uint32 (C.Seal key (incrementNonce^[j] nonce) (rs.getD j [])).length) ++
          (C.Seal key (incrementNonce^[j] nonce) (rs.getD j [])).take
            (t - (frameStart rs j + 4)))) := by
  have hF := frames_take_length C hLen key nonce rs j
  have hc := hLen key (incrementNonce^[j] nonce) (rs.getD j [])
  simp only [Overhead] at hc
  rw [frames_split C key nonce rs j hj]
  generalize encodeFrames (sealedFrames C key nonce (rs.take j)) = F at hF ⊢
  generalize C.Seal key (incrementNonce^[j] nonce) (rs.getD j []) = c at hc ⊢
  generalize frames C key (incrementNonce^[j + 1] nonce) (rs.drop (j + 1)) = R
  generalize frameStart rs j = fst at hF h1 h2 ⊢
  have hre : salt ++ nonce ++ (F ++ (PutUint32 (uint32 c.length) ++ (c ++ R))) =
      (salt ++ nonce ++ (F ++ PutUint32 (uint32 c.length))) ++ (c ++ R) := by
    simp [List.append_assoc]
  have hpl : (salt ++ nonce ++ (F ++ PutUint32 (uint32 c.length))).length = fst + 4 := by
    simp only [List.length_append, hs, hn, PutUint32_length]
    omega
  rw [hre, List.take_append_eq_append_take, hpl, List.take_of_length_le (by omega),
    List.take_append_of_le_length (by omega)]
  simp [List.append_assoc]

/-- C7. Mid-frame truncation: when the container written by `EncryptStream` is
cut at a point behind the complete length field of the frame of some chunk `j`
and before the last sealed byte of that frame, `DecryptStream` with the same
password returns the error "unexpected EOF while reading chunk". -/
theorem DecryptStream_truncated_frame (C : Primitives) (hKey : KeyLength C)
    (hLen : SealLength C) (hInv : OpenInvertsSeal C) (password salt nonce extra : Bytes)
    (rs : List Bytes) (src : Source) (hsrc : Delivers src rs) (totalBytes totalBytes2 : Int) (onProgress onProgress2 : Bool)
    (j t : Nat) (hs : salt.length = 16) (hn : nonce.length = 12)
    (hrs : ∀ r ∈ rs, r ≠ [] ∧ r.length ≤ 65536) (hj : j < rs.length)
    (h1 : frameStart rs j + 4 ≤ t)
    (h2 : t < frameStart rs j + 4 + ((rs.getD j []).length + 16)) :
    (DecryptStream C
      ((EncryptStream C (salt ++ nonce ++ extra) src Writer.empty password
        totalBytes onProgress).state.output.buf.take t)
      Writer.empty password totalBytes2 onProgress2).err = some Error.unexpectedEOFChunk := by
  obtain ⟨-, hb⟩ := EncryptStream_output C hKey password salt nonce extra rs src hsrc totalBytes
    onProgress hs hn (fun r hr => (hrs r hr).1)
  have hrj : (rs.getD j []).length ≤ 65536 := by
    rw [List.getD_eq_getElem _ _ hj]
    exact (hrs _ (List.getElem_mem _)).2
  have hu := sealed_lenBuf C hLen (deriveKey C password salt) (incrementNonce^[j] nonce)
    (rs.getD j []) hrj
  have hc := hLen (deriveKey C password salt) (incrementNonce^[j] nonce) (rs.getD j [])
  simp only [Overhead] at hc
  rw [hb, container_take C hLen _ salt nonce rs j t hs hn hj h1 h2,
    DecryptStream_after_frames C hKey password salt nonce _ _ Writer.empty totalBytes2
      onProgress2 hs hn rfl
      (FramesOpen_sealedFrames C hLen hInv _ _
        (fun r hr => (hrs r (List.mem_of_mem_take hr)).2) nonce)]
  obtain ⟨hi, -, -, -⟩ := decAdvance_facts totalBytes2 onProgress2
    (sealedFrames C (deriveKey C password salt) nonce (rs.take j))
    ⟨PutUint32 (uint32 (C.Seal (deriveKey C password salt) (incrementNonce^[j] nonce)
        (rs.getD j [])).length) ++
      (C.Seal (deriveKey C password salt) (incrementNonce^[j] nonce) (rs.getD j [])).take
        (t - (frameStart rs j + 4)), Writer.empty, nonce, 28, []⟩
  rw [decLoop_stop _ _ _ _ _ _ _ _
    (decStep_truncated C _ 65552 totalBytes2 onProgress2 _ _ _ hi (PutUint32_length _)
      (by rw [hu]; omega) (by rw [hu, List.length_take, hc]; omega))]

theorem DecryptStream_truncated_frame_witness :
    (KeyLength toy ∧ SealLength toy ∧ OpenInvertsSeal toy ∧ exSalt.length = 16 ∧
      exNonce.length = 12 ∧ (∀ r ∈ exReads, r ≠ [] ∧ r.length ≤ 65536) ∧ 1 < exReads.length ∧
      frameStart exReads 1 + 4 ≤ 60 ∧
      60 < frameStart exReads 1 + 4 + ((exReads.getD 1 []).length + 16)) ∧
    (DecryptStream toy
      ((EncryptStream toy (exSalt ++ exNonce ++ []) (Source.ofReads exReads) Writer.empty [97] 4
        true).state.output.buf.take 60)
      Writer.empty [97] 0 true).err = some Error.unexpectedEOFChunk :=
  ⟨⟨toy_KeyLength, toy_SealLength, toy_OpenInvertsSeal, by decide, by decide, by decide,
      by decide, by decide, by decide⟩,
    DecryptStream_truncated_frame toy toy_KeyLength toy_SealLength toy_OpenInvertsSeal
      [97] exSalt exNonce [] exReads (Source.ofReads exReads) (Or.inl rfl) 4 0 true true 1 60
      (by decide) (by decide) (by decide)
      (by decide) (by decide) (by decide)⟩

/-! ## Tampering with a sealed chunk -/

theorem flipBit_length (bs : Bytes) (t b : Nat) : (flipBit bs t b).length = bs.length := by
  simp [flipBit]

theorem flipBit_append_right (pre x : Bytes) (t b : Nat) (h : pre.length ≤ t) :
    flipBit (pre ++ x) t b = pre ++ flipBit x (t - pre.length) b := by
  simp only [flipBit]
  rw [List.set_append_right _ _ h, List.getD_eq_getElem?_getD, List.getElem?_append_right h,
    ← List.getD_eq_getElem?_getD]

theorem flipBit_append_left (x post : Bytes) (t b : Nat) (h : t < x.length) :
    flipBit (x ++ post) t b = flipBit x t b ++ post := by
  simp only [flipBit]
  rw [List.set_append_left _ _ h, List.getD_eq_getElem?_getD, List.getElem?_append_left h,
    ← List.getD_eq_getElem?_getD]

/-- The container of `EncryptStream` with one bit flipped in the sealed chunk of
the frame of chunk `j`. -/
theorem container_flipBit (C : Primitives) (hLen : SealLength C) (key salt nonce : Bytes)
    (rs : List Bytes) (j t b : Nat) (hs : salt.length = 16) (hn : nonce.length = 12)
    (hj : j < rs.length) (h1 : frameStart rs j + 4 ≤ t)
    (h2 : t < frameStart rs j + 4 + ((rs.getD j []).length + 16)) :
    flipBit (salt ++ nonce ++ frames C key nonce rs) t b =
      salt ++ nonce ++ (encodeFrames (sealedFrames C key nonce (rs.take j)) ++
        (PutUint32 (uint32 (C.Seal key (incrementNonce^[j] nonce) (rs.getD j [])).length) ++
          (flipBit (C.Seal key (incrementNonce^[j] nonce) (rs.getD j []))
              (t - (frameStart rs j + 4)) b ++
            frames C key (incrementNonce^[j + 1] nonce) (rs.drop (j + 1))))) := by
  have hF := frames_take_length C hLen key nonce rs j
  have hc := hLen key (incrementNonce^[j] nonce) (rs.getD j [])
  simp only [Overhead] at hc
  rw [frames_split C key nonce rs j hj]
  generalize encodeFrames (sealedFrames C key nonce (rs.take j)) = F at hF ⊢
  generalize hcc : C.Seal key (incrementNonce^[j] nonce) (rs.getD j []) = c at hc ⊢
  generalize frames C key (incrementNonce^[j + 1] nonce) (rs.drop (j + 1)) = R
  generalize frameStart rs j = fst at hF h1 h2 ⊢
  have hre : salt ++ nonce ++ (F ++ (PutUint32 (uint32 c.length) ++ (c ++ R))) =
      (salt ++ nonce ++ (F ++ PutUint32 (uint32 c.length))) ++ (c ++ R) := by
    simp [List.append_assoc]
  have hpl : (salt ++ nonce ++ (F ++ PutUint32 (uint32 c.length))).length = fst + 4 := by
    simp only [List.length_append, hs, hn, PutUint32_length]
    omega
  rw [hre, flipBit_append_right _ _ _ _ (by omega), hpl,
    flipBit_append_left _ _ _ _ (by omega)]
  simp [List.append_assoc]

/-- C4. Tamper sensitivity: when one bit is flipped in a byte of the sealed
chunk of the frame of some chunk `j` of the container written by
`EncryptStream`, `DecryptStream` with the same password returns the error of
`Open`, having written the chunks before `j` and nothing of chunk `j` (`Open` is
assumed to invert `Seal` and to reject a sealed chunk with a flipped bit). -/
theorem DecryptStream_tampered_chunk (C : Primitives) (hKey : KeyLength C)
    (hLen : SealLength C) (hInv : OpenInvertsSeal C) (hTamper : TamperEvident C)
    (password salt nonce extra : Bytes) (rs : List Bytes) (src : Source) (hsrc : Delivers src rs) (totalBytes totalBytes2 : Int)
    (onProgress onProgress2 : Bool) (j t b : Nat) (hs : salt.length = 16)
    (hn : nonce.length = 12) (hrs : ∀ r ∈ rs, r ≠ [] ∧ r.length ≤ 65536) (hj : j < rs.length)
    (h1 : frameStart rs j + 4 ≤ t)
    (h2 : t < frameStart rs j + 4 + ((rs.getD j []).length + 16)) (hb : b < 8) :
    (DecryptStream C
      (flipBit (EncryptStream C (salt ++ nonce ++ extra) src Writer.empty
        password totalBytes onProgress).state.output.buf t b)
      Writer.empty password totalBytes2 onProgress2).err = some Error.openFailed ∧
    (DecryptStream C
      (flipBit (EncryptStream C (salt ++ nonce ++ extra) src Writer.empty
        password totalBytes onProgress).state.output.buf t b)
      Writer.empty password totalBytes2 onProgress2).state.output.buf = (rs.take j).flatten := by
  obtain ⟨-, hbuf⟩ := EncryptStream_output C hKey password salt nonce extra rs src hsrc totalBytes
    onProgress hs hn (fun r hr => (hrs r hr).1)
  have hrj : (rs.getD j []).length ≤ 65536 := by
    rw [List.getD_eq_getElem _ _ hj]
    exact (hrs _ (List.getElem_mem _)).2
  have hu := sealed_lenBuf C hLen (deriveKey C password salt) (incrementNonce^[j] nonce)
    (rs.getD j []) hrj
  have hc := hLen (deriveKey C password salt) (incrementNonce^[j] nonce) (rs.getD j [])
  simp only [Overhead] at hc
  rw [hbuf, container_flipBit C hLen _ salt nonce rs j t b hs hn hj h1 h2,
    DecryptStream_after_frames C hKey password salt nonce _ _ Writer.empty totalBytes2
      onProgress2 hs hn rfl
      (FramesOpen_sealedFrames C hLen hInv _ _
        (fun r hr => (hrs r (List.mem_of_mem_take hr)).2) nonce)]
  obtain ⟨hi, ho, hcn, -⟩ := decAdvance_facts totalBytes2 onProgress2
    (sealedFrames C (deriveKey C password salt) nonce (rs.take j))
    ⟨PutUint32 (uint32 (C.Seal (deriveKey C password salt) (incrementNonce^[j] nonce)
        (rs.getD j [])).length) ++
      (flipBit (C.Seal (deriveKey C password salt) (incrementNonce^[j] nonce) (rs.getD j []))
          (t - (frameStart rs j + 4)) b ++
        frames C (deriveKey C password salt) (incrementNonce^[j + 1] nonce) (rs.drop (j + 1))),
      Writer.empty, nonce, 28, []⟩
  have hlen : (sealedFrames C (deriveKey C password salt) nonce (rs.take j)).length = j := by
    rw [sealedFrames_length, List.length_take]; omega
  rw [hlen] at hcn
  rw [decLoop_stop _ _ _ _ _ _ _ _
    (decStep_openFailed C _ 65552 totalBytes2 onProgress2 _ _ _ _ hi (PutUint32_length _)
      (by rw [hu, flipBit_length, hc]) (by rw [hu]; omega)
      (by rw [hcn]; exact hTamper _ _ _ _ _ (by rw [hc]; omega) hb))]
  refine ⟨rfl, ?_⟩
  dsimp only
  rw [ho, sealedFrames_plaintext]
  simp [Writer.empty]

theorem xor_pow_ne (a b : Nat) : a ^^^ 2 ^ b ≠ a := by
  intro h
  have h1 : a ^^^ (a ^^^ 2 ^ b) = a ^^^ a := by rw [h]
  rw [Nat.xor_cancel_left, Nat.xor_self] at h1
  exact absurd h1 (by positivity)

theorem flipBit_cons_zero (x : Nat) (p : Bytes) (b : Nat) :
    flipBit (x :: p) 0 b = (x ^^^ 2 ^ b) :: p := rfl

theorem flipBit_cons_succ (x : Nat) (p : Bytes) (i b : Nat) :
    flipBit (x :: p) (i + 1) b = x :: flipBit p i b := rfl

theorem flipBit_ne (p : Bytes) (b : Nat) : ∀ i, i < p.length → flipBit p i b ≠ p := by
  induction p with
  | nil => intro i hi; simp at hi
  | cons x p ih =>
    intro i hi
    cases i with
    | zero =>
      rw [flipBit_cons_zero]
      intro h
      exact xor_pow_ne x b (List.cons.inj h).1
    | succ i =>
      rw [flipBit_cons_succ]
      intro h
      exact ih i (by simpa using hi) (List.cons.inj h).2

theorem xorFold_flipBit (p : Bytes) (b : Nat) :
    ∀ i, i < p.length → xorFold (flipBit p i b) = xorFold p ^^^ 2 ^ b := by
  induction p with
  | nil => intro i hi; simp at hi
  | cons x p ih =>
    intro i hi
    cases i with
    | zero =>
      rw [flipBit_cons_zero]
      simp only [xorFold, List.foldr_cons]
      rw [Nat.xor_assoc, Nat.xor_comm (2 ^ b), ← Nat.xor_assoc]
    | succ i =>
      rw [flipBit_cons_succ]
      have h := ih i (by simpa using hi)
      simp only [xorFold, List.foldr_cons] at h ⊢
      rw [h, Nat.xor_assoc]

theorem toy_TamperEvident : TamperEvident toy := by
  intro key nonce p i b hi _
  have hlen : (toyTag key nonce p).length = 16 := by simp [toyTag]
  simp only [toy, List.length_append, hlen] at hi
  show (if 16 ≤ (flipBit (p ++ toyTag key nonce p) i b).length ∧
      (flipBit (p ++ toyTag key nonce p) i b).drop
          ((flipBit (p ++ toyTag key nonce p) i b).length - 16) =
        toyTag key nonce ((flipBit (p ++ toyTag key nonce p) i b).take
          ((flipBit (p ++ toyTag key nonce p) i b).length - 16)) then
      some ((flipBit (p ++ toyTag key nonce p) i b).take
        ((flipBit (p ++ toyTag key nonce p) i b).length - 16)) else none) = none
  rw [if_neg]
  rintro ⟨-, h⟩
  rw [flipBit_length, List.length_append, hlen, Nat.add_sub_cancel] at h
  by_cases hip : i < p.length
  · rw [flipBit_append_left _ _ _ _ hip] at h
    have hl : (flipBit p i b).length = p.length := flipBit_length _ _ _
    rw [List.drop_left' hl, List.take_left' hl] at h
    have hx := xorFold_flipBit p b i hip
    simp only [toyTag, List.cons.injEq] at h
    rw [hx] at h
    exact xor_pow_ne _ _ h.1.symm
  · rw [flipBit_append_right _ _ _ _ (by omega)] at h
    rw [List.drop_left' rfl, List.take_left' rfl] at h
    exact flipBit_ne _ b (i - p.length) (by rw [hlen]; omega) h

theorem DecryptStream_tampered_chunk_witness :
    (KeyLength toy ∧ SealLength toy ∧ OpenInvertsSeal toy ∧ TamperEvident toy ∧
      exSalt.length = 16 ∧ exNonce.length = 12 ∧ (∀ r ∈ exReads, r ≠ [] ∧ r.length ≤ 65536) ∧
      1 < exReads.length ∧ frameStart exReads 1 + 4 ≤ 60 ∧
      60 < frameStart exReads 1 + 4 + ((exReads.getD 1 []).length + 16) ∧ 3 < 8) ∧
    ((DecryptStream toy
      (flipBit (EncryptStream toy (exSalt ++ exNonce ++ []) (Source.ofReads exReads) Writer.empty
        [97] 4 true).state.output.buf 60 3)
      Writer.empty [97] 0 true).err = some Error.openFailed ∧
    (DecryptStream toy
      (flipBit (EncryptStream toy (exSalt ++ exNonce ++ []) (Source.ofReads exReads) Writer.empty
        [97] 4 true).state.output.buf 60 3)
      Writer.empty [97] 0 true).state.output.buf = (exReads.take 1).flatten) :=
  ⟨⟨toy_KeyLength, toy_SealLength, toy_OpenInvertsSeal, toy_TamperEvident, by decide, by decide,
      by decide, by decide, by decide, by decide, by decide⟩,
    DecryptStream_tampered_chunk toy toy_KeyLength toy_SealLength toy_OpenInvertsSeal
      toy_TamperEvident [97] exSalt exNonce [] exReads (Source.ofReads exReads) (Or.inl rfl)
      4 0 true true 1 60 3 (by decide)
      (by decide) (by decide) (by decide) (by decide) (by decide) (by decide)⟩

/-! ## Wrong password -/

theorem toy_WrongKeyRejected (key key2 : Bytes) (h : key.sum % 256 ≠ key2.sum % 256) :
    WrongKeyRejected toy key key2 := by
  intro nonce p
  have hlen : (toyTag key nonce p).length = 16 := by simp [toyTag]
  show (if 16 ≤ (p ++ toyTag key nonce p).length ∧
      (p ++ toyTag key nonce p).drop ((p ++ toyTag key nonce p).length - 16) =
        toyTag key2 nonce ((p ++ toyTag key nonce p).take
          ((p ++ toyTag key nonce p).length - 16)) then
      some ((p ++ toyTag key nonce p).take ((p ++ toyTag key nonce p).length - 16))
    else none) = none
  rw [if_neg]
  rintro ⟨-, h1⟩
  rw [List.length_append, hlen, Nat.add_sub_cancel, List.drop_left' rfl, List.take_left' rfl]
    at h1
  simp only [toyTag, List.cons.injEq] at h1
  exact h h1.2.1

/-- With an unbounded sink, `DecryptStream` accepts a container that holds the
header and no frame, whatever the password. -/
theorem DecryptStream_header_only (C : Primitives) (hKey : KeyLength C)
    (password salt nonce : Bytes) (output : Writer) (totalBytes : Int) (onProgress : Bool)
    (hs : salt.length = 16) (hn : nonce.length = 12) :
    DecryptStream C (salt ++ nonce ++ []) output password totalBytes onProgress =
      ⟨none, ⟨[], output, nonce, 28, []⟩⟩ := by
  rw [DecryptStream_eq_decLoop C hKey password salt nonce _ output totalBytes onProgress hs hn]
  exact decLoop_stop _ _ _ _ _ _ _ _ (decStep_eof _ _ _ _ _ _ rfl)

/-- C5, as stated, fails: the container of the empty plaintext, written with the
password `[97]`, is accepted with the password `[98]`, although the two
passwords derive different keys and `Open` under the second key rejects every
chunk sealed under the first. -/
theorem wrong_password_accepted_on_empty_plaintext :
    ([97] : Bytes) ≠ [98] ∧
      deriveKey toy [97] exSalt ≠ deriveKey toy [98] exSalt ∧
      WrongKeyRejected toy (deriveKey toy [97] exSalt) (deriveKey toy [98] exSalt) ∧
      (EncryptStream toy (exSalt ++ exNonce ++ []) (Source.ofReads []) Writer.empty [97] 0
        false).err = none ∧
      (DecryptStream toy
        (EncryptStream toy (exSalt ++ exNonce ++ []) (Source.ofReads []) Writer.empty [97] 0
          false).state.output.buf
        Writer.empty [98] 0 false).err = none := by
  obtain ⟨he, hb⟩ := EncryptStream_output toy toy_KeyLength [97] exSalt exNonce [] []
    (Source.ofReads []) (Or.inl rfl) 0 false
    (by decide) (by decide) (by simp)
  refine ⟨by decide, by decide, toy_WrongKeyRejected _ _ (by decide), he, ?_⟩
  rw [hb]
  simp only [frames]
  rw [DecryptStream_header_only toy toy_KeyLength [98] exSalt exNonce Writer.empty 0 false
    (by decide) (by decide)]

/-! ## Termination of the decryption loop -/

theorem ReadFull_ok_inv (src d r : Bytes) (n : Nat) (h : ReadFull src n = (none, d, r)) :
    src = d ++ r ∧ d.length = n := by
  unfold ReadFull at h
  split_ifs at h with h1 h2 h3
  · simp only [Prod.mk.injEq, true_and] at h
    obtain ⟨rfl, rfl⟩ := h
    exact ⟨rfl, h1.symm⟩
  · simp at h
  · simp at h
  · simp only [Prod.mk.injEq, true_and] at h
    obtain ⟨rfl, rfl⟩ := h
    exact ⟨(List.take_append_drop n src).symm, by rw [List.length_take]; omega⟩

theorem ReadFull_EOF_inv (src d r : Bytes) (n : Nat)
    (h : ReadFull src n = (some Error.EOF, d, r)) : src = [] := by
  unfold ReadFull at h
  split_ifs at h with h1 h2 h3
  · simp at h
  · exact List.length_eq_zero.1 h2
  · simp at h
  · simp at h

/-- A pass of the loop body that leaves the function with `nil` found the source
at its end. -/
theorem decStep_stop_none_inv (C : Primitives) (key : Bytes) (maxChunkLen : Nat)
    (totalBytes : Int) (onProgress : Bool) (st st1 : DecState)
    (h : decStep C key maxChunkLen totalBytes onProgress st = Step.stop none st1) :
    st.input = [] := by
  unfold decStep at h
  split at h
  · rename_i e d rest heq
    split_ifs at h with he
    · subst he
      exact ReadFull_EOF_inv _ _ _ _ heq
    · simp at h
  · simp only at h
    split at h
    · simp at h
    · split at h
      · simp at h
      · split at h
        · simp at h
        · split at h
          · simp at h
          · simp at h

/-- A pass of the loop body that goes round again has read one frame and opened
it under the current nonce. -/
theorem decStep_next_inv (C : Primitives) (key : Bytes) (maxChunkLen : Nat)
    (totalBytes : Int) (onProgress : Bool) (st st1 : DecState)
    (h : decStep C key maxChunkLen totalBytes onProgress st = Step.next st1) :
    ∃ lenBuf c p, st.input = lenBuf ++ (c ++ st1.input) ∧ lenBuf.length = 4 ∧
      Uint32 lenBuf ≤ maxChunkLen ∧ c.length = Uint32 lenBuf ∧
      C.Open key st.currNonce c = some p ∧ st1.currNonce = incrementNonce st.currNonce := by
  unfold decStep at h
  split at h
  · split at h <;> simp at h
  · rename_i lenBuf rest heq
    obtain ⟨hsrc, hl4⟩ := ReadFull_ok_inv _ _ _ _ heq
    simp only at h
    split at h
    · simp at h
    · rename_i hbig
      split at h
      · simp at h
      · rename_i c rest2 heq2
        obtain ⟨hsrc2, hlc⟩ := ReadFull_ok_inv _ _ _ _ heq2
        split at h
        · simp at h
        · rename_i p hopen
          split at h
          · simp at h
          · simp only [Step.next.injEq] at h
            subst h
            refine ⟨lenBuf, c, p, ?_, hl4, by omega, hlc, hopen, rfl⟩
            rw [hsrc, hsrc2]

/-- When the decryption loop returns `nil`, the bytes it started from are frames
that open, and nothing else. -/
theorem decLoop_success_inv (C : Primitives) (key : Bytes) (totalBytes : Int)
    (onProgress : Bool) :
    ∀ (n : Nat) (st : DecState), st.input.length ≤ n →
      (decLoop C key 65552 totalBytes onProgress st).err = none →
      ∃ fs, st.input = encodeFrames fs ∧ FramesOpen C key st.currNonce fs := by
  intro n
  induction n with
  | zero =>
    intro st hlen _
    exact ⟨[], by simpa [encodeFrames] using hlen, trivial⟩
  | succ n ih =>
    intro st hlen hok
    cases hd : decStep C key 65552 totalBytes onProgress st with
    | stop e st1 =>
      rw [decLoop_stop _ _ _ _ _ _ _ _ hd] at hok
      simp only at hok
      subst hok
      exact ⟨[], by simpa [encodeFrames] using decStep_stop_none_inv _ _ _ _ _ _ _ hd, trivial⟩
    | next st1 =>
      rw [decLoop_next _ _ _ _ _ _ _ hd] at hok
      obtain ⟨lenBuf, c, p, hin, h4, hmax, hc, hopen, hnonce⟩ :=
        decStep_next_inv _ _ _ _ _ _ _ hd
      have hlt : st1.input.length ≤ n := by
        have := congrArg List.length hin
        simp only [List.length_append] at this
        omega
      obtain ⟨fs, hfs, hfo⟩ := ih st1 hlt hok
      refine ⟨⟨lenBuf, c, p⟩ :: fs, ?_, h4, hmax, hc, hopen, ?_⟩
      · rw [hin, hfs]
        simp [encodeFrames]
      · rw [← hnonce]
        exact hfo

/-- C9. Only valid termination: with a sink that accepts every write,
`DecryptStream` on a header followed by `body` returns `nil` exactly when `body`
is a sequence of frames each of which is read and opened successfully and the
source ends right behind the last of them; and when behind frames that open the
source ends after 1, 2 or 3 bytes (`part`) of a length field, `DecryptStream`
returns the error `io.ErrUnexpectedEOF`. -/
theorem DecryptStream_success_iff (C : Primitives) (hKey : KeyLength C)
    (password salt nonce body : Bytes) (output : Writer) (totalBytes : Int) (onProgress : Bool)
    (hs : salt.length = 16) (hn : nonce.length = 12) (hw : output.room = none) :
    ((DecryptStream C (salt ++ nonce ++ body) output password totalBytes onProgress).err = none ↔
      ∃ fs, body = encodeFrames fs ∧ FramesOpen C (deriveKey C password salt) nonce fs) ∧
    (∀ fs part, body = encodeFrames fs ++ part →
      FramesOpen C (deriveKey C password salt) nonce fs → 1 ≤ part.length → part.length ≤ 3 →
      (DecryptStream C (salt ++ nonce ++ body) output password totalBytes onProgress).err =
        some Error.ErrUnexpectedEOF) := by
  constructor
  · constructor
    · intro hok
      rw [DecryptStream_eq_decLoop C hKey password salt nonce body output totalBytes onProgress
        hs hn] at hok
      exact decLoop_success_inv C _ totalBytes onProgress body.length
        ⟨body, output, nonce, 28, []⟩ (le_refl _) hok
    · rintro ⟨fs, hbody, hfo⟩
      have h := DecryptStream_after_frames C hKey password salt nonce [] fs output totalBytes
        onProgress hs hn hw hfo
      rw [List.append_nil, ← hbody] at h
      rw [h, decLoop_stop _ _ _ _ _ _ _ _
        (decStep_eof _ _ _ _ _ _ (decAdvance_facts totalBytes onProgress fs _).1)]
  · intro fs part hbody hfo h1 h3
    rw [hbody, DecryptStream_after_frames C hKey password salt nonce part fs output totalBytes
      onProgress hs hn hw hfo]
    have hi := (decAdvance_facts totalBytes onProgress fs ⟨part, output, nonce, 28, []⟩).1
    simp only at hi
    rw [decLoop_stop _ _ _ _ _ _ _ _
      (decStep_shortLen _ _ _ _ _ _
        (by rw [hi]; intro h; rw [h] at h1; simp at h1) (by rw [hi]; omega))]

theorem DecryptStream_success_iff_witness :
    (KeyLength toy ∧ exSalt.length = 16 ∧ exNonce.length = 12 ∧ Writer.empty.room = none) ∧
    (((DecryptStream toy (exSalt ++ exNonce ++ [0, 0]) Writer.empty [97] 0 true).err = none ↔
      ∃ fs, [0, 0] = encodeFrames fs ∧ FramesOpen toy (deriveKey toy [97] exSalt) exNonce fs) ∧
    (∀ fs part, [0, 0] = encodeFrames fs ++ part →
      FramesOpen toy (deriveKey toy [97] exSalt) exNonce fs → 1 ≤ part.length →
      part.length ≤ 3 →
      (DecryptStream toy (exSalt ++ exNonce ++ [0, 0]) Writer.empty [97] 0 true).err =
        some Error.ErrUnexpectedEOF)) :=
  ⟨⟨toy_KeyLength, by decide, by decide, rfl⟩,
    DecryptStream_success_iff toy toy_KeyLength [97] exSalt exNonce [0, 0] Writer.empty 0 true
      (by decide) (by decide) rfl⟩

/-! ## A container without frames -/

/-- C17. A container with no frames carries no password check: on every input
of 28 bytes and for every password `DecryptStream` returns `nil`, leaves the
sink as it was and makes no progress call; the output of `EncryptStream` on the
empty plaintext is such an input. -/
theorem DecryptStream_no_frames (C : Primitives) (hKey : KeyLength C) (input : Bytes)
    (output : Writer) (password : Bytes) (totalBytes : Int) (onProgress : Bool)
    (h : input.length = 28) :
    (DecryptStream C input output password totalBytes onProgress).err = none ∧
      (DecryptStream C input output password totalBytes onProgress).state.output = output ∧
      (DecryptStream C input output password totalBytes onProgress).state.progress = [] ∧
      (∀ (password2 salt nonce extra : Bytes) (src : Source) (tb : Int) (cb : Bool),
        salt.length = 16 → nonce.length = 12 → Delivers src [] →
        (EncryptStream C (salt ++ nonce ++ extra) src Writer.empty password2 tb cb).err = none ∧
        (EncryptStream C (salt ++ nonce ++ extra) src Writer.empty password2 tb
          cb).state.output.buf.length = 28) := by
  have hin : input = input.take 16 ++ input.drop 16 ++ [] := by
    rw [List.append_nil, List.take_append_drop]
  have h1 := DecryptStream_header_only C hKey password (input.take 16) (input.drop 16) output
    totalBytes onProgress (by rw [List.length_take]; omega) (by rw [List.length_drop]; omega)
  rw [← hin] at h1
  rw [h1]
  refine ⟨rfl, rfl, rfl, ?_⟩
  intro password2 salt nonce extra src tb cb hs hn hsrc
  obtain ⟨he, hb⟩ := EncryptStream_output C hKey password2 salt nonce extra [] src hsrc tb cb
    hs hn (by simp)
  refine ⟨he, ?_⟩
  rw [hb]
  simp [frames, hs, hn]

theorem DecryptStream_no_frames_witness :
    (KeyLength toy ∧ (exSalt ++ exNonce).length = 28) ∧
    ((DecryptStream toy (exSalt ++ exNonce) Writer.empty [98] 0 true).err = none ∧
      (DecryptStream toy (exSalt ++ exNonce) Writer.empty [98] 0 true).state.output =
        Writer.empty ∧
      (DecryptStream toy (exSalt ++ exNonce) Writer.empty [98] 0 true).state.progress = [] ∧
      (∀ (password2 salt nonce extra : Bytes) (src : Source) (tb : Int) (cb : Bool),
        salt.length = 16 → nonce.length = 12 → Delivers src [] →
        (EncryptStream toy (salt ++ nonce ++ extra) src Writer.empty password2 tb cb).err =
          none ∧
        (EncryptStream toy (salt ++ nonce ++ extra) src Writer.empty password2 tb
          cb).state.output.buf.length = 28)) :=
  ⟨⟨toy_KeyLength, by decide⟩,
    DecryptStream_no_frames toy toy_KeyLength (exSalt ++ exNonce) Writer.empty [98] 0 true
      (by decide)⟩

/-! ## The length fields of `EncryptStream` -/

/-- On frames whose length fields fit the sealed chunks and stay within 65552,
the decryption loop never returns the error "chunk too large", whatever `Open`
does. -/
theorem decLoop_not_tooLarge (C : Primitives) (key : Bytes) (totalBytes : Int)
    (onProgress : Bool) (n m : Nat) (fs : List Frame) :
    ∀ st : DecState,
      (∀ f ∈ fs, f.lenBuf.length = 4 ∧ Uint32 f.lenBuf ≤ 65552 ∧
        f.ciphertext.length = Uint32 f.lenBuf) →
      st.output.room = none → st.input = encodeFrames fs →
      (decLoop C key 65552 totalBytes onProgress st).err ≠ some (Error.chunkTooLarge n m) := by
  induction fs with
  | nil =>
    intro st _ _ hin
    rw [decLoop_stop _ _ _ _ _ _ _ _ (decStep_eof _ _ _ _ _ _ (by simpa [encodeFrames] using hin))]
    simp
  | cons f fs ih =>
    intro st hfs hw hin
    obtain ⟨h4, hmax, hc⟩ := hfs f (by simp)
    have hin2 : st.input = f.lenBuf ++ (f.ciphertext ++ encodeFrames fs) := by
      rw [hin]; simp [encodeFrames, List.append_assoc]
    cases hopen : C.Open key st.currNonce f.ciphertext with
    | none =>
      rw [decLoop_stop _ _ _ _ _ _ _ _
        (decStep_openFailed C key 65552 totalBytes onProgress st _ _ _ hin2 h4 hc hmax hopen)]
      simp
    | some p =>
      rw [decLoop_next _ _ _ _ _ _ _
        (decStep_frame C key 65552 totalBytes onProgress st _ _ _ p hin2 h4 hc hmax hopen hw)]
      exact ih _ (fun g hg => hfs g (by simp [hg])) hw rfl

theorem sealedFrames_wellFramed (C : Primitives) (hLen : SealLength C) (key : Bytes)
    (rs : List Bytes) (hrs : ∀ r ∈ rs, r ≠ [] ∧ r.length ≤ 65536) :
    ∀ nonce : Bytes, ∀ f ∈ sealedFrames C key nonce rs,
      uint32 f.ciphertext.length = f.ciphertext.length ∧
      f.lenBuf = PutUint32 f.ciphertext.length ∧ f.lenBuf.length = 4 ∧
      f.ciphertext.length = Uint32 f.lenBuf ∧
      17 ≤ Uint32 f.lenBuf ∧ Uint32 f.lenBuf ≤ 65552 := by
  induction rs with
  | nil => intro nonce f hf; simp [sealedFrames] at hf
  | cons r rs ih =>
    intro nonce f hf
    simp only [sealedFrames, List.mem_cons] at hf
    rcases hf with rfl | hf
    · obtain ⟨hr0, hr⟩ := hrs r (by simp)
      have hpos : 0 < r.length := List.length_pos.2 hr0
      have hu := sealed_lenBuf C hLen key nonce r hr
      have hsl := hLen key nonce r
      simp only [Overhead] at hsl
      have h32 : uint32 (C.Seal key nonce r).length = (C.Seal key nonce r).length := by
        rw [uint32, Nat.mod_eq_of_lt (by omega)]
      refine ⟨h32, ?_, PutUint32_length _, hsl.trans hu.symm, ?_, ?_⟩
      · simp only [h32]
      · simp only [hu]; omega
      · simp only [hu]; omega
    · exact ih (fun x hx => hrs x (by simp [hx])) _ f hf

/-- C18. The frames that `EncryptStream` writes for non-empty reads of at most
65536 bytes are `sealedFrames`; in each of them the conversion of the sealed
length to `uint32` loses nothing, the length field encodes that length, a value
from 17 to 65552, which passes the check of `DecryptStream`; and
`DecryptStream`, with any password, never returns "chunk too large" on the
container. -/
theorem EncryptStream_length_fields (C : Primitives) (hKey : KeyLength C)
    (hLen : SealLength C) (password password2 salt nonce extra : Bytes) (rs : List Bytes)
    (src : Source) (hsrc : Delivers src rs) (totalBytes totalBytes2 : Int)
    (onProgress onProgress2 : Bool) (hs : salt.length = 16) (hn : nonce.length = 12)
    (hrs : ∀ r ∈ rs, r ≠ [] ∧ r.length ≤ 65536) :
    (EncryptStream C (salt ++ nonce ++ extra) src Writer.empty password totalBytes
        onProgress).state.output.buf =
      salt ++ nonce ++ encodeFrames (sealedFrames C (deriveKey C password salt) nonce rs) ∧
    (∀ f ∈ sealedFrames C (deriveKey C password salt) nonce rs,
      uint32 f.ciphertext.length = f.ciphertext.length ∧
      f.lenBuf = PutUint32 f.ciphertext.length ∧
      17 ≤ Uint32 f.lenBuf ∧ Uint32 f.lenBuf ≤ 65552 ∧
      ¬ Uint32 f.lenBuf > uint32 (ChunkSize + Overhead)) ∧
    (∀ n m, (DecryptStream C
      (EncryptStream C (salt ++ nonce ++ extra) src Writer.empty password totalBytes
        onProgress).state.output.buf
      Writer.empty password2 totalBytes2 onProgress2).err ≠ some (Error.chunkTooLarge n m)) := by
  obtain ⟨-, hb⟩ := EncryptStream_output C hKey password salt nonce extra rs src hsrc totalBytes
    onProgress hs hn (fun r hr => (hrs r hr).1)
  have hwf := sealedFrames_wellFramed C hLen (deriveKey C password salt) rs hrs nonce
  rw [hb, encodeFrames_sealedFrames]
  refine ⟨rfl, ?_, ?_⟩
  · intro f hf
    obtain ⟨h1, h2, -, -, h5, h6⟩ := hwf f hf
    refine ⟨h1, h2, h5, h6, ?_⟩
    rw [maxChunkLen_eq]
    omega
  · intro n m
    rw [DecryptStream_eq_decLoop C hKey password2 salt nonce _ Writer.empty totalBytes2
      onProgress2 hs hn]
    exact decLoop_not_tooLarge C _ totalBytes2 onProgress2 n m
      (sealedFrames C (deriveKey C password salt) nonce rs) _
      (fun f hf => by
        obtain ⟨-, -, h3, h4, -, h6⟩ := hwf f hf
        exact ⟨h3, h6, h4⟩)
      rfl (by simp [encodeFrames_sealedFrames])

theorem EncryptStream_length_fields_witness :
    (KeyLength toy ∧ SealLength toy ∧ Delivers (Source.ofReads exReads) exReads ∧
      exSalt.length = 16 ∧ exNonce.length = 12 ∧ ∀ r ∈ exReads, r ≠ [] ∧ r.length ≤ 65536) ∧
    ((EncryptStream toy (exSalt ++ exNonce ++ []) (Source.ofReads exReads) Writer.empty [97] 4
        true).state.output.buf =
      exSalt ++ exNonce ++
        encodeFrames (sealedFrames toy (deriveKey toy [97] exSalt) exNonce exReads) ∧
    (∀ f ∈ sealedFrames toy (deriveKey toy [97] exSalt) exNonce exReads,
      uint32 f.ciphertext.length = f.ciphertext.length ∧
      f.lenBuf = PutUint32 f.ciphertext.length ∧
      17 ≤ Uint32 f.lenBuf ∧ Uint32 f.lenBuf ≤ 65552 ∧
      ¬ Uint32 f.lenBuf > uint32 (ChunkSize + Overhead)) ∧
    (∀ n m, (DecryptStream toy
      (EncryptStream toy (exSalt ++ exNonce ++ []) (Source.ofReads exReads) Writer.empty [97] 4
        true).state.output.buf
      Writer.empty [98] 0 true).err ≠ some (Error.chunkTooLarge n m))) :=
  ⟨⟨toy_KeyLength, toy_SealLength, Or.inl rfl, by decide, by decide, by decide⟩,
    EncryptStream_length_fields toy toy_KeyLength toy_SealLength [97] [98] exSalt exNonce []
      exReads (Source.ofReads exReads) (Or.inl rfl) 4 0 true true (by decide) (by decide)
      (by decide)⟩

/-! ## Truncation at a frame boundary -/

/-- The container of `EncryptStream` cut at the start of frame `k`. -/
theorem container_take_frameStart (C : Primitives) (hLen : SealLength C)
    (key salt nonce : Bytes) (rs : List Bytes) (k : Nat) (hs : salt.length = 16)
    (hn : nonce.length = 12) :
    (salt ++ nonce ++ frames C key nonce rs).take (frameStart rs k) =
      salt ++ nonce ++ frames C key nonce (rs.take k) := by
  have h1 : frames C key nonce rs =
      frames C key nonce (rs.take k) ++
        frames C key (incrementNonce^[(rs.take k).length] nonce) (rs.drop k) := by
    conv_lhs => rw [← List.take_append_drop k rs]
    rw [frames_append]
  have hl : (salt ++ nonce ++ frames C key nonce (rs.take k)).length = frameStart rs k := by
    simp only [List.length_append, hs, hn, frames_length C hLen, frameStart]
  rw [h1, ← List.append_assoc, List.take_left' hl]

/-- C14. Frame-boundary truncation is undetected: when the container written by
`EncryptStream` for the chunks `rs` is cut behind its first `k` frames
(all of them when `k` exceeds their number), `DecryptStream` with the same
password returns `nil` and writes exactly the first `k` chunks. -/
theorem DecryptStream_frame_boundary_cut (C : Primitives) (hKey : KeyLength C)
    (hLen : SealLength C) (hInv : OpenInvertsSeal C) (password salt nonce extra : Bytes)
    (rs : List Bytes) (src : Source) (hsrc : Delivers src rs) (totalBytes totalBytes2 : Int)
    (onProgress onProgress2 : Bool) (k : Nat) (hs : salt.length = 16) (hn : nonce.length = 12)
    (hrs : ∀ r ∈ rs, r ≠ [] ∧ r.length ≤ 65536) :
    (EncryptStream C (salt ++ nonce ++ extra) src Writer.empty password totalBytes
        onProgress).state.output.buf.take (frameStart rs k) =
      salt ++ nonce ++ encodeFrames (sealedFrames C (deriveKey C password salt) nonce (rs.take k)) ∧
    (DecryptStream C
      ((EncryptStream C (salt ++ nonce ++ extra) src Writer.empty password totalBytes
        onProgress).state.output.buf.take (frameStart rs k))
      Writer.empty password totalBytes2 onProgress2).err = none ∧
    (DecryptStream C
      ((EncryptStream C (salt ++ nonce ++ extra) src Writer.empty password totalBytes
        onProgress).state.output.buf.take (frameStart rs k))
      Writer.empty password totalBytes2 onProgress2).state.output.buf = (rs.take k).flatten := by
  obtain ⟨-, hb⟩ := EncryptStream_output C hKey password salt nonce extra rs src hsrc totalBytes
    onProgress hs hn (fun r hr => (hrs r hr).1)
  rw [hb, container_take_frameStart C hLen _ salt nonce rs k hs hn,
    ← encodeFrames_sealedFrames]
  refine ⟨rfl, ?_⟩
  have h := DecryptStream_after_frames C hKey password salt nonce []
    (sealedFrames C (deriveKey C password salt) nonce (rs.take k)) Writer.empty totalBytes2
    onProgress2 hs hn rfl
    (FramesOpen_sealedFrames C hLen hInv _ _
      (fun r hr => (hrs r (List.mem_of_mem_take hr)).2) nonce)
  rw [List.append_nil] at h
  obtain ⟨h1, h2, -, -⟩ := decAdvance_facts totalBytes2 onProgress2
    (sealedFrames C (deriveKey C password salt) nonce (rs.take k))
    ⟨[], Writer.empty, nonce, 28, []⟩
  rw [h, decLoop_stop _ _ _ _ _ _ _ _ (decStep_eof _ _ _ _ _ _ h1)]
  refine ⟨rfl, ?_⟩
  dsimp only
  rw [h2, sealedFrames_plaintext]
  simp [Writer.empty]

theorem DecryptStream_frame_boundary_cut_witness :
    (KeyLength toy ∧ SealLength toy ∧ OpenInvertsSeal toy ∧
      Delivers (Source.ofReads exReads) exReads ∧ exSalt.length = 16 ∧ exNonce.length = 12 ∧
      (∀ r ∈ exReads, r ≠ [] ∧ r.length ≤ 65536)) ∧
    ((EncryptStream toy (exSalt ++ exNonce ++ []) (Source.ofReads exReads) Writer.empty [97] 4
        true).state.output.buf.take (frameStart exReads 1) =
      exSalt ++ exNonce ++
        encodeFrames (sealedFrames toy (deriveKey toy [97] exSalt) exNonce (exReads.take 1)) ∧
    (DecryptStream toy
      ((EncryptStream toy (exSalt ++ exNonce ++ []) (Source.ofReads exReads) Writer.empty [97] 4
        true).state.output.buf.take (frameStart exReads 1))
      Writer.empty [97] 0 true).err = none ∧
    (DecryptStream toy
      ((EncryptStream toy (exSalt ++ exNonce ++ []) (Source.ofReads exReads) Writer.empty [97] 4
        true).state.output.buf.take (frameStart exReads 1))
      Writer.empty [97] 0 true).state.output.buf = (exReads.take 1).flatten) :=
  ⟨⟨toy_KeyLength, toy_SealLength, toy_OpenInvertsSeal, Or.inl rfl, by decide, by decide,
      by decide⟩,
    DecryptStream_frame_boundary_cut toy toy_KeyLength toy_SealLength toy_OpenInvertsSeal [97]
      exSalt exNonce [] exReads (Source.ofReads exReads) (Or.inl rfl) 4 0 true true 1
      (by decide) (by decide) (by decide)⟩

/-! ## Output left by a failed decryption -/

/-- C13. Partial output on failure: when `DecryptStream`, with a sink that
accepts every write, has read and opened the frames `fs` and the next frame
fails (oversized length field, source ending inside the frame, or `Open`
failing), it returns the error of that failure and the sink holds what it held
before followed by the plaintexts of `fs` in order, and nothing else. -/
theorem DecryptStream_partial_output (C : Primitives) (hKey : KeyLength C)
    (password salt nonce tail : Bytes) (fs : List Frame) (output : Writer) (totalBytes : Int)
    (onProgress : Bool) (hs : salt.length = 16) (hn : nonce.length = 12)
    (hw : output.room = none) (hfs : FramesOpen C (deriveKey C password salt) nonce fs)
    (hfail : FrameFails C (deriveKey C password salt) (incrementNonce^[fs.length] nonce) tail) :
    ((∃ n, (DecryptStream C (salt ++ nonce ++ (encodeFrames fs ++ tail)) output password
          totalBytes onProgress).err = some (Error.chunkTooLarge n 65552)) ∨
      (DecryptStream C (salt ++ nonce ++ (encodeFrames fs ++ tail)) output password totalBytes
        onProgress).err = some Error.unexpectedEOFChunk ∨
      (DecryptStream C (salt ++ nonce ++ (encodeFrames fs ++ tail)) output password totalBytes
        onProgress).err = some Error.openFailed) ∧
    (DecryptStream C (salt ++ nonce ++ (encodeFrames fs ++ tail)) output password totalBytes
      onProgress).state.output.buf = output.buf ++ (fs.map Frame.plaintext).flatten := by
  obtain ⟨lenBuf, rest, rfl, h4, hcases⟩ := hfail
  rw [DecryptStream_after_frames C hKey password salt nonce _ fs output totalBytes onProgress
    hs hn hw hfs]
  obtain ⟨hi, ho, hcn, -⟩ := decAdvance_facts totalBytes onProgress fs
    ⟨lenBuf ++ rest, output, nonce, 28, []⟩
  simp only at hi ho hcn
  by_cases hbig : 65552 < Uint32 lenBuf
  · rw [decLoop_stop _ _ _ _ _ _ _ _
      (decStep_tooLarge C _ 65552 totalBytes onProgress _ lenBuf rest hi h4 hbig)]
    exact ⟨Or.inl ⟨_, rfl⟩, by dsimp only; rw [ho]⟩
  · by_cases hshort : rest.length < Uint32 lenBuf
    · rw [decLoop_stop _ _ _ _ _ _ _ _
        (decStep_truncated C _ 65552 totalBytes onProgress _ lenBuf rest hi h4 (by omega)
          hshort)]
      exact ⟨Or.inr (Or.inl rfl), by dsimp only; rw [ho]⟩
    · rcases hcases with h | h | ⟨c, rest2, rfl, hc, hopen⟩
      · exact absurd h hbig
      · exact absurd h hshort
      · rw [decLoop_stop _ _ _ _ _ _ _ _
          (decStep_openFailed C _ 65552 totalBytes onProgress _ lenBuf c rest2 hi h4 hc
            (by omega) (by rw [hcn]; exact hopen))]
        exact ⟨Or.inr (Or.inr rfl), by dsimp only; rw [ho]⟩

theorem DecryptStream_partial_output_witness :
    (KeyLength toy ∧ exSalt.length = 16 ∧ exNonce.length = 12 ∧ Writer.empty.room = none ∧
      FramesOpen toy (deriveKey toy [97] exSalt) exNonce
        (sealedFrames toy (deriveKey toy [97] exSalt) exNonce exReads) ∧
      FrameFails toy (deriveKey toy [97] exSalt)
        (incrementNonce^[(sealedFrames toy (deriveKey toy [97] exSalt) exNonce exReads).length]
          exNonce) [0, 1, 0, 17, 9]) ∧
    (((∃ n, (DecryptStream toy
          (exSalt ++ exNonce ++
            (encodeFrames (sealedFrames toy (deriveKey toy [97] exSalt) exNonce exReads) ++
              [0, 1, 0, 17, 9]))
          Writer.empty [97] 0 true).err = some (Error.chunkTooLarge n 65552)) ∨
      (DecryptStream toy
          (exSalt ++ exNonce ++
            (encodeFrames (sealedFrames toy (deriveKey toy [97] exSalt) exNonce exReads) ++
              [0, 1, 0, 17, 9]))
          Writer.empty [97] 0 true).err = some Error.unexpectedEOFChunk ∨
      (DecryptStream toy
          (exSalt ++ exNonce ++
            (encodeFrames (sealedFrames toy (deriveKey toy [97] exSalt) exNonce exReads) ++
              [0, 1, 0, 17, 9]))
          Writer.empty [97] 0 true).err = some Error.openFailed) ∧
    (DecryptStream toy
        (exSalt ++ exNonce ++
          (encodeFrames (sealedFrames toy (deriveKey toy [97] exSalt) exNonce exReads) ++
            [0, 1, 0, 17, 9]))
        Writer.empty [97] 0 true).state.output.buf =
      Writer.empty.buf ++
        ((sealedFrames toy (deriveKey toy [97] exSalt) exNonce exReads).map
          Frame.plaintext).flatten) :=
  ⟨⟨toy_KeyLength, by decide, by decide, rfl,
      FramesOpen_sealedFrames toy toy_SealLength toy_OpenInvertsSeal _ exReads (by decide) _,
      ⟨[0, 1, 0, 17], [9], rfl, rfl, Or.inl (by decide)⟩⟩,
    DecryptStream_partial_output toy toy_KeyLength [97] exSalt exNonce [0, 1, 0, 17, 9]
      (sealedFrames toy (deriveKey toy [97] exSalt) exNonce exReads) Writer.empty 0 true
      (by decide) (by decide) rfl
      (FramesOpen_sealedFrames toy toy_SealLength toy_OpenInvertsSeal _ exReads (by decide) _)
      ⟨[0, 1, 0, 17], [9], rfl, rfl, Or.inl (by decide)⟩⟩

/-! ## A source that fills every read -/

theorem fillReads_nil : fillReads [] = [] := by
  rw [fillReads]; simp

theorem fillReads_cons (P : Bytes) (h : P ≠ []) :
    fillReads P = P.take ChunkSize :: fillReads (P.drop ChunkSize) := by
  rw [fillReads]; simp [h]

/-- The number of reads of a filling source and the length of each of them. -/
theorem fillReads_lengths :
    ∀ (n : Nat) (P : Bytes), P.length = n →
      (fillReads P).length = (n + 65535) / 65536 ∧
      (fillReads P).flatten = P ∧
      (∀ r ∈ fillReads P, r ≠ [] ∧ r.length ≤ 65536) ∧
      ∀ i, i < (n + 65535) / 65536 →
        ((fillReads P).getD i []).length =
          if i + 1 < (n + 65535) / 65536 then 65536 else n - 65536 * ((n + 65535) / 65536 - 1) := by
  intro n
  induction n using Nat.strong_induction_on with
  | _ n ih =>
    intro P hP
    by_cases h0 : P = []
    · subst h0
      simp only [List.length_nil] at hP
      subst hP
      rw [fillReads_nil]
      simp
    · have hpos : 0 < n := by rw [← hP]; exact List.length_pos.2 h0
      have hdl : (P.drop ChunkSize).length = n - 65536 := by
        rw [List.length_drop, hP]; rfl
      have htl : (P.take ChunkSize).length = min 65536 n := by
        rw [List.length_take, hP]; rfl
      obtain ⟨k1, k2, k3, k4⟩ := ih (n - 65536) (by omega) (P.drop ChunkSize) hdl
      rw [fillReads_cons P h0]
      have hK : (n + 65535) / 65536 = (n - 65536 + 65535) / 65536 + 1 := by omega
      refine ⟨?_, ?_, ?_, ?_⟩
      · rw [List.length_cons, k1, hK]
      · rw [List.flatten_cons, k2, List.take_append_drop]
      · intro r hr
        rcases List.mem_cons.1 hr with rfl | hr
        · constructor
          · intro hnil
            have := congrArg List.length hnil
            rw [htl] at this
            simp only [List.length_nil] at this
            omega
          · rw [htl]; omega
        · exact k3 r hr
      · intro i hi
        cases i with
        | zero =>
          simp only [List.getD_cons_zero, htl]
          split_ifs with h1
          · omega
          · omega
        | succ i =>
          simp only [List.getD_cons_succ]
          rw [k4 i (by omega)]
          split_ifs with h1 h2 h2
          · rfl
          · omega
          · omega
          · omega

theorem header_frames_eq_layout (C : Primitives) (hLen : SealLength C) (key salt nonce : Bytes)
    (rs : List Bytes) (hrs : ∀ r ∈ rs, r.length ≤ 65536) :
    salt ++ nonce ++ frames C key nonce rs = layout C key salt nonce rs := by
  have h := frames_eq_layout C hLen key nonce rs hrs 0
  simp only [Function.iterate_zero, id_eq] at h
  simp only [layout, List.enum, h]

/-- C11. Chunk count: on a source that holds a plaintext of `N` bytes and fills
every read, `EncryptStream` returns no error, calls `Seal` `ceil (N / 65536)`
times and writes that many frames, one per read; every read but the last has
65536 bytes and the last has `N - 65536 * (ceil (N / 65536) - 1)`; for
`N = 150000` the reads have 65536, 65536 and 18928 bytes. -/
theorem EncryptStream_chunk_count (C : Primitives) (hKey : KeyLength C) (hLen : SealLength C)
    (password salt nonce extra P : Bytes) (src : Source) (hsrc : Delivers src (fillReads P))
    (totalBytes : Int) (onProgress : Bool) (hs : salt.length = 16) (hn : nonce.length = 12) :
    (EncryptStream C (salt ++ nonce ++ extra) src Writer.empty password totalBytes
        onProgress).err = none ∧
      (EncryptStream C (salt ++ nonce ++ extra) src Writer.empty password totalBytes
        onProgress).state.output.buf =
        layout C (deriveKey C password salt) salt nonce (fillReads P) ∧
      (fillReads P).length = (P.length + 65535) / 65536 ∧
      (EncryptStream C (salt ++ nonce ++ extra) src Writer.empty password totalBytes
        onProgress).state.sealNonces.length = (P.length + 65535) / 65536 ∧
      (∀ i, i < (P.length + 65535) / 65536 →
        ((fillReads P).getD i []).length =
          if i + 1 < (P.length + 65535) / 65536 then 65536
          else P.length - 65536 * ((P.length + 65535) / 65536 - 1)) ∧
      (P.length = 150000 → (fillReads P).map List.length = [65536, 65536, 18928]) := by
  obtain ⟨k1, -, k3, k4⟩ := fillReads_lengths P.length P rfl
  obtain ⟨he, hb⟩ := EncryptStream_output C hKey password salt nonce extra (fillReads P) src
    hsrc totalBytes onProgress hs hn (fun r hr => (k3 r hr).1)
  have hsn := (encLoop_delivers C (deriveKey C password salt) totalBytes onProgress
    (fillReads P) src hsrc ⟨⟨Writer.empty.buf ++ salt ++ nonce, none⟩, nonce, 0, [], [], 0⟩
    (fun r hr => (k3 r hr).1) rfl).2.2.2
  refine ⟨he, ?_, k1, ?_, k4, ?_⟩
  · rw [hb]
    exact header_frames_eq_layout C hLen _ salt nonce _ (fun r hr => (k3 r hr).2)
  · rw [EncryptStream_eq_encLoop C hKey password salt nonce extra _ Writer.empty totalBytes
      onProgress hs hn rfl, hsn]
    simp [k1]
  · intro hN
    rw [hN] at k1 k4
    have h3 : (fillReads P).length = 3 := by rw [k1]
    obtain ⟨a, b, c, habc⟩ := List.length_eq_three.1 h3
    have e0 := k4 0 (by norm_num)
    have e1 := k4 1 (by norm_num)
    have e2 := k4 2 (by norm_num)
    rw [habc] at e0 e1 e2 ⊢
    simp only [List.getD_cons_zero, List.getD_cons_succ] at e0 e1 e2
    norm_num at e0 e1 e2
    simp [e0, e1, e2]

theorem EncryptStream_chunk_count_witness :
    (KeyLength toy ∧ SealLength toy ∧
      Delivers (Source.ofReads (fillReads (List.replicate 150000 0)))
        (fillReads (List.replicate 150000 0)) ∧
      exSalt.length = 16 ∧ exNonce.length = 12) ∧
    ((EncryptStream toy (exSalt ++ exNonce ++ [])
        (Source.ofReads (fillReads (List.replicate 150000 0))) Writer.empty [97] 150000
        true).err = none ∧
      (fillReads (List.replicate 150000 0)).map List.length = [65536, 65536, 18928]) :=
  ⟨⟨toy_KeyLength, toy_SealLength, Or.inl rfl, by decide, by decide⟩,
    (EncryptStream_chunk_count toy toy_KeyLength toy_SealLength [97] exSalt exNonce []
      (List.replicate 150000 0) (Source.ofReads (fillReads (List.replicate 150000 0)))
      (Or.inl rfl) 150000 true (by decide) (by decide)).1,
    (EncryptStream_chunk_count toy toy_KeyLength toy_SealLength [97] exSalt exNonce []
      (List.replicate 150000 0) (Source.ofReads (fillReads (List.replicate 150000 0)))
      (Or.inl rfl) 150000 true (by decide) (by decide)).2.2.2.2.2
      (List.length_replicate 150000 0)⟩

/-! ## Reads after a short read -/

theorem result_ofReads_data (rs : List Bytes) :
    ∀ i, (Source.result (Source.ofReads rs) i).data = rs.getD i [] := by
  induction rs with
  | nil => intro i; simp [Source.result, Source.ofReads]
  | cons r rs ih =>
    intro i
    cases i with
    | zero => simp [Source.result, Source.ofReads]
    | succ i =>
      have h := ih i
      simp only [Source.result, Source.ofReads, List.map_cons, List.getD_cons_succ] at h ⊢
      exact h

theorem result_ofReads_ge (rs : List Bytes) (i : Nat) (h : rs.length ≤ i) :
    Source.result (Source.ofReads rs) i = ⟨[], some Error.EOF⟩ := by
  simp only [Source.result, Source.ofReads]
  rw [List.getD_eq_default]
  simpa using h

theorem result_ofReadsEOF_data (rs : List Bytes) :
    ∀ i, (Source.result (Source.ofReadsEOF rs) i).data = rs.getD i [] := by
  induction rs with
  | nil => intro i; simp [Source.result, Source.ofReadsEOF]
  | cons r rs ih =>
    intro i
    cases rs with
    | nil =>
      cases i with
      | zero => simp [Source.result, Source.ofReadsEOF]
      | succ i => simp [Source.result, Source.ofReadsEOF]
    | cons r2 rs =>
      cases i with
      | zero => simp [Source.result, Source.ofReadsEOF]
      | succ i =>
        have h := ih i
        simp only [Source.result, Source.ofReadsEOF, List.getD_cons_succ] at h ⊢
        exact h

/-- The number of reads when the end of file comes with the last bytes. -/
theorem encLoop_ofReadsEOF_reads (C : Primitives) (key : Bytes) (totalBytes : Int)
    (onProgress : Bool) (rs : List Bytes) :
    ∀ st : EncState, (∀ r ∈ rs, r ≠ []) → st.output.room = none → rs ≠ [] →
      (encLoop C key totalBytes onProgress (Source.ofReadsEOF rs) st).state.reads =
        st.reads + rs.length := by
  induction rs with
  | nil => intro st _ _ h; exact absurd rfl h
  | cons r rs ih =>
    intro st hrs hw _
    have hr : r ≠ [] := hrs r (by simp)
    have hstep := encChunk_unbounded C key totalBytes onProgress r
      { st with reads := st.reads + 1 } hr hw
    cases rs with
    | nil =>
      simp only [Source.ofReadsEOF, encLoop, hstep, List.length_singleton]
    | cons r2 rs =>
      have hih := ih (encChunk C key totalBytes onProgress r { st with reads := st.reads + 1 }).2
        (fun x hx => hrs x (by simp [hx])) (by rw [hstep]) (by simp)
      simp only [Source.ofReadsEOF, encLoop, hstep] at hih ⊢
      rw [hih]
      simp only [List.length_cons]
      omega

/-- C15, as stated, fails: a source may return short reads without being at its
end. On the script of three one-byte reads `EncryptStream` returns no error and
issues four reads; read number 0 returns one byte, and the read after it
returns a byte and no `io.EOF`. -/
theorem short_read_followed_by_more_reads :
    (EncryptStream toy (exSalt ++ exNonce ++ []) (Source.ofReads [[1], [2], [3]]) Writer.empty
        [97] 0 false).err = none ∧
      (EncryptStream toy (exSalt ++ exNonce ++ []) (Source.ofReads [[1], [2], [3]]) Writer.empty
        [97] 0 false).state.reads = 4 ∧
      (Source.result (Source.ofReads [[1], [2], [3]]) 0).data.length < 65536 ∧
      ¬ (4 ≤ 0 + 2) ∧
      Source.result (Source.ofReads [[1], [2], [3]]) 1 = ⟨[2], none⟩ := by
  rw [EncryptStream_eq_encLoop toy toy_KeyLength [97] exSalt exNonce [] _ Writer.empty 0 false
    (by decide) (by decide) rfl]
  obtain ⟨h1, -, -, -, h5⟩ := encLoop_ofReads toy (deriveKey toy [97] exSalt) 0 false
    [[1], [2], [3]] ⟨⟨Writer.empty.buf ++ exSalt ++ exNonce, none⟩, exNonce, 0, [], [], 0⟩
    (by decide) rfl
  exact ⟨h1, h5, by decide, by decide, by decide⟩

/-- C15, amended. On a source that holds a plaintext and fills every read,
whenever a read issued by `EncryptStream` returns fewer than 65536 bytes,
`EncryptStream` issues at most one further read, and that read returns no bytes
and `io.EOF`. -/
theorem EncryptStream_reads_after_short (C : Primitives) (hKey : KeyLength C)
    (password salt nonce extra P : Bytes) (src : Source) (hsrc : Delivers src (fillReads P))
    (totalBytes : Int) (onProgress : Bool) (hs : salt.length = 16) (hn : nonce.length = 12) :
    ∀ i, i < (EncryptStream C (salt ++ nonce ++ extra) src Writer.empty password totalBytes
        onProgress).state.reads →
      (Source.result src i).data.length < 65536 →
      (EncryptStream C (salt ++ nonce ++ extra) src Writer.empty password totalBytes
        onProgress).state.reads ≤ i + 2 ∧
      (i + 1 < (EncryptStream C (salt ++ nonce ++ extra) src Writer.empty password totalBytes
          onProgress).state.reads →
        Source.result src (i + 1) = ⟨[], some Error.EOF⟩) := by
  obtain ⟨k1, -, k3, k4⟩ := fillReads_lengths P.length P rfl
  rw [EncryptStream_eq_encLoop C hKey password salt nonce extra _ Writer.empty totalBytes
    onProgress hs hn rfl]
  have hof := (encLoop_ofReads C (deriveKey C password salt) totalBytes onProgress (fillReads P)
    ⟨⟨Writer.empty.buf ++ salt ++ nonce, none⟩, nonce, 0, [], [], 0⟩
    (fun r hr => (k3 r hr).1) rfl).2.2.2.2
  simp only [Nat.zero_add] at hof
  have hshort : ∀ i, i < (fillReads P).length → ((fillReads P).getD i []).length < 65536 →
      i + 1 = (fillReads P).length := by
    intro i hi hlt
    rw [k1] at hi ⊢
    have h := k4 i hi
    rw [h] at hlt
    split_ifs at hlt with hc
    · omega
    · omega
  have hcase1 : ∀ i, i < (fillReads P).length + 1 →
      (Source.result (Source.ofReads (fillReads P)) i).data.length < 65536 →
      (fillReads P).length + 1 ≤ i + 2 ∧
      (i + 1 < (fillReads P).length + 1 →
        Source.result (Source.ofReads (fillReads P)) (i + 1) = ⟨[], some Error.EOF⟩) := by
    intro i hi hlt
    rw [result_ofReads_data] at hlt
    by_cases hik : i < (fillReads P).length
    · have := hshort i hik hlt
      exact ⟨by omega, fun _ => result_ofReads_ge _ _ (by omega)⟩
    · exact ⟨by omega, fun h => absurd h (by omega)⟩
  rcases hsrc with rfl | rfl
  · rw [hof]
    exact hcase1
  · by_cases hnil : fillReads P = []
    · have hsame : Source.ofReadsEOF (fillReads P) = Source.ofReads (fillReads P) := by
        rw [hnil]; rfl
      rw [hsame, hof]
      exact hcase1
    · have hr := encLoop_ofReadsEOF_reads C (deriveKey C password salt) totalBytes onProgress
        (fillReads P) ⟨⟨Writer.empty.buf ++ salt ++ nonce, none⟩, nonce, 0, [], [], 0⟩
        (fun r hr => (k3 r hr).1) rfl hnil
      simp only [Nat.zero_add] at hr
      rw [hr]
      intro i hi hlt
      rw [result_ofReadsEOF_data] at hlt
      have := hshort i hi hlt
      exact ⟨by omega, fun h => absurd h (by omega)⟩

theorem EncryptStream_reads_after_short_witness :
    (KeyLength toy ∧ Delivers (Source.ofReads (fillReads [1, 2, 3])) (fillReads [1, 2, 3]) ∧
      exSalt.length = 16 ∧ exNonce.length = 12) ∧
    (∀ i, i < (EncryptStream toy (exSalt ++ exNonce ++ []) (Source.ofReads (fillReads [1, 2, 3]))
        Writer.empty [97] 3 true).state.reads →
      (Source.result (Source.ofReads (fillReads [1, 2, 3])) i).data.length < 65536 →
      (EncryptStream toy (exSalt ++ exNonce ++ []) (Source.ofReads (fillReads [1, 2, 3]))
        Writer.empty [97] 3 true).state.reads ≤ i + 2 ∧
      (i + 1 < (EncryptStream toy (exSalt ++ exNonce ++ [])
          (Source.ofReads (fillReads [1, 2, 3])) Writer.empty [97] 3 true).state.reads →
        Source.result (Source.ofReads (fillReads [1, 2, 3])) (i + 1) =
          ⟨[], some Error.EOF⟩)) :=
  ⟨⟨toy_KeyLength, Or.inl rfl, by decide, by decide⟩,
    EncryptStream_reads_after_short toy toy_KeyLength [97] exSalt exNonce [] [1, 2, 3]
      (Source.ofReads (fillReads [1, 2, 3])) (Or.inl rfl) 3 true (by decide) (by decide)⟩

/-! ## Progress calls -/

theorem int64_of_range (x : Int) (h0 : 0 ≤ x) (h1 : x < 2 ^ 63) : int64 x = x := by
  unfold int64
  rw [Int.emod_eq_of_lt (by omega) (by omega)]
  omega

theorem encProgress_eq_runningSums (totalBytes : Int) (rs : List Bytes) :
    ∀ start : Int, encProgress totalBytes start rs =
      runningSums totalBytes start (rs.map List.length) := by
  induction rs with
  | nil => intro start; rfl
  | cons r rs ih => intro start; simp [encProgress, runningSums, ih]

theorem decProgress_eq_runningSums (totalBytes : Int) (fs : List Frame) :
    ∀ start : Int, decProgress totalBytes start fs =
      runningSums totalBytes start (fs.map (fun f => 4 + Uint32 f.lenBuf)) := by
  induction fs with
  | nil => intro start; rfl
  | cons f fs ih =>
    intro start
    have h : start + 4 + (Uint32 f.lenBuf : Int) = start + ((4 + Uint32 f.lenBuf : Nat) : Int) := by
      push_cast; ring
    simp only [decProgress, runningSums, List.map_cons, ih, h]

/-- The running sums of positive increments: one entry per increment, the total
passed through, values strictly increasing from above `start`, entry `i` the
sum of the first `i + 1` increments, the last one the sum of all. -/
theorem runningSums_facts (totalBytes : Int) (ds : List Nat) :
    ∀ start : Int, (∀ d ∈ ds, 0 < d) →
      (runningSums totalBytes start ds).length = ds.length ∧
      (∀ e ∈ runningSums totalBytes start ds, e.2 = totalBytes ∧ start < e.1) ∧
      ((runningSums totalBytes start ds).map Prod.fst).Pairwise (fun a b => a < b) ∧
      (∀ i, i < ds.length →
        (runningSums totalBytes start ds).getD i (0, 0) =
          (start + (((ds.take (i + 1)).sum : Nat) : Int), totalBytes)) ∧
      (ds ≠ [] → (runningSums totalBytes start ds).getLast? =
        some (start + ((ds.sum : Nat) : Int), totalBytes)) := by
  induction ds with
  | nil =>
    intro start _
    simp [runningSums]
  | cons d ds ih =>
    intro start hpos
    have hd : 0 < d := hpos d (by simp)
    obtain ⟨h1, h2, h3, h4, h5⟩ := ih (start + (d : Int)) (fun x hx => hpos x (by simp [hx]))
    refine ⟨by simp [runningSums, h1], ?_, ?_, ?_, ?_⟩
    · intro e he
      simp only [runningSums, List.mem_cons] at he
      rcases he with rfl | he
      · exact ⟨rfl, by simp only; omega⟩
      · obtain ⟨k1, k2⟩ := h2 e he
        exact ⟨k1, by omega⟩
    · simp only [runningSums, List.map_cons, List.pairwise_cons]
      refine ⟨?_, h3⟩
      intro a ha
      obtain ⟨e, he, rfl⟩ := List.mem_map.1 ha
      exact (h2 e he).2
    · intro i hi
      cases i with
      | zero => simp [runningSums]
      | succ i =>
        simp only [runningSums, List.getD_cons_succ]
        rw [h4 i (by simpa using hi)]
        simp only [List.take_succ_cons, List.sum_cons]
        push_cast
        ring_nf
    · intro _
      cases ds with
      | nil => simp [runningSums]
      | cons d2 ds2 =>
        have h := h5 (by simp)
        simp only [runningSums] at h ⊢
        rw [List.getLast?_cons_cons, h]
        simp only [List.sum_cons]
        push_cast
        ring_nf

/-- The progress calls of the encryption loop when the byte counter stays
below `2 ^ 63`. -/
theorem encLoop_ofReads_progress (C : Primitives) (key : Bytes) (totalBytes : Int)
    (rs : List Bytes) :
    ∀ st : EncState, (∀ r ∈ rs, r ≠ []) → st.output.room = none → 0 ≤ st.processedBytes →
      st.processedBytes + (((rs.map List.length).sum : Nat) : Int) < 2 ^ 63 →
      (encLoop C key totalBytes true (Source.ofReads rs) st).state.progress =
        st.progress ++ encProgress totalBytes st.processedBytes rs := by
  induction rs with
  | nil =>
    intro st _ _ _ _
    simp [Source.ofReads, encLoop, encProgress]
  | cons r rs ih =>
    intro st hrs hw h0 hlt
    have hr : r ≠ [] := hrs r (by simp)
    have hstep := encChunk_unbounded C key totalBytes true r
      { st with reads := st.reads + 1 } hr hw
    simp only [List.map_cons, List.sum_cons, Nat.cast_add] at hlt
    have hsum0 : (0 : Int) ≤ (((rs.map List.length).sum : Nat) : Int) := Int.natCast_nonneg _
    have hp : int64 (st.processedBytes + (r.length : Int)) = st.processedBytes + r.length :=
      int64_of_range _ (by omega) (by omega)
    have hih := ih (encChunk C key totalBytes true r { st with reads := st.reads + 1 }).2
      (fun x hx => hrs x (by simp [hx])) (by rw [hstep]) (by rw [hstep]; simp only [hp]; omega)
      (by rw [hstep]; simp only [hp]; omega)
    have heq : encLoop C key totalBytes true (Source.ofReads (r :: rs)) st =
        encLoop C key totalBytes true (Source.ofReads rs)
          (encChunk C key totalBytes true r { st with reads := st.reads + 1 }).2 := by
      simp only [Source.ofReads, List.map_cons, encLoop]
      rw [hstep]
    rw [heq, hih, hstep]
    simp [encProgress, hp]

/-- The progress calls of the decryption loop when the byte counter stays below
`2 ^ 63`. -/
theorem decAdvance_progress (totalBytes : Int) (fs : List Frame) :
    ∀ st : DecState, 0 ≤ st.processedBytes →
      st.processedBytes + (((fs.map (fun f => 4 + Uint32 f.lenBuf)).sum : Nat) : Int) < 2 ^ 63 →
      (decAdvance totalBytes true fs st).progress =
        st.progress ++ decProgress totalBytes st.processedBytes fs := by
  induction fs with
  | nil => intro st _ _; simp [decAdvance, decProgress]
  | cons f fs ih =>
    intro st h0 hlt
    simp only [List.map_cons, List.sum_cons, Nat.cast_add, Nat.cast_ofNat] at hlt
    have hsum0 : (0 : Int) ≤ (((fs.map (fun f => 4 + Uint32 f.lenBuf)).sum : Nat) : Int) :=
      Int.natCast_nonneg _
    have hu0 : (0 : Int) ≤ (Uint32 f.lenBuf : Int) := Int.natCast_nonneg _
    have hp1 : int64 (st.processedBytes + 4) = st.processedBytes + 4 :=
      int64_of_range _ (by omega) (by omega)
    have hp2 : int64 (st.processedBytes + 4 + (Uint32 f.lenBuf : Int)) =
        st.processedBytes + 4 + (Uint32 f.lenBuf : Int) :=
      int64_of_range _ (by omega) (by omega)
    simp only [decAdvance, hp1, hp2, if_true]
    rw [ih _ (by simp only; omega) (by simp only; omega)]
    simp [decProgress]

theorem encodeFrames_length (C : Primitives) (key : Bytes) (fs : List Frame) :
    ∀ nonce : Bytes, FramesOpen C key nonce fs →
      (encodeFrames fs).length = (fs.map (fun f => 4 + Uint32 f.lenBuf)).sum := by
  induction fs with
  | nil => intro nonce _; rfl
  | cons f fs ih =>
    intro nonce hfo
    obtain ⟨h4, -, hc, -, hrest⟩ := hfo
    have h := ih _ hrest
    simp only [encodeFrames] at h
    simp only [encodeFrames, List.map_cons, List.flatten_cons, List.length_append, h4, hc, h,
      List.sum_cons]

/-- With a sink that accepts every write, `DecryptStream` on a header followed
by frames that open returns `nil` in the state that the frames lead to. -/
theorem DecryptStream_frames_result (C : Primitives) (hKey : KeyLength C)
    (password salt nonce : Bytes) (fs : List Frame) (output : Writer) (totalBytes : Int)
    (onProgress : Bool) (hs : salt.length = 16) (hn : nonce.length = 12)
    (hw : output.room = none) (hfs : FramesOpen C (deriveKey C password salt) nonce fs) :
    DecryptStream C (salt ++ nonce ++ encodeFrames fs) output password totalBytes onProgress =
      ⟨none, decAdvance totalBytes onProgress fs ⟨[], output, nonce, 28, []⟩⟩ := by
  have h := DecryptStream_after_frames C hKey password salt nonce [] fs output totalBytes
    onProgress hs hn hw hfs
  rw [List.append_nil] at h
  rw [h, decLoop_stop _ _ _ _ _ _ _ _
    (decStep_eof _ _ _ _ _ _ (decAdvance_facts totalBytes onProgress fs _).1)]

theorem sum_length_le (rs : List Bytes) :
    (rs.map List.length).sum ≤ (rs.map (fun r => r.length + 20)).sum := by
  induction rs with
  | nil => simp
  | cons r rs ih => simp only [List.map_cons, List.sum_cons]; omega

/-- The progress calls of `EncryptStream` with a non-nil callback. -/
theorem EncryptStream_progress (C : Primitives) (hKey : KeyLength C)
    (password salt nonce extra : Bytes) (rs : List Bytes) (src : Source)
    (hsrc : Delivers src rs) (totalBytes : Int) (hs : salt.length = 16)
    (hn : nonce.length = 12) (hrs : ∀ r ∈ rs, r ≠ [])
    (hsmall : (rs.map List.length).sum < 2 ^ 63) :
    (EncryptStream C (salt ++ nonce ++ extra) src Writer.empty password totalBytes
      true).state.progress = encProgress totalBytes 0 rs := by
  rw [EncryptStream_eq_encLoop C hKey password salt nonce extra _ Writer.empty totalBytes
    true hs hn rfl]
  have hlt : (0 : Int) + (((rs.map List.length).sum : Nat) : Int) < 2 ^ 63 := by
    have : (((rs.map List.length).sum : Nat) : Int) < ((2 ^ 63 : Nat) : Int) :=
      Int.ofNat_lt.2 hsmall
    simpa using this
  have h := encLoop_ofReads_progress C (deriveKey C password salt) totalBytes rs
    ⟨⟨Writer.empty.buf ++ salt ++ nonce, none⟩, nonce, 0, [], [], 0⟩ hrs rfl (le_refl _) hlt
  simp only [List.nil_append] at h
  rcases hsrc with rfl | rfl
  · exact h
  · rw [(encLoop_ofReadsEOF C (deriveKey C password salt) totalBytes true rs _).2.2.2.2.1]
    exact h

/-- The progress calls of `DecryptStream` with a non-nil callback on a header
followed by frames that open. -/
theorem DecryptStream_progress (C : Primitives) (hKey : KeyLength C)
    (password salt nonce : Bytes) (fs : List Frame) (output : Writer) (totalBytes : Int)
    (hs : salt.length = 16) (hn : nonce.length = 12) (hw : output.room = none)
    (hfs : FramesOpen C (deriveKey C password salt) nonce fs)
    (hsmall : 28 + (encodeFrames fs).length < 2 ^ 63) :
    (DecryptStream C (salt ++ nonce ++ encodeFrames fs) output password totalBytes true).err =
        none ∧
      (DecryptStream C (salt ++ nonce ++ encodeFrames fs) output password totalBytes
        true).state.progress = decProgress totalBytes 28 fs := by
  rw [DecryptStream_frames_result C hKey password salt nonce fs output totalBytes true hs hn hw
    hfs]
  refine ⟨rfl, ?_⟩
  have hl := encodeFrames_length C _ fs nonce hfs
  have hlt : (28 : Int) + (((fs.map (fun f => 4 + Uint32 f.lenBuf)).sum : Nat) : Int) <
      2 ^ 63 := by
    rw [← hl]
    have : ((28 + (encodeFrames fs).length : Nat) : Int) < ((2 ^ 63 : Nat) : Int) :=
      Int.ofNat_lt.2 hsmall
    simpa using this
  have h := decAdvance_progress totalBytes fs ⟨[], output, nonce, 28, []⟩ (by norm_num) hlt
  simpa using h

theorem sum_length_add (rs : List Bytes) :
    (rs.map (fun r => r.length + 20)).sum = (rs.map List.length).sum + 20 * rs.length := by
  induction rs with
  | nil => simp
  | cons r rs ih => simp only [List.map_cons, List.sum_cons, List.length_cons, ih]; omega

/-- C16. `DecryptStream` counts consumed container bytes: on a header followed
by frames that open (fewer than `2 ^ 63` bytes in all), with a non-nil callback
and a sink that accepts every write, the call after frame `i` reports
`28 + sum over j <= i of (4 + declared length of frame j)`, the last call
reports the length of the container, `DecryptFile` passes that length as
`totalBytes`, and the container of three chunks with 150000 plaintext bytes
has 150088 bytes. -/
theorem DecryptStream_counts_container_bytes (C : Primitives) (hKey : KeyLength C)
    (password salt nonce : Bytes) (fs : List Frame) (output : Writer) (totalBytes : Int)
    (hs : salt.length = 16) (hn : nonce.length = 12) (hw : output.room = none)
    (hfs : FramesOpen C (deriveKey C password salt) nonce fs)
    (hsmall : 28 + (encodeFrames fs).length < 2 ^ 63) :
    (DecryptStream C (salt ++ nonce ++ encodeFrames fs) output password totalBytes true).err =
        none ∧
      (∀ i, i < fs.length →
        (DecryptStream C (salt ++ nonce ++ encodeFrames fs) output password totalBytes
          true).state.progress.getD i (0, 0) =
          (28 + ((((fs.take (i + 1)).map (fun f => 4 + Uint32 f.lenBuf)).sum : Nat) : Int),
            totalBytes)) ∧
      (fs ≠ [] →
        (DecryptStream C (salt ++ nonce ++ encodeFrames fs) output password totalBytes
          true).state.progress.getLast? =
          some (((salt ++ nonce ++ encodeFrames fs).length : Int), totalBytes)) ∧
      DecryptFile C (some (salt ++ nonce ++ encodeFrames fs)) (some output) password true =
        some (DecryptStream C (salt ++ nonce ++ encodeFrames fs) output password
          ((salt ++ nonce ++ encodeFrames fs).length : Int) true) ∧
      (∀ rs : List Bytes, fs = sealedFrames C (deriveKey C password salt) nonce rs →
        SealLength C → rs.length = 3 → rs.flatten.length = 150000 →
        (salt ++ nonce ++ encodeFrames fs).length = 150088) := by
  obtain ⟨he, hp⟩ := DecryptStream_progress C hKey password salt nonce fs output totalBytes hs hn
    hw hfs hsmall
  have hl := encodeFrames_length C _ fs nonce hfs
  obtain ⟨-, -, -, r4, r5⟩ := runningSums_facts totalBytes
    (fs.map (fun f => 4 + Uint32 f.lenBuf)) 28
    (fun d hd => by
      obtain ⟨f, -, rfl⟩ := List.mem_map.1 hd
      omega)
  rw [hp, decProgress_eq_runningSums]
  refine ⟨he, ?_, ?_, rfl, ?_⟩
  · intro i hi
    rw [r4 i (by simpa using hi), List.map_take]
  · intro hne
    rw [r5 (by simpa using hne), ← hl]
    simp only [List.length_append, hs, hn]
    push_cast
    ring_nf
  · intro rs hrs hLen h3 hN
    rw [hrs, encodeFrames_sealedFrames]
    simp only [List.length_append, hs, hn, frames_length C hLen, sum_length_add, h3]
    rw [← List.length_flatten, hN]

theorem DecryptStream_counts_container_bytes_witness :
    (KeyLength toy ∧ exSalt.length = 16 ∧ exNonce.length = 12 ∧ Writer.empty.room = none ∧
      FramesOpen toy (deriveKey toy [97] exSalt) exNonce
        (sealedFrames toy (deriveKey toy [97] exSalt) exNonce exReads) ∧
      28 + (encodeFrames (sealedFrames toy (deriveKey toy [97] exSalt) exNonce exReads)).length <
        2 ^ 63) ∧
    ((DecryptStream toy
        (exSalt ++ exNonce ++
          encodeFrames (sealedFrames toy (deriveKey toy [97] exSalt) exNonce exReads))
        Writer.empty [97] 72 true).err = none ∧
      (DecryptStream toy
        (exSalt ++ exNonce ++
          encodeFrames (sealedFrames toy (deriveKey toy [97] exSalt) exNonce exReads))
        Writer.empty [97] 72 true).state.progress.getLast? =
        some (((exSalt ++ exNonce ++
          encodeFrames (sealedFrames toy (deriveKey toy [97] exSalt) exNonce exReads)).length :
            Int), 72)) :=
  ⟨⟨toy_KeyLength, by decide, by decide, rfl,
      FramesOpen_sealedFrames toy toy_SealLength toy_OpenInvertsSeal _ exReads (by decide) _,
      by decide⟩,
    (DecryptStream_counts_container_bytes toy toy_KeyLength [97] exSalt exNonce
      (sealedFrames toy (deriveKey toy [97] exSalt) exNonce exReads) Writer.empty 72
      (by decide) (by decide) rfl
      (FramesOpen_sealedFrames toy toy_SealLength toy_OpenInvertsSeal _ exReads (by decide) _)
      (by decide)).1,
    (DecryptStream_counts_container_bytes toy toy_KeyLength [97] exSalt exNonce
      (sealedFrames toy (deriveKey toy [97] exSalt) exNonce exReads) Writer.empty 72
      (by decide) (by decide) rfl
      (FramesOpen_sealedFrames toy toy_SealLength toy_OpenInvertsSeal _ exReads (by decide) _)
      (by decide)).2.2.1 (by decide)⟩

/-- C12, as stated, fails for `DecryptStream`: on the container of the two
chunks `[1, 2, 3]` and `[4]` (4 plaintext bytes) it returns no error and its two
progress calls report 51 and 72 bytes, the container bytes read so far. -/
theorem decrypt_progress_counts_container_not_plaintext :
    (EncryptStream toy (exSalt ++ exNonce ++ []) (Source.ofReads exReads) Writer.empty [97] 4
        true).err = none ∧
      (DecryptStream toy
        (EncryptStream toy (exSalt ++ exNonce ++ []) (Source.ofReads exReads) Writer.empty [97] 4
          true).state.output.buf
        Writer.empty [97] 72 true).err = none ∧
      (DecryptStream toy
        (EncryptStream toy (exSalt ++ exNonce ++ []) (Source.ofReads exReads) Writer.empty [97] 4
          true).state.output.buf
        Writer.empty [97] 72 true).state.progress = [(51, 72), (72, 72)] ∧
      exReads.flatten.length = 4 ∧
      (DecryptStream toy
        (EncryptStream toy (exSalt ++ exNonce ++ []) (Source.ofReads exReads) Writer.empty [97] 4
          true).state.output.buf
        Writer.empty [97] 72 true).state.progress.getLast? ≠
        some ((exReads.flatten.length : Int), 72) := by
  obtain ⟨he, hb⟩ := EncryptStream_output toy toy_KeyLength [97] exSalt exNonce [] exReads
    (Source.ofReads exReads) (Or.inl rfl) 4 true (by decide) (by decide) (by decide)
  obtain ⟨hd, hp⟩ := DecryptStream_progress toy toy_KeyLength [97] exSalt exNonce
    (sealedFrames toy (deriveKey toy [97] exSalt) exNonce exReads) Writer.empty 72
    (by decide) (by decide) rfl
    (FramesOpen_sealedFrames toy toy_SealLength toy_OpenInvertsSeal _ exReads (by decide) _)
    (by decide)
  rw [hb, ← encodeFrames_sealedFrames]
  rw [hp]
  exact ⟨he, hd, by decide, by decide, by decide⟩

/-! ## Wrong password, one rejected chunk -/

theorem sealedFrames_ciphertext (C : Primitives) (key : Bytes) (rs : List Bytes) :
    ∀ (nonce : Bytes) (j : Nat), j < rs.length →
      ((sealedFrames C key nonce rs).map Frame.ciphertext).getD j [] =
        C.Seal key (incrementNonce^[j] nonce) (rs.getD j []) := by
  induction rs with
  | nil => intro nonce j hj; simp at hj
  | cons r rs ih =>
    intro nonce j hj
    cases j with
    | zero => simp [sealedFrames]
    | succ j =>
      simp only [sealedFrames, List.map_cons, List.getD_cons_succ]
      rw [ih (incrementNonce nonce) j (by simpa using hj), Function.iterate_succ_apply]

/-- On frames whose length fields fit, when `Open` rejects the sealed chunk of
frame `j` under the nonce of that frame, the decryption loop returns the error
of `Open`; when that frame is the first one, sink and progress calls are as
before. -/
theorem decLoop_rejected (C : Primitives) (key : Bytes) (totalBytes : Int) (onProgress : Bool)
    (fs : List Frame) :
    ∀ (st : DecState) (j : Nat),
      (∀ f ∈ fs, f.lenBuf.length = 4 ∧ Uint32 f.lenBuf ≤ 65552 ∧
        f.ciphertext.length = Uint32 f.lenBuf) →
      st.output.room = none → st.input = encodeFrames fs → j < fs.length →
      C.Open key (incrementNonce^[j] st.currNonce) ((fs.map Frame.ciphertext).getD j []) =
        none →
      (decLoop C key 65552 totalBytes onProgress st).err = some Error.openFailed ∧
      (j = 0 → (decLoop C key 65552 totalBytes onProgress st).state.output = st.output ∧
        (decLoop C key 65552 totalBytes onProgress st).state.progress = st.progress) := by
  induction fs with
  | nil => intro st j _ _ _ hj; simp at hj
  | cons f fs ih =>
    intro st j hfs hw hin hj hrej
    obtain ⟨h4, hmax, hc⟩ := hfs f (by simp)
    have hin2 : st.input = f.lenBuf ++ (f.ciphertext ++ encodeFrames fs) := by
      rw [hin]; simp [encodeFrames, List.append_assoc]
    cases hopen : C.Open key st.currNonce f.ciphertext with
    | none =>
      rw [decLoop_stop _ _ _ _ _ _ _ _
        (decStep_openFailed C key 65552 totalBytes onProgress st _ _ _ hin2 h4 hc hmax hopen)]
      exact ⟨rfl, fun _ => ⟨rfl, rfl⟩⟩
    | some p =>
      cases j with
      | zero =>
        simp only [Function.iterate_zero, id_eq, List.map_cons, List.getD_cons_zero] at hrej
        rw [hrej] at hopen
        cases hopen
      | succ j =>
        rw [decLoop_next _ _ _ _ _ _ _
          (decStep_frame C key 65552 totalBytes onProgress st _ _ _ p hin2 h4 hc hmax hopen hw)]
        simp only [List.map_cons, List.getD_cons_succ, Function.iterate_succ_apply] at hrej
        constructor
        · refine (ih _ j ?_ ?_ ?_ ?_ ?_).1
          · exact fun g hg => hfs g (by simp [hg])
          · exact hw
          · rfl
          · simpa using hj
          · exact hrej
        · intro h
          omega

/-- C5, amended. Wrong password: when the container was written by
`EncryptStream` from at least one non-empty read under the password `password`
and `Open` under the key derived from `password2` rejects the sealed chunk of
some read `j` (under the nonce of that chunk), `DecryptStream` with `password2`
returns the error of `Open` and not `nil`; when the rejected chunk is the first
one, it writes nothing and makes no progress call. -/
theorem DecryptStream_wrong_password (C : Primitives) (hKey : KeyLength C)
    (hLen : SealLength C) (password password2 salt nonce extra : Bytes) (rs : List Bytes)
    (src : Source) (hsrc : Delivers src rs)
    (totalBytes totalBytes2 : Int) (onProgress onProgress2 : Bool) (j : Nat)
    (hs : salt.length = 16) (hn : nonce.length = 12)
    (hrs : ∀ r ∈ rs, r ≠ [] ∧ r.length ≤ 65536) (hj : j < rs.length)
    (hrej : C.Open (deriveKey C password2 salt) (incrementNonce^[j] nonce)
      (C.Seal (deriveKey C password salt) (incrementNonce^[j] nonce) (rs.getD j [])) = none) :
    (DecryptStream C
      (EncryptStream C (salt ++ nonce ++ extra) src Writer.empty password
        totalBytes onProgress).state.output.buf
      Writer.empty password2 totalBytes2 onProgress2).err = some Error.openFailed ∧
    (j = 0 →
      (DecryptStream C
        (EncryptStream C (salt ++ nonce ++ extra) src Writer.empty password
          totalBytes onProgress).state.output.buf
        Writer.empty password2 totalBytes2 onProgress2).state.output.buf = [] ∧
      (DecryptStream C
        (EncryptStream C (salt ++ nonce ++ extra) src Writer.empty password
          totalBytes onProgress).state.output.buf
        Writer.empty password2 totalBytes2 onProgress2).state.progress = []) := by
  obtain ⟨-, hb⟩ := EncryptStream_output C hKey password salt nonce extra rs src hsrc totalBytes
    onProgress hs hn (fun r hr => (hrs r hr).1)
  have hwf := sealedFrames_wellFramed C hLen (deriveKey C password salt) rs hrs nonce
  rw [hb, DecryptStream_eq_decLoop C hKey password2 salt nonce _ Writer.empty totalBytes2
    onProgress2 hs hn]
  obtain ⟨h1, h2⟩ := decLoop_rejected C (deriveKey C password2 salt) totalBytes2 onProgress2
    (sealedFrames C (deriveKey C password salt) nonce rs)
    ⟨frames C (deriveKey C password salt) nonce rs, Writer.empty, nonce, 28, []⟩ j
    (fun f hf => by
      obtain ⟨-, -, k3, k4, -, k6⟩ := hwf f hf
      exact ⟨k3, k6, k4⟩)
    rfl (by simp [encodeFrames_sealedFrames]) (by rw [sealedFrames_length]; exact hj)
    (by rw [sealedFrames_ciphertext C _ rs nonce j hj]; exact hrej)
  refine ⟨h1, fun h0 => ?_⟩
  obtain ⟨k1, k2⟩ := h2 h0
  exact ⟨by rw [k1]; rfl, k2⟩

theorem DecryptStream_wrong_password_witness :
    (KeyLength toy ∧ SealLength toy ∧ Delivers (Source.ofReads exReads) exReads ∧
      exSalt.length = 16 ∧ exNonce.length = 12 ∧
      (∀ r ∈ exReads, r ≠ [] ∧ r.length ≤ 65536) ∧ 0 < exReads.length ∧
      toy.Open (deriveKey toy [98] exSalt) (incrementNonce^[0] exNonce)
        (toy.Seal (deriveKey toy [97] exSalt) (incrementNonce^[0] exNonce)
          (exReads.getD 0 [])) = none) ∧
    ((DecryptStream toy
      (EncryptStream toy (exSalt ++ exNonce ++ []) (Source.ofReads exReads) Writer.empty [97] 4
        true).state.output.buf
      Writer.empty [98] 0 true).err = some Error.openFailed ∧
    (0 = 0 →
      (DecryptStream toy
        (EncryptStream toy (exSalt ++ exNonce ++ []) (Source.ofReads exReads) Writer.empty [97] 4
          true).state.output.buf
        Writer.empty [98] 0 true).state.output.buf = [] ∧
      (DecryptStream toy
        (EncryptStream toy (exSalt ++ exNonce ++ []) (Source.ofReads exReads) Writer.empty [97] 4
          true).state.output.buf
        Writer.empty [98] 0 true).state.progress = [])) :=
  ⟨⟨toy_KeyLength, toy_SealLength, Or.inl rfl, by decide, by decide, by decide, by decide,
      by decide⟩,
    DecryptStream_wrong_password toy toy_KeyLength toy_SealLength [97] [98] exSalt exNonce []
      exReads (Source.ofReads exReads) (Or.inl rfl) 4 0 true true 0 (by decide) (by decide)
      (by decide) (by decide) (by decide)⟩

/-! ## Progress calls and the sink, for every sink -/

theorem Writer.Write_buf_prefix (w : Writer) (p : Bytes) : w.buf <+: (w.Write p).1.buf := by
  unfold Writer.Write
  split
  · exact List.prefix_append _ _
  · split
    · exact List.prefix_append _ _
    · exact List.prefix_append _ _

theorem Writer.Write_ok_buf (w w2 : Writer) (p : Bytes) (h : w.Write p = (w2, none)) :
    w2.buf = w.buf ++ p := by
  unfold Writer.Write at h
  split at h
  · simp only [Prod.mk.injEq, and_true] at h
    rw [← h]
  · split at h
    · simp only [Prod.mk.injEq, and_true] at h
      rw [← h]
    · simp at h

/-- The block `if n > 0 { ... }` on a non-empty read and any sink: either a
write fails, and then no progress call is added and the sink keeps what it
held, or the frame is in the sink and the progress call is made. -/
theorem encChunk_cases (C : Primitives) (key : Bytes) (totalBytes : Int) (onProgress : Bool)
    (data : Bytes) (st : EncState) (hd : data ≠ []) :
    (∃ e st1, encChunk C key totalBytes onProgress data st = (some e, st1) ∧
      st1.progress = st.progress ∧ st.output.buf <+: st1.output.buf) ∨
    (∃ w2 : Writer,
      w2.buf = st.output.buf ++ (PutUint32 (uint32 (C.Seal key st.currNonce data).length) ++
        C.Seal key st.currNonce data) ∧
      encChunk C key totalBytes onProgress data st =
        (none, { st with
          output := w2
          currNonce := incrementNonce st.currNonce
          processedBytes := int64 (st.processedBytes + data.length)
          progress :=
            if onProgress then
              st.progress ++ [(int64 (st.processedBytes + data.length), totalBytes)]
            else st.progress
          sealNonces := st.sealNonces ++ [st.currNonce] })) := by
  have hpos : data.length > 0 := List.length_pos.2 hd
  simp only [encChunk, hpos, if_true]
  rcases h1 : st.output.Write (PutUint32 (uint32 (C.Seal key st.currNonce data).length)) with
    ⟨w, _ | e1⟩
  · have hp1 := Writer.Write_ok_buf _ _ _ h1
    dsimp only
    rcases h2 : w.Write (C.Seal key st.currNonce data) with ⟨w2, _ | e2⟩
    · have hp2 := Writer.Write_ok_buf _ _ _ h2
      right
      exact ⟨w2, by rw [hp2, hp1, List.append_assoc], rfl⟩
    · left
      refine ⟨e2, _, rfl, rfl, ?_⟩
      have hpre := Writer.Write_buf_prefix w (C.Seal key st.currNonce data)
      rw [h2] at hpre
      have hpre1 : st.output.buf <+: w.buf := by rw [hp1]; exact List.prefix_append _ _
      exact hpre1.trans hpre
  · left
    refine ⟨e1, _, rfl, rfl, ?_⟩
    have hpre := Writer.Write_buf_prefix st.output
      (PutUint32 (uint32 (C.Seal key st.currNonce data).length))
    rw [h1] at hpre
    exact hpre

theorem encChunk_outcomes (C : Primitives) (key : Bytes) (totalBytes : Int)
    (data : Bytes) (st : EncState) (hd : data ≠ []) :
    (∃ e st1, encChunk C key totalBytes true data st = (some e, st1) ∧
      st1.progress = st.progress ∧ st.output.buf <+: st1.output.buf) ∨
    (∃ st1, encChunk C key totalBytes true data st = (none, st1) ∧
      st1.output.buf = st.output.buf ++
        (PutUint32 (uint32 (C.Seal key st.currNonce data).length) ++
          C.Seal key st.currNonce data) ∧
      st1.currNonce = incrementNonce st.currNonce ∧
      st1.processedBytes = int64 (st.processedBytes + data.length) ∧
      st1.progress = st.progress ++ [(int64 (st.processedBytes + data.length), totalBytes)]) := by
  rcases encChunk_cases C key totalBytes true data st hd with h | ⟨w2, hw2, heq⟩
  · exact Or.inl h
  · exact Or.inr ⟨_, heq, hw2, rfl, rfl, rfl⟩

/-- The encryption loop with a non-nil callback on any sink: the progress calls
made are those of the first `m` reads, the frames of these reads are in the
sink, and `m` is the number of reads when the loop returns `nil`. -/
theorem encLoop_calls (C : Primitives) (key : Bytes) (totalBytes : Int) (rs : List Bytes) :
    ∀ st : EncState, (∀ r ∈ rs, r ≠ []) → 0 ≤ st.processedBytes →
      st.processedBytes + (((rs.map List.length).sum : Nat) : Int) < 2 ^ 63 →
      ∃ m, m ≤ rs.length ∧
        (encLoop C key totalBytes true (Source.ofReads rs) st).state.progress =
          st.progress ++ encProgress totalBytes st.processedBytes (rs.take m) ∧
        (st.output.buf ++ frames C key st.currNonce (rs.take m)) <+:
          (encLoop C key totalBytes true (Source.ofReads rs) st).state.output.buf ∧
        ((encLoop C key totalBytes true (Source.ofReads rs) st).err = none → m = rs.length) := by
  induction rs with
  | nil =>
    intro st _ _ _
    refine ⟨0, le_refl _, ?_, ?_, fun _ => rfl⟩
    · simp [Source.ofReads, encLoop, encProgress]
    · simp [Source.ofReads, encLoop, frames]
  | cons r rs ih =>
    intro st hrs h0 hlt
    have hr : r ≠ [] := hrs r (by simp)
    simp only [List.map_cons, List.sum_cons, Nat.cast_add] at hlt
    have hsum0 : (0 : Int) ≤ (((rs.map List.length).sum : Nat) : Int) := Int.natCast_nonneg _
    have hp : int64 (st.processedBytes + (r.length : Int)) = st.processedBytes + r.length :=
      int64_of_range _ (by omega) (by omega)
    rcases encChunk_outcomes C key totalBytes r { st with reads := st.reads + 1 } hr with
      ⟨e, st1, heq, hpr, hpre⟩ | ⟨st1, heq, hbuf, hnonce, hpb, hprog⟩
    · have hloop : encLoop C key totalBytes true (Source.ofReads (r :: rs)) st =
          ⟨some e, st1⟩ := by
        simp only [Source.ofReads, List.map_cons, encLoop, heq]
      rw [hloop]
      refine ⟨0, Nat.zero_le _, ?_, ?_, fun h => ?_⟩
      · simpa [encProgress] using hpr
      · simpa [frames] using hpre
      · simp at h
    · have hloop : encLoop C key totalBytes true (Source.ofReads (r :: rs)) st =
          encLoop C key totalBytes true (Source.ofReads rs) st1 := by
        simp only [Source.ofReads, List.map_cons, encLoop, heq]
      simp only at hbuf hnonce hpb hprog
      rw [hp] at hpb hprog
      obtain ⟨m, hm, k1, k2, k3⟩ := ih st1 (fun x hx => hrs x (by simp [hx]))
        (by rw [hpb]; omega) (by rw [hpb]; omega)
      rw [hloop]
      refine ⟨m + 1, by simpa using hm, ?_, ?_, fun h => by rw [k3 h]; rfl⟩
      · rw [k1, hprog, hpb]
        simp [encProgress]
      · rw [hbuf, hnonce] at k2
        simpa [frames, List.append_assoc] using k2

/-- The progress calls of `EncryptStream` with a non-nil callback on any sink:
they are the calls of the first `m` reads, the header and the frames of these
reads are in the sink when a call was made, and `m` is the number of reads when
the function returns `nil`. -/
theorem EncryptStream_calls (C : Primitives) (hKey : KeyLength C)
    (password salt nonce extra : Bytes) (rs : List Bytes) (src : Source)
    (hsrc : Delivers src rs) (output : Writer) (totalBytes : Int) (hs : salt.length = 16)
    (hn : nonce.length = 12) (hrs : ∀ r ∈ rs, r ≠ [])
    (hsmall : (rs.map List.length).sum < 2 ^ 63) :
    ∃ m, m ≤ rs.length ∧
      (EncryptStream C (salt ++ nonce ++ extra) src output password totalBytes
        true).state.progress = encProgress totalBytes 0 (rs.take m) ∧
      (0 < m → (output.buf ++ (salt ++ nonce ++
          frames C (deriveKey C password salt) nonce (rs.take m))) <+:
        (EncryptStream C (salt ++ nonce ++ extra) src output password totalBytes
          true).state.output.buf) ∧
      ((EncryptStream C (salt ++ nonce ++ extra) src output password totalBytes true).err =
        none → m = rs.length) := by
  have h1 : ReadFull (salt ++ nonce ++ extra) SaltSize = (none, salt, nonce ++ extra) := by
    rw [List.append_assoc]
    exact ReadFull_append salt (nonce ++ extra) SaltSize hs
  have h2 : ReadFull (nonce ++ extra) NonceSize = (none, nonce, extra) :=
    ReadFull_append nonce extra NonceSize hn
  have hlt : (0 : Int) + (((rs.map List.length).sum : Nat) : Int) < 2 ^ 63 := by
    have : (((rs.map List.length).sum : Nat) : Int) < ((2 ^ 63 : Nat) : Int) :=
      Int.ofNat_lt.2 hsmall
    simpa using this
  rcases hw1 : output.Write salt with ⟨w1, _ | e1⟩
  · have hb1 := Writer.Write_ok_buf _ _ _ hw1
    rcases hw2 : w1.Write nonce with ⟨w2, _ | e2⟩
    · have hb2 := Writer.Write_ok_buf _ _ _ hw2
      have hE : EncryptStream C (salt ++ nonce ++ extra) src output password totalBytes true =
          encLoop C (deriveKey C password salt) totalBytes true src
            ⟨w2, nonce, 0, [], [], 0⟩ := by
        simp only [EncryptStream, h1, h2, hw1, hw2, NewCipher_deriveKey C hKey password salt]
      obtain ⟨m, hm, k1, k2, k3⟩ := encLoop_calls C (deriveKey C password salt) totalBytes rs
        ⟨w2, nonce, 0, [], [], 0⟩ hrs (le_refl _) hlt
      simp only [List.nil_append, hb2, hb1] at k1 k2
      rw [hE]
      rcases hsrc with rfl | rfl
      · exact ⟨m, hm, k1, fun _ => by simpa [List.append_assoc] using k2, k3⟩
      · obtain ⟨q1, q2, -, -, q5, -⟩ := encLoop_ofReadsEOF C (deriveKey C password salt)
          totalBytes true rs ⟨w2, nonce, 0, [], [], 0⟩
        rw [q1, q2, q5]
        exact ⟨m, hm, k1, fun _ => by simpa [List.append_assoc] using k2, k3⟩
    · refine ⟨0, Nat.zero_le _, ?_, fun h => absurd h (lt_irrefl _), fun h => ?_⟩
      · simp only [EncryptStream, h1, h2, hw1, hw2, NewCipher_deriveKey C hKey password salt]
        rfl
      · simp only [EncryptStream, h1, h2, hw1, hw2, NewCipher_deriveKey C hKey password salt]
          at h
        simp at h
  · refine ⟨0, Nat.zero_le _, ?_, fun h => absurd h (lt_irrefl _), fun h => ?_⟩
    · simp only [EncryptStream, h1, hw1]
      rfl
    · simp only [EncryptStream, h1, hw1] at h
      simp at h

/-- One pass of the decryption loop over a frame that opens, on any sink:
either the write fails, and then no progress call is added and the sink keeps
what it held, or the plaintext is in the sink and the progress call is made. -/
theorem decStep_frame_outcomes (C : Primitives) (key : Bytes) (maxChunkLen : Nat)
    (totalBytes : Int) (st : DecState) (lenBuf c tail p : Bytes)
    (hin : st.input = lenBuf ++ (c ++ tail)) (h4 : lenBuf.length = 4)
    (hc : c.length = Uint32 lenBuf) (hmax : Uint32 lenBuf ≤ maxChunkLen)
    (hopen : C.Open key st.currNonce c = some p) :
    (∃ e st1, decStep C key maxChunkLen totalBytes true st = Step.stop (some e) st1 ∧
      st1.progress = st.progress ∧ st.output.buf <+: st1.output.buf) ∨
    (∃ st1, decStep C key maxChunkLen totalBytes true st = Step.next st1 ∧
      st1.input = tail ∧ st1.output.buf = st.output.buf ++ p ∧
      st1.currNonce = incrementNonce st.currNonce ∧
      st1.processedBytes = int64 (int64 (st.processedBytes + 4) + (Uint32 lenBuf : Nat)) ∧
      st1.progress = st.progress ++
        [(int64 (int64 (st.processedBytes + 4) + (Uint32 lenBuf : Nat)), totalBytes)]) := by
  have hnot : ¬ Uint32 lenBuf > maxChunkLen := by omega
  rcases hw : st.output.Write p with ⟨w, _ | e⟩
  · right
    refine ⟨{ st with
      input := tail
      output := w
      currNonce := incrementNonce st.currNonce
      processedBytes := int64 (int64 (st.processedBytes + 4) + (Uint32 lenBuf : Nat))
      progress := st.progress ++
        [(int64 (int64 (st.processedBytes + 4) + (Uint32 lenBuf : Nat)), totalBytes)] },
      ?_, rfl, Writer.Write_ok_buf _ _ _ hw, rfl, rfl, rfl⟩
    simp [decStep, hin, ReadFull_append lenBuf (c ++ tail) 4 h4, hnot,
      ReadFull_append c tail (Uint32 lenBuf) hc, hopen, hw]
  · left
    have hpre := Writer.Write_buf_prefix st.output p
    rw [hw] at hpre
    refine ⟨e, { st with
      input := tail
      processedBytes := int64 (int64 (st.processedBytes + 4) + (Uint32 lenBuf : Nat))
      output := w }, ?_, rfl, hpre⟩
    simp [decStep, hin, ReadFull_append lenBuf (c ++ tail) 4 h4, hnot,
      ReadFull_append c tail (Uint32 lenBuf) hc, hopen, hw]

/-- The decryption loop with a non-nil callback on frames that open and any
sink: the progress calls made are those of the first `m` frames, the
plaintexts of these frames are in the sink, and `m` is the number of frames
when the loop returns `nil`. -/
theorem decLoop_calls (C : Primitives) (key : Bytes) (totalBytes : Int) (fs : List Frame) :
    ∀ st : DecState, FramesOpen C key st.currNonce fs → st.input = encodeFrames fs →
      0 ≤ st.processedBytes →
      st.processedBytes + (((fs.map (fun f => 4 + Uint32 f.lenBuf)).sum : Nat) : Int) < 2 ^ 63 →
      ∃ m, m ≤ fs.length ∧
        (decLoop C key 65552 totalBytes true st).state.progress =
          st.progress ++ decProgress totalBytes st.processedBytes (fs.take m) ∧
        (st.output.buf ++ ((fs.take m).map Frame.plaintext).flatten) <+:
          (decLoop C key 65552 totalBytes true st).state.output.buf ∧
        ((decLoop C key 65552 totalBytes true st).err = none → m = fs.length) := by
  induction fs with
  | nil =>
    intro st _ hin _ _
    rw [decLoop_stop _ _ _ _ _ _ _ _
      (decStep_eof _ _ _ _ _ _ (by simpa [encodeFrames] using hin))]
    exact ⟨0, le_refl _, by simp [decProgress], by simp, fun _ => rfl⟩
  | cons f fs ih =>
    intro st hfo hin h0 hlt
    obtain ⟨h4, hmax, hc, hopen, hrest⟩ := hfo
    have hin2 : st.input = f.lenBuf ++ (f.ciphertext ++ encodeFrames fs) := by
      rw [hin]; simp [encodeFrames, List.append_assoc]
    simp only [List.map_cons, List.sum_cons, Nat.cast_add, Nat.cast_ofNat] at hlt
    have hsum0 : (0 : Int) ≤ (((fs.map (fun f => 4 + Uint32 f.lenBuf)).sum : Nat) : Int) :=
      Int.natCast_nonneg _
    have hu0 : (0 : Int) ≤ (Uint32 f.lenBuf : Int) := Int.natCast_nonneg _
    have hp1 : int64 (st.processedBytes + 4) = st.processedBytes + 4 :=
      int64_of_range _ (by omega) (by omega)
    have hp2 : int64 (st.processedBytes + 4 + (Uint32 f.lenBuf : Int)) =
        st.processedBytes + 4 + (Uint32 f.lenBuf : Int) :=
      int64_of_range _ (by omega) (by omega)
    rcases decStep_frame_outcomes C key 65552 totalBytes st _ _ _ _ hin2 h4 hc hmax hopen with
      ⟨e, st1, hstep, hpr, hpre⟩ | ⟨st1, hstep, hi, hbuf, hnonce, hpb, hprog⟩
    · rw [decLoop_stop _ _ _ _ _ _ _ _ hstep]
      refine ⟨0, Nat.zero_le _, ?_, ?_, fun h => ?_⟩
      · simpa [decProgress] using hpr
      · simpa using hpre
      · simp at h
    · rw [hp1, hp2] at hpb hprog
      rw [decLoop_next _ _ _ _ _ _ _ hstep]
      obtain ⟨m, hm, k1, k2, k3⟩ := ih st1 (by rw [hnonce]; exact hrest) hi
        (by rw [hpb]; omega) (by rw [hpb]; omega)
      refine ⟨m + 1, by simpa using hm, ?_, ?_, fun h => by rw [k3 h]; rfl⟩
      · rw [k1, hprog, hpb]
        simp [decProgress]
      · rw [hbuf] at k2
        simpa [List.append_assoc] using k2

/-- C12, amended. Progress reporting, with a non-nil callback, for streams of
fewer than `2 ^ 63` bytes. `E` is any run of `EncryptStream` on a source that
delivers the `K` non-empty reads `rs`, `D` any run of `DecryptStream` on a
header followed by the `K` frames `fs` that open, both on any sink.
In every run the calls made are those of the first `m` chunks, and these `m`
chunks are in the sink at return: a call is made only after its chunk was
written. The `totalBytes` of the caller is passed through and `bytesProcessed`
increases strictly. In a successful run `m = K`: there are exactly `K` calls;
call `i` of `EncryptStream` reports the plaintext bytes of the first `i + 1`
reads and its last call the number of plaintext bytes; the last call of
`DecryptStream` reports the number of bytes of the container. On sinks that
accept every write both runs are successful. -/
theorem progress_reporting (C : Primitives) (hKey : KeyLength C)
    (password salt nonce extra : Bytes) (rs : List Bytes) (src : Source)
    (hsrc : Delivers src rs) (output : Writer) (totalBytes : Int)
    (password2 salt2 nonce2 : Bytes) (fs : List Frame) (output2 : Writer) (totalBytes2 : Int)
    (E : Result EncState) (D : Result DecState)
    (hE : E = EncryptStream C (salt ++ nonce ++ extra) src output password totalBytes true)
    (hD : D = DecryptStream C (salt2 ++ nonce2 ++ encodeFrames fs) output2 password2
      totalBytes2 true)
    (hs : salt.length = 16) (hn : nonce.length = 12)
    (hs2 : salt2.length = 16) (hn2 : nonce2.length = 12)
    (hrs : ∀ r ∈ rs, r ≠ [])
    (hfs : FramesOpen C (deriveKey C password2 salt2) nonce2 fs)
    (hsmall : (rs.map List.length).sum < 2 ^ 63)
    (hsmall2 : 28 + (encodeFrames fs).length < 2 ^ 63) :
    (∃ m, m ≤ rs.length ∧
      E.state.progress = encProgress totalBytes 0 (rs.take m) ∧
      (0 < m → (output.buf ++ (salt ++ nonce ++
          frames C (deriveKey C password salt) nonce (rs.take m))) <+: E.state.output.buf) ∧
      (E.err = none → m = rs.length)) ∧
    (∃ m, m ≤ fs.length ∧
      D.state.progress = decProgress totalBytes2 28 (fs.take m) ∧
      (output2.buf ++ ((fs.take m).map Frame.plaintext).flatten) <+: D.state.output.buf ∧
      (D.err = none → m = fs.length)) ∧
    ((∀ e ∈ E.state.progress, e.2 = totalBytes) ∧
      (∀ e ∈ D.state.progress, e.2 = totalBytes2)) ∧
    ((E.state.progress.map Prod.fst).Pairwise (fun a b => a < b) ∧
      (D.state.progress.map Prod.fst).Pairwise (fun a b => a < b)) ∧
    (E.err = none →
      E.state.progress.length = rs.length ∧
      (∀ i, i < rs.length →
        E.state.progress.getD i (0, 0) =
          ((((rs.take (i + 1)).flatten.length : Nat) : Int), totalBytes)) ∧
      (rs ≠ [] → E.state.progress.getLast? = some ((rs.flatten.length : Int), totalBytes))) ∧
    (D.err = none →
      D.state.progress.length = fs.length ∧
      (fs ≠ [] → D.state.progress.getLast? =
        some (((salt2 ++ nonce2 ++ encodeFrames fs).length : Int), totalBytes2))) ∧
    (output.room = none → E.err = none) ∧
    (output2.room = none → D.err = none) := by
  subst hE
  subst hD
  obtain ⟨m, hm, a1, a2, a3⟩ := EncryptStream_calls C hKey password salt nonce extra rs src hsrc
    output totalBytes hs hn hrs hsmall
  have hl := encodeFrames_length C _ fs nonce2 hfs
  have hlt : (28 : Int) + (((fs.map (fun f => 4 + Uint32 f.lenBuf)).sum : Nat) : Int) <
      2 ^ 63 := by
    rw [← hl]
    have : ((28 + (encodeFrames fs).length : Nat) : Int) < ((2 ^ 63 : Nat) : Int) :=
      Int.ofNat_lt.2 hsmall2
    simpa using this
  obtain ⟨n, hn', b1, b2, b3⟩ := decLoop_calls C (deriveKey C password2 salt2) totalBytes2 fs
    ⟨encodeFrames fs, output2, nonce2, 28, []⟩ hfs rfl (by norm_num) hlt
  simp only [List.nil_append] at b1
  rw [← DecryptStream_eq_decLoop C hKey password2 salt2 nonce2 (encodeFrames fs) output2
    totalBytes2 true hs2 hn2] at b1 b2 b3
  obtain ⟨e1, e2, e3, e4, e5⟩ := runningSums_facts totalBytes ((rs.take m).map List.length) 0
    (fun d hd => by
      obtain ⟨r, hr, rfl⟩ := List.mem_map.1 hd
      exact List.length_pos.2 (hrs r (List.mem_of_mem_take hr)))
  obtain ⟨d1, d2, d3, -, d5⟩ := runningSums_facts totalBytes2
    ((fs.take n).map (fun f => 4 + Uint32 f.lenBuf)) 28
    (fun d hd => by
      obtain ⟨f, -, rfl⟩ := List.mem_map.1 hd
      omega)
  rw [encProgress_eq_runningSums] at a1
  rw [decProgress_eq_runningSums] at b1
  refine ⟨⟨m, hm, by rw [a1, encProgress_eq_runningSums], a2, a3⟩,
    ⟨n, hn', by rw [b1, decProgress_eq_runningSums], b2, b3⟩,
    ⟨fun e h => (e2 e (a1 ▸ h)).1, fun e h => (d2 e (b1 ▸ h)).1⟩,
    ⟨by rw [a1]; exact e3, by rw [b1]; exact d3⟩, ?_, ?_, ?_, ?_⟩
  · intro hok
    have hmK := a3 hok
    subst hmK
    rw [List.take_length] at a1 e1 e4 e5
    rw [a1]
    refine ⟨by rw [e1, List.length_map], ?_, ?_⟩
    · intro i hi
      rw [e4 i (by simpa using hi), ← List.map_take, ← List.length_flatten]
      simp
    · intro hne
      rw [e5 (by simpa using hne), ← List.length_flatten]
      simp
  · intro hok
    have hnK := b3 hok
    subst hnK
    rw [List.take_length] at b1 d1 d5
    rw [b1]
    refine ⟨by rw [d1, List.length_map], ?_⟩
    intro hne
    rw [d5 (by simpa using hne), ← hl]
    simp only [List.length_append, hs2, hn2]
    push_cast
    ring_nf
  · intro hw
    rw [EncryptStream_eq_encLoop C hKey password salt nonce extra _ output totalBytes true hs hn
      hw]
    exact (encLoop_delivers C (deriveKey C password salt) totalBytes true rs src hsrc _ hrs
      rfl).1
  · intro hw
    rw [DecryptStream_frames_result C hKey password2 salt2 nonce2 fs output2 totalBytes2 true
      hs2 hn2 hw hfs]

theorem progress_reporting_witness :
    (KeyLength toy ∧ Delivers (Source.ofReads exReads) exReads ∧ exSalt.length = 16 ∧
      exNonce.length = 12 ∧ (∀ r ∈ exReads, r ≠ []) ∧
      FramesOpen toy (deriveKey toy [97] exSalt) exNonce
        (sealedFrames toy (deriveKey toy [97] exSalt) exNonce exReads) ∧
      (exReads.map List.length).sum < 2 ^ 63 ∧
      28 + (encodeFrames (sealedFrames toy (deriveKey toy [97] exSalt) exNonce exReads)).length <
        2 ^ 63) ∧
    ((EncryptStream toy (exSalt ++ exNonce ++ []) (Source.ofReads exReads) Writer.empty [97] 4
        true).err = none ∧
      (DecryptStream toy
        (exSalt ++ exNonce ++
          encodeFrames (sealedFrames toy (deriveKey toy [97] exSalt) exNonce exReads))
        Writer.empty [97] 72 true).err = none) :=
  ⟨⟨toy_KeyLength, Or.inl rfl, by decide, by decide, by decide,
      FramesOpen_sealedFrames toy toy_SealLength toy_OpenInvertsSeal _ exReads (by decide) _,
      by decide, by decide⟩,
    (progress_reporting toy toy_KeyLength [97] exSalt exNonce [] exReads
      (Source.ofReads exReads) (Or.inl rfl) Writer.empty 4 [97] exSalt exNonce
      (sealedFrames toy (deriveKey toy [97] exSalt) exNonce exReads) Writer.empty 72 _ _ rfl rfl
      (by decide) (by decide) (by decide) (by decide) (by decide)
      (FramesOpen_sealedFrames toy toy_SealLength toy_OpenInvertsSeal _ exReads (by decide) _)
      (by decide) (by decide)).2.2.2.2.2.2.1 rfl,
    (progress_reporting toy toy_KeyLength [97] exSalt exNonce [] exReads
      (Source.ofReads exReads) (Or.inl rfl) Writer.empty 4 [97] exSalt exNonce
      (sealedFrames toy (deriveKey toy [97] exSalt) exNonce exReads) Writer.empty 72 _ _ rfl rfl
      (by decide) (by decide) (by decide) (by decide) (by decide)
      (FramesOpen_sealedFrames toy toy_SealLength toy_OpenInvertsSeal _ exReads (by decide) _)
      (by decide) (by decide)).2.2.2.2.2.2.2 rfl⟩

end Cryptolib
